import Mathlib

/-! Verification of `graph_examples.linked_lists`.

A shallow embedding of the four linked-list topologies of the repository
(`LinkedList`, `DoublyLinkedList`, `CircularLinkedList`, `CircularDoublyLinkedList`
and their node-level counterparts) together with proofs of the specification
claims about them.

Python objects live on a heap; node identity (`is` comparisons) is identity of
heap addresses.  We model the heap explicitly: an address is a `Nat`, a node is
a record of a value and optional `next`/`last` addresses (`None` ↦ `none`), and
a memory is a finitely-allocated store of nodes.  Every Python method becomes a
Lean function threading the memory; generator methods become functions
producing the (finite, or truncated) list of yielded values, driven by a fuel
argument that is always instantiated large enough (the proofs show any fuel at
least the chain length gives the loop's result).
-/

/- Heap addresses are plain naturals. -/

/-- One heap node.  `value` is the stored element, `next`/`last` model the
`next`/`last` attributes (`none` = Python `None`).  Singly linked topologies
simply never read or write `last`. -/
structure Node (α : Type) where
  value : α
  next : Option Nat
  last : Option Nat
deriving Repr, DecidableEq

/-- A memory: a total map from addresses to nodes together with the number of
allocated addresses.  Addresses `≥ size` are unallocated junk (never read by
any reachable execution). -/
structure Mem (α : Type) where
  heap : Nat → Node α
  size : Nat

/-- The empty memory. -/
def Mem.empty [Inhabited α] : Mem α := ⟨fun _ => ⟨default, none, none⟩, 0⟩

/-- Read the node stored at `a`. -/
def Mem.read (m : Mem α) (a : Nat) : Node α := m.heap a

/-- Overwrite the node stored at `a`. -/
def Mem.write (m : Mem α) (a : Nat) (n : Node α) : Mem α :=
  ⟨fun b => if b = a then n else m.heap b, m.size⟩

/-- Allocate a fresh node, returning the new memory and the fresh address. -/
def Mem.alloc (m : Mem α) (n : Node α) : Mem α × Nat :=
  (⟨fun b => if b = m.size then n else m.heap b, m.size + 1⟩, m.size)

/-- `a.next = x` -/
def Mem.setNext (m : Mem α) (a : Nat) (x : Option Nat) : Mem α :=
  m.write a { m.read a with next := x }

/-- `a.last = x` -/
def Mem.setLast (m : Mem α) (a : Nat) (x : Option Nat) : Mem α :=
  m.write a { m.read a with last := x }

/-- The address a chain continues with: the first address of `as`, or `stop`
when `as` is exhausted. -/
def nextAddr (as : List Nat) (stop : Option Nat) : Option Nat :=
  match as with
  | [] => stop
  | b :: _ => some b

/-- A singly linked chain in memory: the nodes at `locs` hold `vals` in order
and each node's `next` is the following address, the final node's `next` being
`stop` (`none` for linear chains, the head address for a full circular lap).
`last` fields are unconstrained. -/
def isChain (m : Mem α) (stop : Option Nat) : List Nat → List α → Prop
  | [], [] => True
  | a :: as, v :: vs =>
      (m.read a).value = v ∧ (m.read a).next = nextAddr as stop ∧ isChain m stop as vs
  | _, _ => False

/-- A doubly linked chain: like `isChain` but additionally each node's `last`
points to the preceding address, the first node's `last` being `before`
(`none` for linear chains, the tail address for a circular lap). -/
def isDChain (m : Mem α) (before stop : Option Nat) : List Nat → List α → Prop
  | [], [] => True
  | a :: as, v :: vs =>
      (m.read a).value = v ∧ (m.read a).next = nextAddr as stop ∧
        (m.read a).last = before ∧ isDChain m (some a) stop as vs
  | _, _ => False

/-- Address-list well-formedness: no duplicates and all allocated. -/
structure ChainInv (m : Mem α) (locs : List Nat) : Prop where
  nodup : locs.Nodup
  bounded : ∀ a ∈ locs, a < m.size

/-! ## Node-level operations (`nodes.py`, `base_nodes.py`) -/

/-- `LinkedNode.from_iterable` (nodes.py): allocate a node for the first value
(`next` defaults to `None`), recursively build the remainder, then assign
`node.next`.  Returns `none` for an empty input. -/
def LinkedNode.fromIterable : Mem α → List α → Mem α × Option Nat
  | m, [] => (m, none)
  | m, v :: vs =>
      let (m1, a) := m.alloc ⟨v, none, none⟩
      let (m2, rest) := LinkedNode.fromIterable m1 vs
      (m2.setNext a rest, some a)

/-- `DoublyLinkedNode.from_iterable` (nodes.py): like the singly version but the
freshly created node's `last` is the previously created node. -/
def DoublyLinkedNode.fromIterable : Mem α → Option Nat → List α → Mem α × Option Nat
  | m, _, [] => (m, none)
  | m, last, v :: vs =>
      let (m1, a) := m.alloc ⟨v, none, last⟩
      let (m2, rest) := DoublyLinkedNode.fromIterable m1 (some a) vs
      (m2.setNext a rest, some a)

/-- `BaseCircularLinkedNode.__init__`: `next_` defaults to `self` when absent.
The allocated address is `m.size`, so `self` is `m.size`. -/
def CircularLinkedNode.new (m : Mem α) (v : α) (next? : Option Nat) : Mem α × Nat :=
  m.alloc ⟨v, some (next?.getD m.size), none⟩

/-- `CircularDoublyLinkedNode.__init__` (nodes.py): through the cooperative
`super().__init__` chain (`BaseDoublyLinkedNode` → `BaseCircularLinkedNode`) a
missing `next_` and a missing `last` both default to `self`.  (The guard
`next_ if next is not None else self` tests the *builtin* `next`, which is
never `None`, but `BaseCircularLinkedNode.__init__` still replaces a `None`
`next_` by `self`, so the effective behaviour is as modelled.) -/
def CircularDoublyLinkedNode.new (m : Mem α) (v : α) (next? last? : Option Nat) :
    Mem α × Nat :=
  m.alloc ⟨v, some (next?.getD m.size), some (last?.getD m.size)⟩

/-- `CircularLinkedNode.from_iterable` (nodes.py).  Returns `last_node` (the
tail) when the input is exhausted. -/
def CircularLinkedNode.fromIterable :
    Mem α → Option Nat → Option Nat → List α → Mem α × Option Nat
  | m, _, lastNode, [] => (m, lastNode)
  | m, head, lastNode, v :: vs =>
      let (m1, node) := CircularLinkedNode.new m v head
      let m2 := match lastNode with
        | none => m1
        | some ln => m1.setNext ln (some node)
      CircularLinkedNode.fromIterable m2 (some (head.getD node)) (some node) vs

/-- `CircularDoublyLinkedNode.from_iterable` (nodes.py): additionally maintains
`head.last = node` as nodes are appended.  Returns the tail. -/
def CircularDoublyLinkedNode.fromIterable :
    Mem α → Option Nat → Option Nat → List α → Mem α × Option Nat
  | m, _, lastNode, [] => (m, lastNode)
  | m, head, lastNode, v :: vs =>
      let (m1, node) := CircularDoublyLinkedNode.new m v head lastNode
      let m2 := match lastNode with
        | none => m1
        | some ln => (m1.setNext ln (some node)).setLast (head.getD node) (some node)
      CircularDoublyLinkedNode.fromIterable m2 (some (head.getD node)) (some node) vs

/-- `LinkedNode.appendleft`: `return LinkedNode(value, self)` — a fresh head. -/
def LinkedNode.appendleft (m : Mem α) (self : Nat) (v : α) : Mem α × Nat :=
  m.alloc ⟨v, some self, none⟩

/-- `DoublyLinkedNode.appendleft`: `self.last = DoublyLinkedNode(value, self);
return self.last` — a fresh head. -/
def DoublyLinkedNode.appendleft (m : Mem α) (self : Nat) (v : α) : Mem α × Nat :=
  let (m1, a) := m.alloc ⟨v, some self, none⟩
  (m1.setLast self (some a), a)

/-- `CircularLinkedNode.appendleft`: `self.next = CircularLinkedNode(value,
self.next); return self` — returns the node it was called on. -/
def CircularLinkedNode.appendleft (m : Mem α) (self : Nat) (v : α) : Mem α × Nat :=
  let (m1, a) := CircularLinkedNode.new m v ((m.read self).next)
  (m1.setNext self (some a), self)

/-- `CircularDoublyLinkedNode.appendleft` (nodes.py): `self.next =
CircularDoublyLinkedNode(value, self.next, self); self.next.next.last =
self.next; return self`. -/
def CircularDoublyLinkedNode.appendleft (m : Mem α) (self : Nat) (v : α) : Mem α × Nat :=
  let (m1, a) := CircularDoublyLinkedNode.new m v ((m.read self).next) (some self)
  let m2 := m1.setNext self (some a)
  let m3 := m2.setLast ((m2.read a).next.getD a) (some a)
  (m3, self)

/-- `BaseLinearLinkedNode.__len__`: `1` plus the length after `self.next`. -/
def linNodeLen (m : Mem α) : Nat → Nat → Nat
  | 0, _ => 0
  | fuel + 1, a =>
      match (m.read a).next with
      | none => 1
      | some b => 1 + linNodeLen m fuel b

/-- `BaseLinearLinkedNode.__iter__`: yield `self.value`, then the rest. -/
def linNodeIter (m : Mem α) : Nat → Nat → List α
  | 0, _ => []
  | fuel + 1, a =>
      (m.read a).value ::
        (match (m.read a).next with
          | none => []
          | some b => linNodeIter m fuel b)

/-- `BaseCircularLinkedNode.__len__ (self, tail=None)`: stops on returning to
the original node.  Circular nodes always have a present `next`; the `getD`
fallback is never taken on represented states. -/
def circNodeLen (m : Mem α) : Nat → Nat → Option Nat → Nat
  | 0, _, _ => 0
  | fuel + 1, a, tail =>
      if tail = some a then 0
      else 1 + circNodeLen m fuel ((m.read a).next.getD a) (some (tail.getD a))

/-- `BaseCircularLinkedNode.__iter__ (self, tail=None)`: yields
`self.next.value` first — iteration of a circular node starts at its `next`. -/
def circNodeIter (m : Mem α) : Nat → Nat → Option Nat → List α
  | 0, _, _ => []
  | fuel + 1, a, tail =>
      if tail = some a then []
      else
        let nxt := (m.read a).next.getD a
        (m.read nxt).value :: circNodeIter m fuel nxt (some (tail.getD a))

/-! ## List-level states and operations (`lists.py`, `base_lists.py`) -/

/-- The single raised error kind.  All pop-style list methods execute
`raise IndexError` on an empty list; the `head` property of the circular lists
hits an `AttributeError` (`None.next`) on an empty list. -/
inductive PyErr
  | indexError
  | attributeError
deriving Repr, DecidableEq

/-- `LinkedList`: stores a `head` reference only. -/
structure LLState (α : Type) where
  mem : Mem α
  head : Option Nat

/-- `DoublyLinkedList`: stores `head` and `tail` references. -/
structure DLLState (α : Type) where
  mem : Mem α
  head : Option Nat
  tail : Option Nat

/-- `CircularLinkedList` / `CircularDoublyLinkedList`: store a `tail`
reference only (the head is the derived property `tail.next`). -/
structure CircState (α : Type) where
  mem : Mem α
  tail : Option Nat

/-- `BaseLinearLinkedList.__bool__`: `self.head is not None`. -/
def LLState.toBool (s : LLState α) : Bool := s.head.isSome

def DLLState.toBool (s : DLLState α) : Bool := s.head.isSome

/-- `BaseCircularLinkedList.__bool__`: `self.tail is not None`. -/
def CircState.toBool (s : CircState α) : Bool := s.tail.isSome

/-- `BaseLinearLinkedList.__len__`: walk `next` until `None`. -/
def linListLen (m : Mem α) : Nat → Option Nat → Nat
  | 0, _ => 0
  | _ + 1, none => 0
  | fuel + 1, some a => 1 + linListLen m fuel (m.read a).next

/-- `BaseLinearLinkedList.__iter__`: yield values while walking `next`. -/
def linListIter (m : Mem α) : Nat → Option Nat → List α
  | 0, _ => []
  | _ + 1, none => []
  | fuel + 1, some a => (m.read a).value :: linListIter m fuel (m.read a).next

def LLState.len (s : LLState α) : Nat := linListLen s.mem s.mem.size s.head

def LLState.iter (s : LLState α) : List α := linListIter s.mem s.mem.size s.head

def DLLState.len (s : DLLState α) : Nat := linListLen s.mem s.mem.size s.head

def DLLState.iter (s : DLLState α) : List α := linListIter s.mem s.mem.size s.head

/-- Loop of `BaseCircularLinkedList.__len__`: count nodes from `node` until
reaching `tailA` (the count excludes `tailA` itself). -/
def circLenLoop (m : Mem α) : Nat → Nat → Nat → Nat
  | 0, _, _ => 0
  | fuel + 1, node, tailA =>
      if node = tailA then 0
      else 1 + circLenLoop m fuel ((m.read node).next.getD node) tailA

/-- `BaseCircularLinkedList.__len__`: `0` when empty, else `1` plus the walk
from `self.head` to `self.tail`. -/
def CircState.len (s : CircState α) : Nat :=
  match s.tail with
  | none => 0
  | some t => 1 + circLenLoop s.mem s.mem.size ((s.mem.read t).next.getD t) t

/-- Loop of `BaseCircularLinkedList.__iter__`: yield values from `node` while
`node is not stop`. -/
def circIterLoop (m : Mem α) : Nat → Nat → Nat → List α
  | 0, _, _ => []
  | fuel + 1, node, stop =>
      if node = stop then []
      else (m.read node).value :: circIterLoop m fuel ((m.read node).next.getD node) stop

/-- `BaseCircularLinkedList.__iter__`: nothing when empty, else yield
`head.value` and walk from `head.next` until back at `head` (lap detection by
identity). -/
def CircState.iter (s : CircState α) : List α :=
  match s.tail with
  | none => []
  | some t =>
      let h := (s.mem.read t).next.getD t
      (s.mem.read h).value :: circIterLoop s.mem s.mem.size ((s.mem.read h).next.getD h) h

/-- The unbounded stream of `BaseCircularLinkedList.infinite_iterator`,
truncated to its first `k` elements (`islice(li.infinite_iterator(), k)`). -/
def streamTake (m : Mem α) : Nat → Nat → List α
  | 0, _ => []
  | k + 1, a => (m.read a).value :: streamTake m k ((m.read a).next.getD a)

/-- `BaseCircularLinkedList.infinite_iterator`, truncated to `k` elements: an
empty list yields nothing at all; otherwise start at `self.head` and follow
`next` forever. -/
def CircState.infTake (s : CircState α) (k : Nat) : List α :=
  match s.tail with
  | none => []
  | some t => streamTake s.mem k ((s.mem.read t).next.getD t)

/-- Loop of `LinkedList.__init__`: `node.next = LinkedNode(value); node = node.next`. -/
def LinkedList.initLoop : Mem α → Nat → List α → Mem α
  | m, _, [] => m
  | m, node, v :: vs =>
      let (m1, a) := m.alloc ⟨v, none, none⟩
      LinkedList.initLoop (m1.setNext node (some a)) a vs

/-- `LinkedList.__init__`. -/
def LinkedList.init [Inhabited α] (values : List α) : LLState α :=
  match values with
  | [] => ⟨Mem.empty, none⟩
  | v :: vs =>
      let (m1, h) := Mem.empty.alloc ⟨v, none, none⟩
      ⟨LinkedList.initLoop m1 h vs, some h⟩

/-- `LinkedList.appendleft`: `self.head = LinkedNode(value, self.head)`. -/
def LinkedList.appendleft (s : LLState α) (v : α) : LLState α :=
  let (m1, a) := s.mem.alloc ⟨v, s.head, none⟩
  ⟨m1, some a⟩

/-- `LinkedList.popleft`: raise `IndexError` when empty, else advance `head`
(no heap mutation). -/
def LinkedList.popleft (s : LLState α) : Except PyErr α × LLState α :=
  match s.head with
  | none => (.error .indexError, s)
  | some h => (.ok (s.mem.read h).value, ⟨s.mem, (s.mem.read h).next⟩)

/-- Loop of `LinkedList.reverse`:
`node.next, last_node, node = last_node, node, node.next`. -/
def LinkedList.revLoop (m : Mem α) : Nat → Option Nat → Option Nat → Mem α × Option Nat
  | 0, _, lastNode => (m, lastNode)
  | _ + 1, none, lastNode => (m, lastNode)
  | fuel + 1, some node, lastNode =>
      LinkedList.revLoop (m.setNext node lastNode) fuel ((m.read node).next) (some node)

/-- `LinkedList.reverse`: in-place pointer reversal, then `self.head = last_node`. -/
def LinkedList.reverse (s : LLState α) : LLState α :=
  let r := LinkedList.revLoop s.mem s.mem.size s.head none
  ⟨r.1, r.2⟩

/-- Loop of `DoublyLinkedList.__init__`:
`node.next = DoublyLinkedNode(value, None, node); node = node.next`;
returns the final `node` (assigned to `self.tail`). -/
def DoublyLinkedList.initLoop : Mem α → Nat → List α → Mem α × Nat
  | m, node, [] => (m, node)
  | m, node, v :: vs =>
      let (m1, a) := m.alloc ⟨v, none, some node⟩
      DoublyLinkedList.initLoop (m1.setNext node (some a)) a vs

/-- `DoublyLinkedList.__init__`. -/
def DoublyLinkedList.init [Inhabited α] (values : List α) : DLLState α :=
  match values with
  | [] => ⟨Mem.empty, none, none⟩
  | v :: vs =>
      let (m1, h) := Mem.empty.alloc ⟨v, none, none⟩
      let (m2, t) := DoublyLinkedList.initLoop m1 h vs
      ⟨m2, some h, some t⟩

/-- `DoublyLinkedList.append`: fresh tail node; when the list was empty the
head is rebound to it, else `old_tail.next` is. -/
def DoublyLinkedList.append (s : DLLState α) (v : α) : DLLState α :=
  match s.tail with
  | none =>
      let (m1, a) := s.mem.alloc ⟨v, none, none⟩
      ⟨m1, some a, some a⟩
  | some t =>
      let (m1, a) := s.mem.alloc ⟨v, none, some t⟩
      ⟨m1.setNext t (some a), s.head, some a⟩

/-- `DoublyLinkedList.appendleft`: mirror image of `append`. -/
def DoublyLinkedList.appendleft (s : DLLState α) (v : α) : DLLState α :=
  match s.head with
  | none =>
      let (m1, a) := s.mem.alloc ⟨v, none, none⟩
      ⟨m1, some a, some a⟩
  | some h =>
      let (m1, a) := s.mem.alloc ⟨v, some h, none⟩
      ⟨m1.setLast h (some a), some a, s.tail⟩

/-- `DoublyLinkedList.pop`: `if not self: raise IndexError` (the emptiness test
is `head is not None`); `self.tail = old_tail.last`; clear either `head` or the
new tail's `next`.  A state with a head but no tail is unrepresentable by
construction; the Python code would crash there (`None.last`), modelled by
`attributeError`. -/
def DoublyLinkedList.pop (s : DLLState α) : Except PyErr α × DLLState α :=
  if s.head.isNone then (.error .indexError, s)
  else
    match s.tail with
    | none => (.error .attributeError, s)
    | some t =>
        match (s.mem.read t).last with
        | none => (.ok (s.mem.read t).value, ⟨s.mem, none, none⟩)
        | some p => (.ok (s.mem.read t).value, ⟨s.mem.setNext p none, s.head, some p⟩)

/-- `DoublyLinkedList.popleft`: mirror image of `pop`. -/
def DoublyLinkedList.popleft (s : DLLState α) : Except PyErr α × DLLState α :=
  match s.head with
  | none => (.error .indexError, s)
  | some h =>
      match (s.mem.read h).next with
      | none => (.ok (s.mem.read h).value, ⟨s.mem, none, none⟩)
      | some x => (.ok (s.mem.read h).value, ⟨s.mem.setLast x none, some x, s.tail⟩)

/-- Loop of `DoublyLinkedList.reverse`:
`node.next, node.last, node = node.last, node.next, node.next` — swap the two
links of every node walking the original `next` direction. -/
def DoublyLinkedList.revLoop (m : Mem α) : Nat → Option Nat → Mem α
  | 0, _ => m
  | _ + 1, none => m
  | fuel + 1, some a =>
      let n := m.read a
      DoublyLinkedList.revLoop (m.write a ⟨n.value, n.last, n.next⟩) fuel n.next

/-- `DoublyLinkedList.reverse`: swap `head`/`tail`, then swap the links of
every node. -/
def DoublyLinkedList.reverse (s : DLLState α) : DLLState α :=
  ⟨DoublyLinkedList.revLoop s.mem s.mem.size s.head, s.tail, s.head⟩

/-- `CircularLinkedList.head` property: `return self.tail.next`.  On an empty
list the attribute access `self.tail.next` raises (`self.tail` is `None`).
`CircularDoublyLinkedList.head` is the identical code. -/
def CircularLinkedList.headProp (s : CircState α) : Except PyErr (Option Nat) :=
  match s.tail with
  | none => .error .attributeError
  | some t => .ok ((s.mem.read t).next)

/-- Loop of `CircularLinkedList.__init__`:
`node.next = CircularLinkedNode(value, head); node = node.next`. -/
def CircularLinkedList.initLoop : Mem α → Nat → Nat → List α → Mem α × Nat
  | m, _, node, [] => (m, node)
  | m, head, node, v :: vs =>
      let (m1, a) := CircularLinkedNode.new m v (some head)
      CircularLinkedList.initLoop (m1.setNext node (some a)) head a vs

/-- `CircularLinkedList.__init__`: first node self-linked, then extend keeping
`next = head`; `self.tail` is the final node. -/
def CircularLinkedList.init [Inhabited α] (values : List α) : CircState α :=
  match values with
  | [] => ⟨Mem.empty, none⟩
  | v :: vs =>
      let (m1, h) := CircularLinkedNode.new Mem.empty v none
      let (m2, t) := CircularLinkedList.initLoop m1 h h vs
      ⟨m2, some t⟩

/-- `CircularLinkedList.appendleft`: self-linked node when empty, else
`self.head = CircularLinkedNode(value, self.head)` (via the `head` setter
`self.tail.next = node`). -/
def CircularLinkedList.appendleft (s : CircState α) (v : α) : CircState α :=
  match s.tail with
  | none =>
      let (m1, a) := CircularLinkedNode.new s.mem v none
      ⟨m1, some a⟩
  | some t =>
      let (m1, a) := CircularLinkedNode.new s.mem v ((s.mem.read t).next)
      ⟨m1.setNext t (some a), some t⟩

/-- `BaseCircularLinkedList.popleft` (used by `CircularLinkedList`): raise
`IndexError` when empty; drop `tail` for a single node; else
`self.head = self.head.next` through the `head` setter (`tail.next = …`). -/
def CircularLinkedList.popleft (s : CircState α) : Except PyErr α × CircState α :=
  match s.tail with
  | none => (.error .indexError, s)
  | some t =>
      let h := (s.mem.read t).next.getD t
      let v := (s.mem.read h).value
      if t = h then (.ok v, ⟨s.mem, none⟩)
      else (.ok v, ⟨s.mem.setNext t ((s.mem.read h).next), some t⟩)

/-- Loop of `CircularLinkedList.reverse`:
`node.next, last_node, node = last_node, node, node.next` while
`node is not self.tail`; returns the final memory and `last_node`. -/
def CircularLinkedList.revLoop (m : Mem α) : Nat → Nat → Nat → Nat → Mem α × Nat
  | 0, _, lastNode, _ => (m, lastNode)
  | fuel + 1, node, lastNode, tailA =>
      if node = tailA then (m, lastNode)
      else
        CircularLinkedList.revLoop (m.setNext node (some lastNode)) fuel
          ((m.read node).next.getD node) node tailA

/-- `CircularLinkedList.reverse`: loop with `last_node` starting at the tail,
then `self.tail.next, self.tail = last_node, self.head` (the right-hand pair is
evaluated before the two assignments). -/
def CircularLinkedList.reverse (s : CircState α) : CircState α :=
  match s.tail with
  | none => s
  | some t =>
      let h := (s.mem.read t).next.getD t
      let r := CircularLinkedList.revLoop s.mem s.mem.size h t t
      let h2 := (r.1.read t).next.getD t
      ⟨r.1.setNext t (some r.2), some h2⟩

/-- Loop of `CircularDoublyLinkedList.__init__`:
`node.next = CircularDoublyLinkedNode(value, head, node); node = node.next;
head.last = node`. -/
def CircularDoublyLinkedList.initLoop : Mem α → Nat → Nat → List α → Mem α × Nat
  | m, _, node, [] => (m, node)
  | m, head, node, v :: vs =>
      let (m1, a) := CircularDoublyLinkedNode.new m v (some head) (some node)
      let m2 := (m1.setNext node (some a)).setLast head (some a)
      CircularDoublyLinkedList.initLoop m2 head a vs

/-- `CircularDoublyLinkedList.__init__`. -/
def CircularDoublyLinkedList.init [Inhabited α] (values : List α) : CircState α :=
  match values with
  | [] => ⟨Mem.empty, none⟩
  | v :: vs =>
      let (m1, h) := CircularDoublyLinkedNode.new Mem.empty v none none
      let (m2, t) := CircularDoublyLinkedList.initLoop m1 h h vs
      ⟨m2, some t⟩

/-- `CircularDoublyLinkedList.append`: when nonempty,
`self.tail = CircularDoublyLinkedNode(value, self.head, self.tail)`, then
`self.tail.last.next = self.tail` and `self.head.last = self.tail`. -/
def CircularDoublyLinkedList.append (s : CircState α) (v : α) : CircState α :=
  match s.tail with
  | none =>
      let (m1, a) := CircularDoublyLinkedNode.new s.mem v none none
      ⟨m1, some a⟩
  | some t =>
      let h := (s.mem.read t).next.getD t
      let (m1, a) := CircularDoublyLinkedNode.new s.mem v (some h) (some t)
      let m2 := m1.setNext ((m1.read a).last.getD a) (some a)
      let m3 := m2.setLast ((m2.read a).next.getD a) (some a)
      ⟨m3, some a⟩

/-- `CircularDoublyLinkedList.appendleft`: when nonempty,
`self.tail.next = CircularDoublyLinkedNode(value, self.head, self.tail)`, then
`self.head.next.last = self.tail.next`; `self.tail` is unchanged. -/
def CircularDoublyLinkedList.appendleft (s : CircState α) (v : α) : CircState α :=
  match s.tail with
  | none =>
      let (m1, a) := CircularDoublyLinkedNode.new s.mem v none none
      ⟨m1, some a⟩
  | some t =>
      let h := (s.mem.read t).next.getD t
      let (m1, a) := CircularDoublyLinkedNode.new s.mem v (some h) (some t)
      let m2 := m1.setNext t (some a)
      let hd := (m2.read t).next.getD t
      let m3 := m2.setLast ((m2.read hd).next.getD hd) ((m2.read t).next)
      ⟨m3, some t⟩

/-- `CircularDoublyLinkedList.pop`: when more than one node,
`self.tail.last.next, self.head.last, self.tail =
 self.head, self.tail.last, self.tail.last`
(right-hand side evaluated first, targets assigned left to right). -/
def CircularDoublyLinkedList.pop (s : CircState α) : Except PyErr α × CircState α :=
  match s.tail with
  | none => (.error .indexError, s)
  | some t =>
      let v := (s.mem.read t).value
      let h := (s.mem.read t).next.getD t
      if t = h then (.ok v, ⟨s.mem, none⟩)
      else
        let hOpt := (s.mem.read t).next
        let p := (s.mem.read t).last
        let m1 := s.mem.setNext (p.getD t) hOpt
        let m2 := m1.setLast ((m1.read t).next.getD t) p
        (.ok v, ⟨m2, p⟩)

/-- `CircularDoublyLinkedList.popleft`: when more than one node,
`self.tail.next = self.tail.next.next; self.tail.next.last = self.tail`. -/
def CircularDoublyLinkedList.popleft (s : CircState α) : Except PyErr α × CircState α :=
  match s.tail with
  | none => (.error .indexError, s)
  | some t =>
      let h := (s.mem.read t).next.getD t
      let v := (s.mem.read h).value
      if t = h then (.ok v, ⟨s.mem, none⟩)
      else
        let m1 := s.mem.setNext t ((s.mem.read h).next)
        let m2 := m1.setLast ((m1.read t).next.getD t) (some t)
        (.ok v, ⟨m2, some t⟩)

/-- Loop of `CircularDoublyLinkedList.reverse`: swap the two links of every
node from `self.head` while `node is not self.tail`. -/
def CircularDoublyLinkedList.revLoop (m : Mem α) : Nat → Nat → Nat → Mem α
  | 0, _, _ => m
  | fuel + 1, node, tailA =>
      if node = tailA then m
      else
        let n := m.read node
        CircularDoublyLinkedList.revLoop (m.write node ⟨n.value, n.last, n.next⟩) fuel
          (n.next.getD node) tailA

/-- `CircularDoublyLinkedList.reverse`: loop, then
`self.tail.next, self.tail.last, self.tail =
 self.tail.last, self.tail.next, self.tail.next`. -/
def CircularDoublyLinkedList.reverse (s : CircState α) : CircState α :=
  match s.tail with
  | none => s
  | some t =>
      let h := (s.mem.read t).next.getD t
      let m1 := CircularDoublyLinkedList.revLoop s.mem s.mem.size h t
      let tn := (m1.read t).next
      let tl := (m1.read t).last
      let m2 := m1.write t ⟨(m1.read t).value, tl, tn⟩
      ⟨m2, tn⟩

/-! ## Representation predicates

Each list state represents a value sequence through a list of distinct
allocated addresses forming the appropriate chain shape. -/

/-- `LinkedList` representation: `head` is the first chain address. -/
structure LLRep (s : LLState α) (locs : List Nat) (vals : List α) : Prop where
  inv : ChainInv s.mem locs
  head_eq : s.head = nextAddr locs none
  chain : isChain s.mem none locs vals

/-- `DoublyLinkedList` representation. -/
structure DLLRep (s : DLLState α) (locs : List Nat) (vals : List α) : Prop where
  inv : ChainInv s.mem locs
  head_eq : s.head = nextAddr locs none
  tail_eq : s.tail = nextAddr locs.reverse none
  chain : isDChain s.mem none none locs vals

/-- `CircularLinkedList` representation: `tail` is the last chain address and
the last node's `next` wraps to the first address. -/
structure CLLRep (s : CircState α) (locs : List Nat) (vals : List α) : Prop where
  inv : ChainInv s.mem locs
  tail_eq : s.tail = nextAddr locs.reverse none
  chain : isChain s.mem (nextAddr locs none) locs vals

/-- `CircularDoublyLinkedList` representation: additionally the first node's
`last` wraps to the tail address. -/
structure CDLLRep (s : CircState α) (locs : List Nat) (vals : List α) : Prop where
  inv : ChainInv s.mem locs
  tail_eq : s.tail = nextAddr locs.reverse none
  chain : isDChain s.mem (nextAddr locs.reverse none) (nextAddr locs none) locs vals

/-- The address reached after `k` steps of the infinite iterator. -/
def walk (m : Mem α) : Nat → Nat → Nat
  | 0, a => a
  | k + 1, a => walk m k ((m.read a).next.getD a)

/-! ## Drain loops

`while li: values.append(li.popleft())` (resp. `li.pop()`), the spec's
"repeatedly apply until empty", bounded by a fuel that the drain theorems
instantiate with the represented length. -/

def LinkedList.drainLeft : Nat → LLState α → List α × LLState α
  | 0, s => ([], s)
  | fuel + 1, s =>
      if s.toBool then
        match LinkedList.popleft s with
        | (.ok v, s') =>
            ((v :: (LinkedList.drainLeft fuel s').1), (LinkedList.drainLeft fuel s').2)
        | (.error _, s') => ([], s')
      else ([], s)

def DoublyLinkedList.drainLeft : Nat → DLLState α → List α × DLLState α
  | 0, s => ([], s)
  | fuel + 1, s =>
      if s.toBool then
        match DoublyLinkedList.popleft s with
        | (.ok v, s') =>
            ((v :: (DoublyLinkedList.drainLeft fuel s').1), (DoublyLinkedList.drainLeft fuel s').2)
        | (.error _, s') => ([], s')
      else ([], s)

def DoublyLinkedList.drainRight : Nat → DLLState α → List α × DLLState α
  | 0, s => ([], s)
  | fuel + 1, s =>
      if s.toBool then
        match DoublyLinkedList.pop s with
        | (.ok v, s') =>
            ((v :: (DoublyLinkedList.drainRight fuel s').1), (DoublyLinkedList.drainRight fuel s').2)
        | (.error _, s') => ([], s')
      else ([], s)

def CircularLinkedList.drainLeft : Nat → CircState α → List α × CircState α
  | 0, s => ([], s)
  | fuel + 1, s =>
      if s.toBool then
        match CircularLinkedList.popleft s with
        | (.ok v, s') =>
            ((v :: (CircularLinkedList.drainLeft fuel s').1), (CircularLinkedList.drainLeft fuel s').2)
        | (.error _, s') => ([], s')
      else ([], s)

def CircularDoublyLinkedList.drainLeft : Nat → CircState α → List α × CircState α
  | 0, s => ([], s)
  | fuel + 1, s =>
      if s.toBool then
        match CircularDoublyLinkedList.popleft s with
        | (.ok v, s') =>
            ((v :: (CircularDoublyLinkedList.drainLeft fuel s').1),
              (CircularDoublyLinkedList.drainLeft fuel s').2)
        | (.error _, s') => ([], s')
      else ([], s)

def CircularDoublyLinkedList.drainRight : Nat → CircState α → List α × CircState α
  | 0, s => ([], s)
  | fuel + 1, s =>
      if s.toBool then
        match CircularDoublyLinkedList.pop s with
        | (.ok v, s') =>
            ((v :: (CircularDoublyLinkedList.drainRight fuel s').1),
              (CircularDoublyLinkedList.drainRight fuel s').2)
        | (.error _, s') => ([], s')
      else ([], s)

/-! ## Operation machines for the doubly variants -/

/-- The operations of the doubly contract (`append`, `appendleft`, `pop`,
`popleft`, `reverse`). -/
inductive DOp (α : Type)
  | append (x : α)
  | appendleft (x : α)
  | pop
  | popleft
  | reverse

def DLLState.step (s : DLLState α) : DOp α → DLLState α
  | .append x => DoublyLinkedList.append s x
  | .appendleft x => DoublyLinkedList.appendleft s x
  | .pop => (DoublyLinkedList.pop s).2
  | .popleft => (DoublyLinkedList.popleft s).2
  | .reverse => DoublyLinkedList.reverse s

def DLLState.run (s : DLLState α) : List (DOp α) → DLLState α
  | [] => s
  | op :: ops => (s.step op).run ops

def CircState.stepCDLL (s : CircState α) : DOp α → CircState α
  | .append x => CircularDoublyLinkedList.append s x
  | .appendleft x => CircularDoublyLinkedList.appendleft s x
  | .pop => (CircularDoublyLinkedList.pop s).2
  | .popleft => (CircularDoublyLinkedList.popleft s).2
  | .reverse => CircularDoublyLinkedList.reverse s

def CircState.runCDLL (s : CircState α) : List (DOp α) → CircState α
  | [] => s
  | op :: ops => (s.stepCDLL op).runCDLL ops

/-! ## Repeated `popleft` (used for the drained-to-one-node facts) -/

def CircularLinkedList.popLefts : Nat → CircState α → CircState α
  | 0, s => s
  | k + 1, s => CircularLinkedList.popLefts k (CircularLinkedList.popleft s).2

def CircularDoublyLinkedList.popLefts : Nat → CircState α → CircState α
  | 0, s => s
  | k + 1, s => CircularDoublyLinkedList.popLefts k (CircularDoublyLinkedList.popleft s).2

/-- `CircularDoublyLinkedList.head` (lists.py): `return self.tail.next` — on an
empty list `self.tail` is `None` and the attribute access raises
`AttributeError`. -/
def CircularDoublyLinkedList.headProp (s : CircState α) : Except PyErr (Option Nat) :=
  match s.tail with
  | none => .error .attributeError
  | some t => .ok ((s.mem.read t).next)

theorem Mem.read_write (m : Mem α) (a : Nat) (n : Node α) (b : Nat) :
    (m.write a n).read b = if b = a then n else m.read b := rfl

theorem Mem.read_write_self (m : Mem α) (a : Nat) (n : Node α) :
    (m.write a n).read a = n := by simp [Mem.read_write]

theorem Mem.read_write_ne (m : Mem α) (a : Nat) (n : Node α) {b : Nat} (h : b ≠ a) :
    (m.write a n).read b = m.read b := by simp [Mem.read_write, h]

theorem Mem.size_write (m : Mem α) (a : Nat) (n : Node α) :
    (m.write a n).size = m.size := rfl

theorem Mem.read_alloc (m : Mem α) (n : Node α) (b : Nat) :
    (m.alloc n).1.read b = if b = m.size then n else m.read b := rfl

theorem Mem.read_alloc_lt (m : Mem α) (n : Node α) {b : Nat} (h : b < m.size) :
    (m.alloc n).1.read b = m.read b := by
  simp [Mem.read_alloc, Nat.ne_of_lt h]

theorem Mem.size_alloc (m : Mem α) (n : Node α) :
    (m.alloc n).1.size = m.size + 1 := rfl

theorem Mem.addr_alloc (m : Mem α) (n : Node α) : (m.alloc n).2 = m.size := rfl

theorem Mem.read_setNext (m : Mem α) (a : Nat) (x : Option Nat) (b : Nat) :
    (m.setNext a x).read b = if b = a then { m.read a with next := x } else m.read b := rfl

theorem Mem.read_setLast (m : Mem α) (a : Nat) (x : Option Nat) (b : Nat) :
    (m.setLast a x).read b = if b = a then { m.read a with last := x } else m.read b := rfl

theorem Mem.size_setNext (m : Mem α) (a : Nat) (x : Option Nat) :
    (m.setNext a x).size = m.size := rfl

theorem Mem.size_setLast (m : Mem α) (a : Nat) (x : Option Nat) :
    (m.setLast a x).size = m.size := rfl

theorem nextAddr_nil (stop : Option Nat) : nextAddr [] stop = stop := rfl

theorem nextAddr_cons (b : Nat) (as : List Nat) (stop : Option Nat) :
    nextAddr (b :: as) stop = some b := rfl

theorem isChain_length {m : Mem α} {stop : Option Nat} :
    ∀ {locs : List Nat} {vals : List α}, isChain m stop locs vals →
      locs.length = vals.length
  | [], [], _ => rfl
  | [], _ :: _, h => h.elim
  | _ :: _, [], h => h.elim
  | _ :: locs, _ :: vals, h => by
      simpa using @isChain_length _ m stop locs vals h.2.2

/-- Chains only look at the nodes stored at their own addresses. -/
theorem isChain_congr {m m' : Mem α} {stop : Option Nat} :
    ∀ {locs : List Nat} {vals : List α},
      (∀ a ∈ locs, m'.read a = m.read a) →
      isChain m stop locs vals → isChain m' stop locs vals
  | [], [], _, _ => trivial
  | [], _ :: _, _, h => h.elim
  | _ :: _, [], _, h => h.elim
  | a :: locs, v :: vals, hag, h => by
      refine ⟨?_, ?_, ?_⟩
      · rw [hag a (by simp)]; exact h.1
      · rw [hag a (by simp)]; exact h.2.1
      · exact isChain_congr (fun b hb => hag b (by simp [hb])) h.2.2

theorem isChain_append {m : Mem α} {stop : Option Nat} :
    ∀ {xs ys : List Nat} {vs ws : List α}, xs.length = vs.length →
      (isChain m stop (xs ++ ys) (vs ++ ws) ↔
        isChain m (nextAddr ys stop) xs vs ∧ isChain m stop ys ws)
  | [], ys, [], ws, _ => by simp [isChain]
  | x :: xs, ys, v :: vs, ws, hlen => by
      have ih := @isChain_append _ m stop xs ys vs ws (by simpa using hlen)
      constructor
      · rintro ⟨h1, h2, h3⟩
        have h3' := ih.mp h3
        refine ⟨⟨h1, ?_, h3'.1⟩, h3'.2⟩
        · cases xs <;> simpa [nextAddr] using h2
      · rintro ⟨⟨h1, h2, h3⟩, h4⟩
        refine ⟨h1, ?_, ih.mpr ⟨h3, h4⟩⟩
        · cases xs <;> simpa [nextAddr] using h2
  | [], _, _ :: _, _, hlen => by simp at hlen
  | _ :: _, _, [], _, hlen => by simp at hlen

/-- The final node of a nonempty chain points at `stop`. -/
theorem isChain_getLast_next {m : Mem α} {stop : Option Nat} :
    ∀ {locs : List Nat} {vals : List α}, isChain m stop locs vals →
      ∀ (a : Nat), locs.getLast? = some a → (m.read a).next = stop
  | [], _, _, a, h => by simp at h
  | [l], vals, hch, a, h => by
      match vals, hch with
      | v :: vs, hch =>
        simp at h
        subst h
        match vs, hch with
        | [], hch => exact hch.2.1
  | l₁ :: l₂ :: locs, vals, hch, a, h => by
      match vals, hch with
      | v :: vs, hch =>
        exact isChain_getLast_next hch.2.2 a (by simpa using h)

/-- Forgetting the `last` constraints of a doubly chain leaves a singly chain. -/
theorem isDChain.toChain {m : Mem α} {before stop : Option Nat} :
    ∀ {locs : List Nat} {vals : List α},
      isDChain m before stop locs vals → isChain m stop locs vals
  | [], [], _ => trivial
  | [], _ :: _, h => h.elim
  | _ :: _, [], h => h.elim
  | _ :: _, _ :: _, h => ⟨h.1, h.2.1, h.2.2.2.toChain⟩

theorem isDChain_length {m : Mem α} {before stop : Option Nat}
    {locs : List Nat} {vals : List α} (h : isDChain m before stop locs vals) :
    locs.length = vals.length :=
  isChain_length h.toChain

theorem isDChain_congr {m m' : Mem α} {stop : Option Nat} :
    ∀ {before : Option Nat} {locs : List Nat} {vals : List α},
      (∀ a ∈ locs, m'.read a = m.read a) →
      isDChain m before stop locs vals → isDChain m' before stop locs vals
  | _, [], [], _, _ => trivial
  | _, [], _ :: _, _, h => h.elim
  | _, _ :: _, [], _, h => h.elim
  | before, a :: locs, v :: vals, hag, h => by
      refine ⟨?_, ?_, ?_, ?_⟩
      · rw [hag a (by simp)]; exact h.1
      · rw [hag a (by simp)]; exact h.2.1
      · rw [hag a (by simp)]; exact h.2.2.1
      · exact isDChain_congr (fun b hb => hag b (by simp [hb])) h.2.2.2

theorem isDChain_append {m : Mem α} {stop : Option Nat} :
    ∀ {before : Option Nat} {xs ys : List Nat} {vs ws : List α}, xs.length = vs.length →
      (isDChain m before stop (xs ++ ys) (vs ++ ws) ↔
        isDChain m before (nextAddr ys stop) xs vs ∧
          isDChain m (nextAddr xs.reverse before) stop ys ws)
  | _, [], ys, [], ws, _ => by simp [isDChain, nextAddr]
  | before, x :: xs, ys, v :: vs, ws, hlen => by
      have ih := @isDChain_append _ m stop (some x) xs ys vs ws (by simpa using hlen)
      have hrev : nextAddr (xs.reverse ++ [x]) before = nextAddr xs.reverse (some x) := by
        cases h : xs.reverse with
        | nil => simp [nextAddr, h]
        | cons a as => simp [nextAddr, h]
      constructor
      · rintro ⟨h1, h2, h3, h4⟩
        have h4' := ih.mp h4
        refine ⟨⟨h1, ?_, h3, h4'.1⟩, ?_⟩
        · cases xs <;> simpa [nextAddr] using h2
        · simpa [List.reverse_cons, hrev] using h4'.2
      · rintro ⟨⟨h1, h2, h3, h4⟩, h5⟩
        refine ⟨h1, ?_, h3, ih.mpr ⟨h4, ?_⟩⟩
        · cases xs <;> simpa [nextAddr] using h2
        · simpa [List.reverse_cons, hrev] using h5
  | _, [], _, _ :: _, _, hlen => by simp at hlen
  | _, _ :: _, _, [], _, hlen => by simp at hlen

theorem ChainInv.length_le {m : Mem α} {locs : List Nat} (h : ChainInv m locs) :
    locs.length ≤ m.size := by
  have hsub : locs ⊆ List.range m.size := fun a ha => List.mem_range.mpr (h.bounded a ha)
  simpa using (h.nodup.subperm hsub).length_le

theorem ChainInv.of_size_le {m m' : Mem α} {locs : List Nat} (h : ChainInv m locs)
    (hs : m.size ≤ m'.size) : ChainInv m' locs :=
  ⟨h.nodup, fun a ha => lt_of_lt_of_le (h.bounded a ha) hs⟩

/-! ## Linear iteration and length -/

theorem linListIter_chain {m : Mem α} :
    ∀ {locs : List Nat} {vals : List α} {fuel : Nat},
      isChain m none locs vals → locs.length ≤ fuel →
      linListIter m fuel (nextAddr locs none) = vals
  | [], [], fuel, _, _ => by cases fuel <;> rfl
  | [], _ :: _, _, h, _ => h.elim
  | _ :: _, [], _, h, _ => h.elim
  | a :: locs, v :: vals, fuel + 1, h, hf => by
      have ih := linListIter_chain (m := m) h.2.2 (Nat.le_of_succ_le_succ (by simpa using hf))
      simpa [linListIter, nextAddr, h.1, h.2.1] using ih

theorem linListLen_chain {m : Mem α} :
    ∀ {locs : List Nat} {vals : List α} {fuel : Nat},
      isChain m none locs vals → locs.length ≤ fuel →
      linListLen m fuel (nextAddr locs none) = vals.length
  | [], [], fuel, _, _ => by cases fuel <;> rfl
  | [], _ :: _, _, h, _ => h.elim
  | _ :: _, [], _, h, _ => h.elim
  | a :: locs, v :: vals, fuel + 1, h, hf => by
      have ih := linListLen_chain (m := m) h.2.2 (Nat.le_of_succ_le_succ (by simpa using hf))
      simp only [linListLen, h.2.1, ih, List.length_cons]
      exact Nat.add_comm 1 _

theorem linNodeIter_chain {m : Mem α} :
    ∀ {locs : List Nat} {vals : List α} {fuel : Nat} {a : Nat},
      isChain m none (a :: locs) vals → locs.length + 1 ≤ fuel →
      linNodeIter m fuel a = vals := by
  intro locs
  induction locs with
  | nil =>
      intro vals fuel a h hf
      match vals, h with
      | [v], h =>
        match fuel, hf with
        | fuel + 1, _ => simp [linNodeIter, h.1, h.2.1, nextAddr]
  | cons b locs ih =>
      intro vals fuel a h hf
      match vals, h with
      | v :: vals, h =>
        match fuel, hf with
        | fuel + 1, hf =>
          have := @ih vals fuel b h.2.2
            (Nat.le_of_succ_le_succ (by simpa using hf))
          simp [linNodeIter, h.1, h.2.1, nextAddr, this]

theorem linNodeLen_chain {m : Mem α} :
    ∀ {locs : List Nat} {vals : List α} {fuel : Nat} {a : Nat},
      isChain m none (a :: locs) vals → locs.length + 1 ≤ fuel →
      linNodeLen m fuel a = vals.length := by
  intro locs
  induction locs with
  | nil =>
      intro vals fuel a h hf
      match vals, h with
      | [v], h =>
        match fuel, hf with
        | fuel + 1, _ => simp [linNodeLen, h.2.1, nextAddr]
  | cons b locs ih =>
      intro vals fuel a h hf
      match vals, h with
      | v :: vals, h =>
        match fuel, hf with
        | fuel + 1, hf =>
          have := @ih vals fuel b h.2.2
            (Nat.le_of_succ_le_succ (by simpa using hf))
          simp [linNodeLen, h.2.1, nextAddr, this, Nat.add_comm]

/-! ## Circular iteration and length -/

theorem nextAddr_none (as : List Nat) : nextAddr as none = as.head? := by
  cases as <;> rfl

theorem nextAddr_reverse (as : List Nat) : nextAddr as.reverse none = as.getLast? := by
  rw [nextAddr_none, List.head?_reverse]

theorem circIterLoop_stop (m : Mem α) (fuel : Nat) (t : Nat) :
    circIterLoop m fuel t t = [] := by
  cases fuel <;> simp [circIterLoop]

theorem circLenLoop_stop (m : Mem α) (fuel : Nat) (t : Nat) :
    circLenLoop m fuel t t = 0 := by
  cases fuel <;> simp [circLenLoop]

theorem circIterLoop_chain {m : Mem α} {stopA : Nat} :
    ∀ {locs : List Nat} {vals : List α} {fuel : Nat},
      isChain m (some stopA) locs vals → stopA ∉ locs → locs.length ≤ fuel →
      circIterLoop m fuel ((nextAddr locs (some stopA)).getD stopA) stopA = vals
  | [], [], fuel, _, _, _ => by simpa [nextAddr] using circIterLoop_stop m fuel stopA
  | [], _ :: _, _, h, _, _ => h.elim
  | _ :: _, [], _, h, _, _ => h.elim
  | a :: locs, v :: vals, fuel + 1, h, hnot, hf => by
      have hne : a ≠ stopA := fun hx => hnot (hx ▸ List.mem_cons_self a locs)
      have ih := @circIterLoop_chain _ m stopA _ _ _ h.2.2
        (fun hx => hnot (List.mem_cons_of_mem a hx))
        (Nat.le_of_succ_le_succ (by simpa using hf))
      have hstep : (m.read a).next.getD a = (nextAddr locs (some stopA)).getD stopA := by
        rw [h.2.1]; cases locs <;> rfl
      simp only [nextAddr_cons, Option.getD_some, circIterLoop]
      rw [if_neg hne, h.1, hstep, ih]

theorem circLenLoop_chain {m : Mem α} {stopA : Nat} :
    ∀ {locs : List Nat} {vals : List α} {fuel : Nat},
      isChain m (some stopA) locs vals → stopA ∉ locs → locs.length ≤ fuel →
      circLenLoop m fuel ((nextAddr locs (some stopA)).getD stopA) stopA = vals.length
  | [], [], fuel, _, _, _ => by simpa [nextAddr] using circLenLoop_stop m fuel stopA
  | [], _ :: _, _, h, _, _ => h.elim
  | _ :: _, [], _, h, _, _ => h.elim
  | a :: locs, v :: vals, fuel + 1, h, hnot, hf => by
      have hne : a ≠ stopA := fun hx => hnot (hx ▸ List.mem_cons_self a locs)
      have ih := @circLenLoop_chain _ m stopA _ _ _ h.2.2
        (fun hx => hnot (List.mem_cons_of_mem a hx))
        (Nat.le_of_succ_le_succ (by simpa using hf))
      have hstep : (m.read a).next.getD a = (nextAddr locs (some stopA)).getD stopA := by
        rw [h.2.1]; cases locs <;> rfl
      simp only [nextAddr_cons, Option.getD_some, circLenLoop]
      rw [if_neg hne, hstep, ih]
      simp [Nat.add_comm]

/-- A nonempty circular-list state iterates to exactly its represented values
(one lap, head first). -/
theorem CircState.iter_cycle {s : CircState α} {l0 : Nat} {ls : List Nat} {vals : List α}
    (hinv : ChainInv s.mem (l0 :: ls))
    (htail : s.tail = nextAddr (l0 :: ls).reverse none)
    (hchain : isChain s.mem (some l0) (l0 :: ls) vals) :
    s.iter = vals := by
  obtain ⟨t, ht⟩ : ∃ t, (l0 :: ls).getLast? = some t := by
    cases h : (l0 :: ls).getLast? with
    | none => simp at h
    | some t => exact ⟨t, rfl⟩
  have htail' : s.tail = some t := by rw [htail, nextAddr_reverse, ht]
  have htnext : (s.mem.read t).next = some l0 := isChain_getLast_next hchain t ht
  match vals, hchain with
  | v :: vs, hchain =>
    have hl0 : (s.mem.read l0).next = nextAddr ls (some l0) := hchain.2.1
    have hstart : (s.mem.read l0).next.getD l0 = (nextAddr ls (some l0)).getD l0 := by
      rw [hl0]
    have hloop := @circIterLoop_chain _ s.mem l0 _ _ _ hchain.2.2
      (fun hx => (List.nodup_cons.mp hinv.nodup).1 hx)
      (le_trans (Nat.le_succ _) hinv.length_le)
    simp only [CircState.iter, htail', htnext, Option.getD_some, hchain.1, hstart]
    rw [show (nextAddr ls (some l0)).getD l0 = (nextAddr ls (some l0)).getD l0 from rfl]
    exact congrArg (v :: ·) hloop

/-- A nonempty circular-list state has length exactly the number of
represented values. -/
theorem CircState.len_cycle {s : CircState α} {l0 : Nat} {ls : List Nat} {vals : List α}
    (hinv : ChainInv s.mem (l0 :: ls))
    (htail : s.tail = nextAddr (l0 :: ls).reverse none)
    (hchain : isChain s.mem (some l0) (l0 :: ls) vals) :
    s.len = vals.length := by
  have hne : (l0 :: ls) ≠ [] := by simp
  set locs := l0 :: ls with hlocs
  set t := locs.getLast hne with htdef
  have ht : locs.getLast? = some t := List.getLast?_eq_getLast locs hne
  have htail' : s.tail = some t := by rw [htail, nextAddr_reverse, ht]
  have htnext : (s.mem.read t).next = some l0 := isChain_getLast_next hchain t ht
  have hvlen : locs.length = vals.length := isChain_length hchain
  have hvne : vals ≠ [] := by
    intro hv; rw [hv] at hvlen; simp [hlocs] at hvlen
  have hsplitL : locs.dropLast ++ [t] = locs := List.dropLast_append_getLast hne
  have hsplitV : vals.dropLast ++ [vals.getLast hvne] = vals :=
    List.dropLast_append_getLast hvne
  have hlen' : locs.dropLast.length = vals.dropLast.length := by
    simp [List.length_dropLast, hvlen]
  have hchain' : isChain s.mem (some l0) (locs.dropLast ++ [t])
      (vals.dropLast ++ [vals.getLast hvne]) := by
    rw [hsplitL, hsplitV]; exact hchain
  have hsplit := (isChain_append hlen').mp hchain'
  have htin : t ∉ locs.dropLast := by
    have := hinv.nodup
    rw [← hsplitL] at this
    have h2 := List.disjoint_of_nodup_append this
    intro hx
    exact h2 hx (by simp)
  have hfuel : locs.dropLast.length ≤ s.mem.size := by
    have h1 : locs.dropLast.length ≤ locs.length := by
      simp [List.length_dropLast]
    exact le_trans h1 hinv.length_le
  have hloop := @circLenLoop_chain _ s.mem t _ _ _ hsplit.1 htin hfuel
  have hstart : (nextAddr locs.dropLast (some t)).getD t = l0 := by
    cases hls : ls with
    | nil =>
        have : t = l0 := by simp [htdef, hlocs, hls, List.getLast]
        simp [hlocs, hls, nextAddr, this]
    | cons b bs => simp [hlocs, hls, nextAddr]
  rw [hstart] at hloop
  simp only [CircState.len, htail', htnext, Option.getD_some, hloop]
  have : vals.dropLast.length + 1 = vals.length := by
    have := congrArg List.length hsplitV
    simpa using this
  omega

theorem circNodeIter_self (m : Mem α) (fuel : Nat) (t : Nat) :
    circNodeIter m fuel t (some t) = [] := by
  cases fuel <;> simp [circNodeIter]

theorem circNodeLen_self (m : Mem α) (fuel : Nat) (t : Nat) :
    circNodeLen m fuel t (some t) = 0 := by
  cases fuel <;> simp [circNodeLen]

theorem getLast?_mem_self {β : Type} : ∀ {l : List β} {a : β}, l.getLast? = some a → a ∈ l
  | [], _, h => by simp at h
  | [b], a, h => by
      simp at h
      simp [h]
  | b :: c :: l, a, h => by
      rw [List.getLast?_cons_cons] at h
      exact List.mem_cons_of_mem b (getLast?_mem_self h)

/-- Traversal segment for `BaseCircularLinkedNode.__iter__` with the `tail`
argument fixed at `T`: from a node `c` outside the remaining segment `seg`
(whose last node is `T`), the values of the segment are yielded. -/
theorem circNodeIter_seg {m : Mem α} {T : Nat} {endX : Option Nat} :
    ∀ {seg : List Nat} {vsg : List α} {c : Nat} {fuel : Nat},
      isChain m endX seg vsg → (m.read c).next = nextAddr seg endX →
      seg.Nodup → c ∉ seg → seg.getLast? = some T → seg.length ≤ fuel →
      circNodeIter m fuel c (some T) = vsg := by
  intro seg
  induction seg with
  | nil => intro vsg c fuel _ _ _ _ hT _; simp at hT
  | cons a rest ih =>
      intro vsg c fuel hch hnext hnd hcnot hT hf
      match vsg, hch with
      | v :: vs, hch =>
        match fuel, hf with
        | fuel + 1, hf =>
          have hcT : c ≠ T := fun hx => hcnot (hx ▸ getLast?_mem_self hT)
          have hstep : (m.read c).next.getD c = a := by rw [hnext]; rfl
          simp only [circNodeIter]
          rw [if_neg (by simpa [eq_comm] using fun h => hcT h.symm), hstep, hch.1]
          simp only [Option.getD_some]
          cases hr : rest with
          | nil =>
              subst hr
              have haT : a = T := by simpa using hT
              match vs, hch.2.2 with
              | [], _ => rw [haT, circNodeIter_self]
          | cons b bs =>
              subst hr
              have := @ih vs a fuel hch.2.2 hch.2.1
                (List.nodup_cons.mp hnd).2 (List.nodup_cons.mp hnd).1
                (by simpa using hT) (Nat.le_of_succ_le_succ (by simpa using hf))
              rw [this]

/-- Length segment for `BaseCircularLinkedNode.__len__`, mirroring
`circNodeIter_seg`. -/
theorem circNodeLen_seg {m : Mem α} {T : Nat} {endX : Option Nat} :
    ∀ {seg : List Nat} {vsg : List α} {c : Nat} {fuel : Nat},
      isChain m endX seg vsg → (m.read c).next = nextAddr seg endX →
      seg.Nodup → c ∉ seg → seg.getLast? = some T → seg.length ≤ fuel →
      circNodeLen m fuel c (some T) = vsg.length := by
  intro seg
  induction seg with
  | nil => intro vsg c fuel _ _ _ _ hT _; simp at hT
  | cons a rest ih =>
      intro vsg c fuel hch hnext hnd hcnot hT hf
      match vsg, hch with
      | v :: vs, hch =>
        match fuel, hf with
        | fuel + 1, hf =>
          have hcT : c ≠ T := fun hx => hcnot (hx ▸ getLast?_mem_self hT)
          have hstep : (m.read c).next.getD c = a := by rw [hnext]; rfl
          simp only [circNodeLen]
          rw [if_neg (by simpa [eq_comm] using fun h => hcT h.symm), hstep]
          simp only [Option.getD_some]
          cases hr : rest with
          | nil =>
              subst hr
              have haT : a = T := by simpa using hT
              match vs, hch.2.2 with
              | [], _ =>
                  rw [haT, circNodeLen_self]
                  simp
          | cons b bs =>
              subst hr
              have := @ih vs a fuel hch.2.2 hch.2.1
                (List.nodup_cons.mp hnd).2 (List.nodup_cons.mp hnd).1
                (by simpa using hT) (Nat.le_of_succ_le_succ (by simpa using hf))
              rw [this]
              exact Nat.add_comm 1 _

/-- Iterating a circular node chain from its tail yields the represented
values head first (`__iter__` starts at `self.next`). -/
theorem circNodeIter_cycle {m : Mem α} {l0 t : Nat} {ls : List Nat} {vals : List α}
    (hch : isChain m (some l0) (l0 :: ls) vals)
    (hnd : (l0 :: ls).Nodup)
    (ht : (l0 :: ls).getLast? = some t)
    {fuel : Nat} (hf : (l0 :: ls).length + 1 ≤ fuel) :
    circNodeIter m fuel t none = vals := by
  match fuel, hf with
  | fuel + 1, hf =>
    have htnext : (m.read t).next = some l0 := isChain_getLast_next hch t ht
    match vals, hch with
    | v :: vs, hch =>
      simp only [circNodeIter]
      rw [if_neg (by simp), htnext]
      simp only [Option.getD_some, Option.getD_none, hch.1]
      cases hls : ls with
      | nil =>
          subst hls
          have hteq : l0 = t := by simpa using ht
          subst hteq
          match vs, hch.2.2 with
          | [], _ => rw [circNodeIter_self]
      | cons b bs =>
          subst hls
          have := @circNodeIter_seg _ m t (some l0) (b :: bs) vs l0 fuel
            hch.2.2 hch.2.1 (List.nodup_cons.mp hnd).2 (List.nodup_cons.mp hnd).1
            (by simpa using ht) (by simp only [List.length_cons] at hf ⊢; omega)
          rw [this]

/-- The length of a circular node chain measured from its tail. -/
theorem circNodeLen_cycle {m : Mem α} {l0 t : Nat} {ls : List Nat} {vals : List α}
    (hch : isChain m (some l0) (l0 :: ls) vals)
    (hnd : (l0 :: ls).Nodup)
    (ht : (l0 :: ls).getLast? = some t)
    {fuel : Nat} (hf : (l0 :: ls).length + 1 ≤ fuel) :
    circNodeLen m fuel t none = vals.length := by
  match fuel, hf with
  | fuel + 1, hf =>
    have htnext : (m.read t).next = some l0 := isChain_getLast_next hch t ht
    match vals, hch with
    | v :: vs, hch =>
      simp only [circNodeLen]
      rw [if_neg (by simp), htnext]
      simp only [Option.getD_some, Option.getD_none]
      cases hls : ls with
      | nil =>
          subst hls
          have hteq : l0 = t := by simpa using ht
          subst hteq
          match vs, hch.2.2 with
          | [], _ =>
              rw [circNodeLen_self]
              simp
      | cons b bs =>
          subst hls
          have := @circNodeLen_seg _ m t (some l0) (b :: bs) vs l0 fuel
            hch.2.2 hch.2.1 (List.nodup_cons.mp hnd).2 (List.nodup_cons.mp hnd).1
            (by simpa using ht) (by simp only [List.length_cons] at hf ⊢; omega)
          rw [this]
          exact Nat.add_comm 1 _

theorem streamTake_add (m : Mem α) :
    ∀ (j k : Nat) (a : Nat),
      streamTake m (j + k) a = streamTake m j a ++ streamTake m k (walk m j a)
  | 0, k, a => by simp [streamTake, walk]
  | j + 1, k, a => by
      have ih := streamTake_add m j k ((m.read a).next.getD a)
      simp only [streamTake, walk]
      rw [show j + 1 + k = (j + k) + 1 from by omega]
      simp only [streamTake]
      rw [ih]
      simp

/-- One full lap of the infinite iterator along a cyclic chain yields the
represented values and returns to the starting address. -/
theorem streamTake_chain {m : Mem α} {z : Nat} :
    ∀ {seg : List Nat} {vsg : List α},
      isChain m (some z) seg vsg →
      streamTake m seg.length ((nextAddr seg (some z)).getD z) = vsg ∧
        walk m seg.length ((nextAddr seg (some z)).getD z) = z
  | [], [], _ => by simp [streamTake, walk, nextAddr]
  | [], _ :: _, h => h.elim
  | _ :: _, [], h => h.elim
  | a :: seg, v :: vsg, h => by
      have ih := streamTake_chain (m := m) (z := z) h.2.2
      have hstep : (m.read a).next.getD a = (nextAddr seg (some z)).getD z := by
        rw [h.2.1]; cases seg <;> rfl
      simp only [nextAddr_cons, Option.getD_some, List.length_cons, streamTake, walk]
      rw [hstep, h.1]
      exact ⟨congrArg (v :: ·) ih.1, ih.2⟩

/-! ## Construction soundness -/

/-- Effect of the `LinkedList.__init__` loop: it allocates a fresh suffix at
consecutive addresses, links `node` to it, and touches nothing else. -/
theorem LinkedList.ll_initLoop_spec :
    ∀ (vs : List α) (m : Mem α) (node : Nat), node < m.size →
      (LinkedList.initLoop m node vs).size = m.size + vs.length ∧
      (∀ b, b < m.size → b ≠ node → (LinkedList.initLoop m node vs).read b = m.read b) ∧
      (LinkedList.initLoop m node vs).read node =
        { m.read node with next := nextAddr (List.range' m.size vs.length) (m.read node).next } ∧
      isChain (LinkedList.initLoop m node vs) none (List.range' m.size vs.length) vs := by
  intro vs
  induction vs with
  | nil =>
      intro m node _
      refine ⟨rfl, fun b _ _ => rfl, ?_, trivial⟩
      simp [LinkedList.initLoop, nextAddr]
  | cons v vs ih =>
      intro m node hnode
      have main : ∀ (m2 : Mem α) (a : Nat),
          a = m.size →
          m2.size = m.size + 1 →
          m2.read a = ⟨v, none, none⟩ →
          m2.read node = { m.read node with next := some a } →
          (∀ b, b < m.size → b ≠ node → m2.read b = m.read b) →
          LinkedList.initLoop m node (v :: vs) = LinkedList.initLoop m2 a vs →
          (LinkedList.initLoop m node (v :: vs)).size = m.size + (v :: vs).length ∧
          (∀ b, b < m.size → b ≠ node →
            (LinkedList.initLoop m node (v :: vs)).read b = m.read b) ∧
          (LinkedList.initLoop m node (v :: vs)).read node =
            { m.read node with
                next := nextAddr (List.range' m.size (v :: vs).length) (m.read node).next } ∧
          isChain (LinkedList.initLoop m node (v :: vs)) none
            (List.range' m.size (v :: vs).length) (v :: vs) := by
        intro m2 a ha hsize hra hrn hfr hloop
        obtain ⟨ihsize, ihframe, ihnode, ihchain⟩ := ih m2 a (by omega)
        have hrange : List.range' m.size (v :: vs).length =
            a :: List.range' m2.size vs.length := by
          rw [List.length_cons, List.range'_succ, hsize, ha]
        have hna : node ≠ a := by omega
        refine ⟨?_, ?_, ?_, ?_⟩
        · rw [hloop, ihsize, hsize, List.length_cons]; omega
        · intro b hb hbn
          rw [hloop, ihframe b (by omega) (by omega), hfr b hb hbn]
        · rw [hloop, hrange, nextAddr_cons, ihframe node (by omega) hna, hrn]
        · rw [hloop, hrange]
          refine ⟨?_, ?_, ihchain⟩
          · rw [ihnode, hra]
          · rw [ihnode, hra]
      exact main (((m.alloc ⟨v, none, none⟩).1).setNext node (some m.size)) m.size rfl rfl
        (by rw [Mem.read_setNext, if_neg (Ne.symm (Nat.ne_of_lt hnode)), Mem.read_alloc,
              if_pos rfl])
        (by rw [Mem.read_setNext, if_pos rfl, Mem.read_alloc_lt m _ hnode])
        (fun b hb hbn => by
          rw [Mem.read_setNext, if_neg hbn, Mem.read_alloc_lt m _ hb])
        rfl

/-- `LinkedList.__init__` represents its input sequence (nodes at consecutive
addresses `0, …, n-1`). -/
theorem LinkedList.ll_init_rep [Inhabited α] (S : List α) :
    LLRep (LinkedList.init S) (List.range' 0 S.length) S := by
  cases S with
  | nil =>
      refine ⟨⟨?_, ?_⟩, rfl, trivial⟩
      · simp
      · simp
  | cons v vs =>
      obtain ⟨hsize, hframe, hnode, hchain⟩ :=
        LinkedList.ll_initLoop_spec (α := α) vs ((Mem.empty.alloc ⟨v, none, none⟩).1) 0
          (by show (0 : Nat) < 1; omega)
      have hm1size : ((Mem.empty (α := α)).alloc ⟨v, none, none⟩).1.size = 1 := rfl
      have hm1read : ((Mem.empty (α := α)).alloc ⟨v, none, none⟩).1.read 0 = ⟨v, none, none⟩ := rfl
      have hstate : LinkedList.init (v :: vs) =
          ⟨LinkedList.initLoop ((Mem.empty.alloc ⟨v, none, none⟩).1) 0 vs, some 0⟩ := rfl
      have hrange : List.range' 0 (v :: vs).length = 0 :: List.range' 1 vs.length := by
        rw [List.length_cons, List.range'_succ]
      rw [hstate, hrange]
      refine ⟨⟨?_, ?_⟩, rfl, ?_, ?_, ?_⟩
      · rw [← hrange]
        exact List.nodup_range' 0 (v :: vs).length
      · intro a ha
        rw [← hrange] at ha
        have := List.mem_range'_1.mp ha
        rw [hsize, hm1size, List.length_cons] at *
        omega
      · rw [hnode, hm1read]
      · rw [hnode, hm1read, hm1size]
      · rw [show ((Mem.empty (α := α)).alloc ⟨v, none, none⟩).1.size = 1 from rfl] at hchain
        exact hchain

theorem nextAddr_append_singleton (xs : List Nat) (a : Nat) (z : Option Nat) :
    nextAddr (xs ++ [a]) z = nextAddr xs (some a) := by
  cases xs <;> rfl

/-! ## `LinkedList` operations preserve representation -/

theorem LLRep.llrep_iter_eq {s : LLState α} {locs : List Nat} {vals : List α}
    (h : LLRep s locs vals) : s.iter = vals := by
  rw [LLState.iter, h.head_eq]
  exact linListIter_chain h.chain h.inv.length_le

theorem LLRep.llrep_len_eq {s : LLState α} {locs : List Nat} {vals : List α}
    (h : LLRep s locs vals) : s.len = vals.length := by
  rw [LLState.len, h.head_eq]
  exact linListLen_chain h.chain h.inv.length_le

theorem LinkedList.ll_appendleft_rep {s : LLState α} {locs : List Nat} {vals : List α}
    (h : LLRep s locs vals) (v : α) :
    LLRep (LinkedList.appendleft s v) (s.mem.size :: locs) (v :: vals) := by
  have hfresh : s.mem.size ∉ locs := fun hx => absurd (h.inv.bounded _ hx) (by omega)
  have hmem : (LinkedList.appendleft s v).mem = (s.mem.alloc ⟨v, s.head, none⟩).1 := rfl
  have hread : (LinkedList.appendleft s v).mem.read s.mem.size = ⟨v, s.head, none⟩ := by
    rw [hmem, Mem.read_alloc, if_pos rfl]
  have hsz : (LinkedList.appendleft s v).mem.size = s.mem.size + 1 := rfl
  refine ⟨⟨List.nodup_cons.mpr ⟨hfresh, h.inv.nodup⟩, ?_⟩, rfl, ?_, ?_, ?_⟩
  · intro a ha
    rw [hsz]
    rcases List.mem_cons.mp ha with h1 | h1
    · omega
    · have := h.inv.bounded a h1
      omega
  · rw [hread]
  · rw [hread]
    simpa using h.head_eq
  · exact isChain_congr
      (fun a ha => by rw [hmem]; exact Mem.read_alloc_lt s.mem _ (h.inv.bounded a ha)) h.chain

theorem LinkedList.ll_popleft_rep {s : LLState α} {l : Nat} {ls : List Nat}
    {x : α} {vs : List α} (h : LLRep s (l :: ls) (x :: vs)) :
    LinkedList.popleft s = (.ok x, ⟨s.mem, nextAddr ls none⟩) ∧
      LLRep (⟨s.mem, nextAddr ls none⟩ : LLState α) ls vs := by
  have hhead : s.head = some l := by simpa [nextAddr] using h.head_eq
  constructor
  · rw [LinkedList.popleft, hhead]
    simp only [h.chain.1, h.chain.2.1]
  · exact ⟨⟨(List.nodup_cons.mp h.inv.nodup).2,
      fun a ha => h.inv.bounded a (List.mem_cons_of_mem l ha)⟩, rfl, h.chain.2.2⟩

theorem LinkedList.ll_popleft_empty {s : LLState α} (h : s.head = none) :
    LinkedList.popleft s = (.error .indexError, s) := by
  rw [LinkedList.popleft, h]

/-- Specification of the `LinkedList.reverse` loop: it reverses the chain links
in place, leaving every other node untouched, and ends with `last_node` at the
old tail. -/
theorem LinkedList.ll_revLoop_spec :
    ∀ {locs : List Nat} {vals : List α} {m : Mem α} {lastNode : Option Nat} {fuel : Nat},
      isChain m none locs vals → locs.Nodup → locs.length ≤ fuel →
      (∀ b, b ∉ locs → (LinkedList.revLoop m fuel (nextAddr locs none) lastNode).1.read b
          = m.read b) ∧
      (LinkedList.revLoop m fuel (nextAddr locs none) lastNode).1.size = m.size ∧
      isChain (LinkedList.revLoop m fuel (nextAddr locs none) lastNode).1 lastNode
        locs.reverse vals.reverse ∧
      (LinkedList.revLoop m fuel (nextAddr locs none) lastNode).2 =
        nextAddr locs.reverse lastNode
  | [], [], m, lastNode, fuel => by
      intro _ _ _
      cases fuel with
      | zero => exact ⟨fun b _ => rfl, rfl, trivial, rfl⟩
      | succ f => exact ⟨fun b _ => rfl, rfl, trivial, rfl⟩
  | [], _ :: _, _, _, _ => fun h => h.elim
  | _ :: _, [], _, _, _ => fun h => h.elim
  | _ :: _, _ :: _, _, _, 0 => by
      intro _ _ hf
      simp at hf
  | a :: as, v :: vs, m, lastNode, fuel + 1 => by
      intro hch hnd hf
      have hastep : LinkedList.revLoop m (fuel + 1) (nextAddr (a :: as) none) lastNode =
          LinkedList.revLoop (m.setNext a lastNode) fuel ((m.read a).next) (some a) := rfl
      have hnotin : a ∉ as := (List.nodup_cons.mp hnd).1
      have hch' : isChain (m.setNext a lastNode) none as vs :=
        isChain_congr (fun b hb => by
          rw [Mem.read_setNext, if_neg (fun hba : b = a => hnotin (hba ▸ hb))]) hch.2.2
      obtain ⟨ihframe, ihsize, ihchain, ihlast⟩ :=
        @LinkedList.ll_revLoop_spec _ as vs (m.setNext a lastNode) (some a)
          fuel hch' (List.nodup_cons.mp hnd).2
          (Nat.le_of_succ_le_succ (by simpa using hf))
      rw [hastep, hch.2.1]
      have hframe : ∀ b, b ∉ a :: as →
          (LinkedList.revLoop (m.setNext a lastNode) fuel (nextAddr as none) (some a)).1.read b
            = m.read b := by
        intro b hb
        rw [ihframe b (fun hx => hb (List.mem_cons_of_mem a hx)),
          Mem.read_setNext, if_neg (fun hba => hb (by rw [hba]; exact List.mem_cons_self a as))]
      have hreada :
          (LinkedList.revLoop (m.setNext a lastNode) fuel (nextAddr as none) (some a)).1.read a
            = { m.read a with next := lastNode } := by
        rw [ihframe a hnotin, Mem.read_setNext, if_pos rfl]
      refine ⟨hframe, by rw [ihsize]; rfl, ?_, ?_⟩
      · rw [List.reverse_cons, List.reverse_cons]
        rw [isChain_append (by simpa using isChain_length hch.2.2)]
        refine ⟨by simpa [nextAddr] using ihchain, ?_⟩
        exact ⟨by rw [hreada]; exact hch.1, by rw [hreada]; rfl, trivial⟩
      · rw [ihlast, List.reverse_cons, nextAddr_append_singleton]

theorem LinkedList.ll_reverse_rep {s : LLState α} {locs : List Nat} {vals : List α}
    (h : LLRep s locs vals) :
    LLRep (LinkedList.reverse s) locs.reverse vals.reverse := by
  obtain ⟨hframe, hsize, hchain, hlast⟩ :=
    @LinkedList.ll_revLoop_spec _ locs vals s.mem none s.mem.size
      h.chain h.inv.nodup h.inv.length_le
  have hmem : (LinkedList.reverse s).mem
      = (LinkedList.revLoop s.mem s.mem.size s.head none).1 := rfl
  have hhead : (LinkedList.reverse s).head
      = (LinkedList.revLoop s.mem s.mem.size s.head none).2 := rfl
  rw [h.head_eq] at hmem hhead
  refine ⟨⟨List.nodup_reverse.mpr h.inv.nodup, ?_⟩, ?_, ?_⟩
  · intro a ha
    rw [hmem, hsize]
    exact h.inv.bounded a (List.mem_reverse.mp ha)
  · rw [hhead, hlast]
  · rw [hmem]
    exact hchain

/-! ## Node-level `from_iterable` soundness (linear variants) -/

/-- `LinkedNode.from_iterable` allocates the chain at consecutive fresh
addresses and returns its head. -/
theorem LinkedNode.ln_fromIterable_spec :
    ∀ (vs : List α) (m : Mem α),
      (LinkedNode.fromIterable m vs).1.size = m.size + vs.length ∧
      (∀ b, b < m.size → (LinkedNode.fromIterable m vs).1.read b = m.read b) ∧
      (LinkedNode.fromIterable m vs).2 = nextAddr (List.range' m.size vs.length) none ∧
      isChain (LinkedNode.fromIterable m vs).1 none (List.range' m.size vs.length) vs := by
  intro vs
  induction vs with
  | nil => exact fun m => ⟨rfl, fun b _ => rfl, rfl, trivial⟩
  | cons v vs ih =>
      intro m
      obtain ⟨ihsize, ihframe, ihrest, ihchain⟩ := ih (m.alloc ⟨v, none, none⟩).1
      have hstep : LinkedNode.fromIterable m (v :: vs) =
          ((LinkedNode.fromIterable (m.alloc ⟨v, none, none⟩).1 vs).1.setNext m.size
              (LinkedNode.fromIterable (m.alloc ⟨v, none, none⟩).1 vs).2,
            some m.size) := rfl
      have hm1size : (m.alloc ⟨v, none, none⟩).1.size = m.size + 1 := rfl
      have hreada : (LinkedNode.fromIterable (m.alloc ⟨v, none, none⟩).1 vs).1.read m.size
          = ⟨v, none, none⟩ := by
        rw [ihframe m.size (by rw [hm1size]; omega), Mem.read_alloc, if_pos rfl]
      have hrange : List.range' m.size (v :: vs).length =
          m.size :: List.range' (m.size + 1) vs.length := by
        rw [List.length_cons, List.range'_succ]
      rw [hstep, hrange]
      refine ⟨?_, ?_, rfl, ?_, ?_, ?_⟩
      · rw [Mem.size_setNext, ihsize, hm1size, List.length_cons]; omega
      · intro b hb
        rw [Mem.read_setNext, if_neg (by omega), ihframe b (by rw [hm1size]; omega),
          Mem.read_alloc, if_neg (by omega)]
      · rw [Mem.read_setNext, if_pos rfl, hreada]
      · rw [Mem.read_setNext, if_pos rfl, hreada, ihrest, hm1size]
      · refine isChain_congr (fun b hb => ?_) (by rw [← hm1size]; exact ihchain)
        rw [Mem.read_setNext, if_neg ?_]
        have := List.mem_range'_1.mp hb
        omega

/-- `DoublyLinkedNode.from_iterable` additionally sets each node's `last` to
its predecessor (the first node's to the `last` argument). -/
theorem DoublyLinkedNode.dln_fromIterable_spec :
    ∀ (vs : List α) (m : Mem α) (last : Option Nat),
      (DoublyLinkedNode.fromIterable m last vs).1.size = m.size + vs.length ∧
      (∀ b, b < m.size → (DoublyLinkedNode.fromIterable m last vs).1.read b = m.read b) ∧
      (DoublyLinkedNode.fromIterable m last vs).2 =
        nextAddr (List.range' m.size vs.length) none ∧
      isDChain (DoublyLinkedNode.fromIterable m last vs).1 last none
        (List.range' m.size vs.length) vs := by
  intro vs
  induction vs with
  | nil => exact fun m last => ⟨rfl, fun b _ => rfl, rfl, trivial⟩
  | cons v vs ih =>
      intro m last
      obtain ⟨ihsize, ihframe, ihrest, ihchain⟩ := ih (m.alloc ⟨v, none, last⟩).1 (some m.size)
      have hstep : DoublyLinkedNode.fromIterable m last (v :: vs) =
          ((DoublyLinkedNode.fromIterable (m.alloc ⟨v, none, last⟩).1 (some m.size) vs).1.setNext
              m.size
              (DoublyLinkedNode.fromIterable (m.alloc ⟨v, none, last⟩).1 (some m.size) vs).2,
            some m.size) := rfl
      have hm1size : (m.alloc ⟨v, none, last⟩).1.size = m.size + 1 := rfl
      have hreada :
          (DoublyLinkedNode.fromIterable (m.alloc ⟨v, none, last⟩).1 (some m.size) vs).1.read
            m.size = ⟨v, none, last⟩ := by
        rw [ihframe m.size (by rw [hm1size]; omega), Mem.read_alloc, if_pos rfl]
      have hrange : List.range' m.size (v :: vs).length =
          m.size :: List.range' (m.size + 1) vs.length := by
        rw [List.length_cons, List.range'_succ]
      rw [hstep, hrange]
      refine ⟨?_, ?_, rfl, ?_, ?_, ?_, ?_⟩
      · rw [Mem.size_setNext, ihsize, hm1size, List.length_cons]; omega
      · intro b hb
        rw [Mem.read_setNext, if_neg (by omega), ihframe b (by rw [hm1size]; omega),
          Mem.read_alloc, if_neg (by omega)]
      · rw [Mem.read_setNext, if_pos rfl, hreada]
      · rw [Mem.read_setNext, if_pos rfl, hreada, ihrest, hm1size]
      · rw [Mem.read_setNext, if_pos rfl, hreada]
      · refine isDChain_congr (fun b hb => ?_) (by rw [← hm1size]; exact ihchain)
        rw [Mem.read_setNext, if_neg ?_]
        have := List.mem_range'_1.mp hb
        omega

/-! ## Relinking lemmas for cyclic chains -/

/-- Changing only the `next` of the final chain node retargets the chain's
`stop`. -/
theorem isChain_update_lastlink {m m' : Mem α} {stop y : Option Nat} :
    ∀ {locs : List Nat} {vals : List α} {ln : Nat},
      isChain m stop locs vals → locs.getLast? = some ln → locs.Nodup →
      (∀ b ∈ locs, b ≠ ln → m'.read b = m.read b) →
      (m'.read ln).value = (m.read ln).value →
      (m'.read ln).next = y →
      isChain m' y locs vals
  | [], _, ln, _, hlast, _, _, _, _ => by simp at hlast
  | [a], vals, ln, hch, hlast, hnd, hfr, hv, hn => by
      have ha : a = ln := by simpa using hlast
      subst ha
      match vals, hch with
      | [v], hch => exact ⟨hv.trans hch.1, hn, trivial⟩
  | a :: b :: rest, vals, ln, hch, hlast, hnd, hfr, hv, hn => by
      have hln : ln ∈ b :: rest :=
        getLast?_mem_self (by simpa using hlast)
      have hane : a ≠ ln := fun hx => (List.nodup_cons.mp hnd).1 (hx ▸ hln)
      match vals, hch with
      | v :: vs, hch =>
        refine ⟨?_, ?_, ?_⟩
        · rw [hfr a (by simp) hane]; exact hch.1
        · rw [hfr a (by simp) hane, hch.2.1, nextAddr_cons, nextAddr_cons]
        · exact isChain_update_lastlink hch.2.2 (by simpa using hlast)
            (List.nodup_cons.mp hnd).2
            (fun c hc hcn => hfr c (List.mem_cons_of_mem a hc) hcn) hv hn

/-- Doubly version of `isChain_update_lastlink`. -/
theorem isDChain_update_lastlink {m m' : Mem α} {before stop y : Option Nat} :
    ∀ {locs : List Nat} {vals : List α} {ln : Nat},
      isDChain m before stop locs vals → locs.getLast? = some ln → locs.Nodup →
      (∀ b ∈ locs, b ≠ ln → m'.read b = m.read b) →
      (m'.read ln).value = (m.read ln).value →
      (m'.read ln).next = y →
      (m'.read ln).last = (m.read ln).last →
      isDChain m' before y locs vals
  | [], _, ln, _, hlast, _, _, _, _, _ => by simp at hlast
  | [a], vals, ln, hch, hlast, hnd, hfr, hv, hn, hl => by
      have ha : a = ln := by simpa using hlast
      subst ha
      match vals, hch with
      | [v], hch => exact ⟨hv.trans hch.1, hn, hl.trans hch.2.2.1, trivial⟩
  | a :: b :: rest, vals, ln, hch, hlast, hnd, hfr, hv, hn, hl => by
      have hln : ln ∈ b :: rest :=
        getLast?_mem_self (by simpa using hlast)
      have hane : a ≠ ln := fun hx => (List.nodup_cons.mp hnd).1 (hx ▸ hln)
      match vals, hch with
      | v :: vs, hch =>
        refine ⟨?_, ?_, ?_, ?_⟩
        · rw [hfr a (by simp) hane]; exact hch.1
        · rw [hfr a (by simp) hane, hch.2.1, nextAddr_cons, nextAddr_cons]
        · rw [hfr a (by simp) hane]; exact hch.2.2.1
        · exact isDChain_update_lastlink hch.2.2.2 (by simpa using hlast)
            (List.nodup_cons.mp hnd).2
            (fun c hc hcn => hfr c (List.mem_cons_of_mem a hc) hcn) hv hn hl

/-- Changing only the `last` of the first chain node retargets `before`. -/
theorem isDChain_update_before {m m' : Mem α} {stop x : Option Nat}
    {a : Nat} {rest : List Nat} {vals : List α} {before : Option Nat}
    (hch : isDChain m before stop (a :: rest) vals)
    (hnd : (a :: rest).Nodup)
    (hfr : ∀ b ∈ a :: rest, b ≠ a → m'.read b = m.read b)
    (hra : m'.read a = { m.read a with last := x }) :
    isDChain m' x stop (a :: rest) vals := by
  match vals, hch with
  | v :: vs, hch =>
    refine ⟨?_, ?_, ?_, ?_⟩
    · rw [hra]; exact hch.1
    · rw [hra]; exact hch.2.1
    · rw [hra]
    · refine isDChain_congr (fun c hc => ?_) hch.2.2.2
      exact hfr c (List.mem_cons_of_mem a hc)
        (fun hx => (List.nodup_cons.mp hnd).1 (hx ▸ hc))

theorem nextAddr_append (xs ys : List Nat) (stop : Option Nat) :
    nextAddr (xs ++ ys) stop = nextAddr xs (nextAddr ys stop) := by
  cases xs <;> cases ys <;> rfl

/-! ## Circular node `from_iterable` soundness -/

/-- Invariant of the recursive calls of `CircularLinkedNode.from_iterable`: a
complete cycle over `locs` (head `h`, tail `ln`) is extended by one fresh node
per consumed value, and the tail of the final cycle is returned. -/
theorem CircularLinkedNode.cln_fromIterable_loop_spec :
    ∀ (vs : List α) (m : Mem α) (h ln : Nat) (locs : List Nat) (pvals : List α),
      isChain m (some h) locs pvals →
      nextAddr locs none = some h →
      locs.getLast? = some ln →
      locs.Nodup →
      (∀ b ∈ locs, b < m.size) →
      (CircularLinkedNode.fromIterable m (some h) (some ln) vs).1.size
          = m.size + vs.length ∧
      (CircularLinkedNode.fromIterable m (some h) (some ln) vs).2
          = (locs ++ List.range' m.size vs.length).getLast? ∧
      isChain (CircularLinkedNode.fromIterable m (some h) (some ln) vs).1 (some h)
        (locs ++ List.range' m.size vs.length) (pvals ++ vs) ∧
      (locs ++ List.range' m.size vs.length).Nodup ∧
      (∀ b ∈ locs ++ List.range' m.size vs.length,
        b < (CircularLinkedNode.fromIterable m (some h) (some ln) vs).1.size) ∧
      nextAddr (locs ++ List.range' m.size vs.length) none = some h := by
  intro vs
  induction vs with
  | nil =>
      intro m h ln locs pvals hch hhead hlast hnd hbd
      simp only [List.length_nil, List.range', List.append_nil]
      exact ⟨rfl, hlast.symm, hch, hnd, fun b hb => hbd b hb, hhead⟩
  | cons v vs ih =>
      intro m h ln locs pvals hch hhead hlast hnd hbd
      have hln_mem : ln ∈ locs := getLast?_mem_self hlast
      have hln_lt : ln < m.size := hbd ln hln_mem
      have hstep : CircularLinkedNode.fromIterable m (some h) (some ln) (v :: vs) =
          CircularLinkedNode.fromIterable
            ((CircularLinkedNode.new m v (some h)).1.setNext ln (some m.size))
            (some h) (some m.size) vs := rfl
      have hm2size : ((CircularLinkedNode.new m v (some h)).1.setNext ln (some m.size)).size
          = m.size + 1 := rfl
      have hfr2 : ∀ b ∈ locs, b ≠ ln →
          ((CircularLinkedNode.new m v (some h)).1.setNext ln (some m.size)).read b
            = m.read b := by
        intro b hb hbn
        rw [Mem.read_setNext, if_neg hbn, CircularLinkedNode.new, Mem.read_alloc,
          if_neg (Nat.ne_of_lt (hbd b hb))]
      have hrln : ((CircularLinkedNode.new m v (some h)).1.setNext ln (some m.size)).read ln
          = { m.read ln with next := some m.size } := by
        rw [Mem.read_setNext, if_pos rfl, CircularLinkedNode.new, Mem.read_alloc,
          if_neg (Nat.ne_of_lt hln_lt)]
      have hrn : ((CircularLinkedNode.new m v (some h)).1.setNext ln (some m.size)).read m.size
          = ⟨v, some h, none⟩ := by
        rw [Mem.read_setNext, if_neg (Ne.symm (Nat.ne_of_lt hln_lt)), CircularLinkedNode.new,
          Mem.read_alloc, if_pos rfl]
        rfl
      have hch2 : isChain ((CircularLinkedNode.new m v (some h)).1.setNext ln (some m.size))
          (some h) (locs ++ [m.size]) (pvals ++ [v]) := by
        rw [isChain_append (isChain_length hch)]
        refine ⟨?_, ?_⟩
        · rw [nextAddr_cons]
          exact isChain_update_lastlink hch hlast hnd hfr2 (by rw [hrln]) (by rw [hrln])
        · exact ⟨by rw [hrn], by rw [hrn]; rfl, trivial⟩
      have hnodup2 : (locs ++ [m.size]).Nodup := by
        refine List.Nodup.append hnd (List.nodup_singleton _) ?_
        intro b hb hb'
        have := hbd b hb
        have : b = m.size := by simpa using hb'
        omega
      have hhead2 : nextAddr (locs ++ [m.size]) none = some h := by
        rw [nextAddr_append]
        cases locs with
        | nil =>
            rw [nextAddr_nil] at hhead
            exact absurd hhead (by simp)
        | cons c cs =>
            rw [nextAddr_cons] at hhead ⊢
            exact hhead
      have hlast2 : (locs ++ [m.size]).getLast? = some m.size := by
        rw [List.getLast?_concat]
      have hbd2 : ∀ b ∈ locs ++ [m.size],
          b < ((CircularLinkedNode.new m v (some h)).1.setNext ln (some m.size)).size := by
        intro b hb
        rw [hm2size]
        rcases List.mem_append.mp hb with hb | hb
        · have := hbd b hb; omega
        · have : b = m.size := by simpa using hb
          omega
      obtain ⟨ihsize, ihret, ihchain, ihnd, ihbd, ihhead⟩ :=
        ih ((CircularLinkedNode.new m v (some h)).1.setNext ln (some m.size)) h m.size
          (locs ++ [m.size]) (pvals ++ [v]) hch2 hhead2 hlast2 hnodup2 hbd2
      have hassocL : (locs ++ [m.size]) ++ List.range' (m.size + 1) vs.length
          = locs ++ List.range' m.size (v :: vs).length := by
        rw [List.length_cons, List.range'_succ, List.append_assoc]
        rfl
      have hassocV : (pvals ++ [v]) ++ vs = pvals ++ v :: vs := by
        rw [List.append_assoc]
        rfl
      rw [hstep]
      rw [hm2size] at ihsize ihret ihchain ihnd ihbd ihhead
      rw [hassocL] at ihret ihchain ihnd ihbd ihhead
      rw [hassocV] at ihchain
      refine ⟨?_, ihret, ihchain, ihnd, ihbd, ihhead⟩
      rw [ihsize, List.length_cons]
      omega

/-- Top-level `CircularLinkedNode.from_iterable` on a nonempty input: builds a
cycle at addresses `0, …, n-1` (value `i` at address `i`) and returns the tail
(the node of the last value). -/
theorem CircularLinkedNode.cln_fromIterable_rep [Inhabited α] (v : α) (vs : List α) :
    (CircularLinkedNode.fromIterable (Mem.empty (α := α)) none none (v :: vs)).1.size
        = (v :: vs).length ∧
    (CircularLinkedNode.fromIterable (Mem.empty (α := α)) none none (v :: vs)).2
        = (List.range' 0 (v :: vs).length).getLast? ∧
    isChain (CircularLinkedNode.fromIterable (Mem.empty (α := α)) none none (v :: vs)).1
      (some 0) (List.range' 0 (v :: vs).length) (v :: vs) := by
  have hstep : CircularLinkedNode.fromIterable (Mem.empty (α := α)) none none (v :: vs) =
      CircularLinkedNode.fromIterable (CircularLinkedNode.new (Mem.empty (α := α)) v none).1
        (some 0) (some 0) vs := rfl
  have hm1read : (CircularLinkedNode.new (Mem.empty (α := α)) v none).1.read 0
      = ⟨v, some 0, none⟩ := rfl
  have hm1size : (CircularLinkedNode.new (Mem.empty (α := α)) v none).1.size = 1 := rfl
  obtain ⟨hsize, hret, hchain, hnd, hbd, hhead⟩ :=
    CircularLinkedNode.cln_fromIterable_loop_spec vs
      (CircularLinkedNode.new (Mem.empty (α := α)) v none).1 0 0 [0] [v]
      ⟨by rw [hm1read], by rw [hm1read]; rfl, trivial⟩ rfl rfl (List.nodup_singleton 0)
      (by intro b hb; rw [hm1size]; simp at hb; omega)
  have hrange : (0 : Nat) :: List.range' 1 vs.length = List.range' 0 (v :: vs).length := by
    rw [List.length_cons, List.range'_succ]
  rw [hm1size] at hsize hret hchain
  have hlocs : [0] ++ List.range' 1 vs.length = List.range' 0 (v :: vs).length := by
    rw [← hrange]
    rfl
  rw [hlocs] at hret hchain
  rw [hstep]
  exact ⟨by rw [hsize, List.length_cons]; omega, hret, hchain⟩

/-- `from_iterable` of the circular topologies returns the empty sentinel on an
empty input. -/
theorem CircularLinkedNode.cln_fromIterable_nil [Inhabited α] :
    CircularLinkedNode.fromIterable (Mem.empty (α := α)) none none [] =
      (Mem.empty, none) := rfl

theorem nextAddr_reverse_of_getLast {locs : List Nat} {ln : Nat} (z : Option Nat)
    (hlast : locs.getLast? = some ln) :
    nextAddr locs.reverse z = some ln := by
  cases hr : locs.reverse with
  | nil =>
      have : locs = [] := by simpa using congrArg List.reverse hr
      rw [this] at hlast
      simp at hlast
  | cons c cs =>
      rw [nextAddr_cons]
      have : locs.reverse.head? = some c := by rw [hr]; rfl
      rw [List.head?_reverse] at this
      rw [hlast] at this
      exact this.symm ▸ rfl

/-- Invariant of the recursive calls of `CircularDoublyLinkedNode.from_iterable`:
a complete doubly cycle over `locs` (head `h`, tail `ln`) is extended by one
fresh node per value (`last_node.next = node; head.last = node`), returning the
final tail. -/
theorem CircularDoublyLinkedNode.cdln_fromIterable_loop_spec :
    ∀ (vs : List α) (m : Mem α) (h ln : Nat) (locs : List Nat) (pvals : List α),
      isDChain m (some ln) (some h) locs pvals →
      nextAddr locs none = some h →
      locs.getLast? = some ln →
      locs.Nodup →
      (∀ b ∈ locs, b < m.size) →
      (CircularDoublyLinkedNode.fromIterable m (some h) (some ln) vs).1.size
          = m.size + vs.length ∧
      (CircularDoublyLinkedNode.fromIterable m (some h) (some ln) vs).2
          = (locs ++ List.range' m.size vs.length).getLast? ∧
      isDChain (CircularDoublyLinkedNode.fromIterable m (some h) (some ln) vs).1
        (nextAddr (locs ++ List.range' m.size vs.length).reverse none) (some h)
        (locs ++ List.range' m.size vs.length) (pvals ++ vs) ∧
      (locs ++ List.range' m.size vs.length).Nodup ∧
      (∀ b ∈ locs ++ List.range' m.size vs.length,
        b < (CircularDoublyLinkedNode.fromIterable m (some h) (some ln) vs).1.size) ∧
      nextAddr (locs ++ List.range' m.size vs.length) none = some h := by
  intro vs
  induction vs with
  | nil =>
      intro m h ln locs pvals hch hhead hlast hnd hbd
      simp only [List.length_nil, List.range', List.append_nil]
      refine ⟨rfl, hlast.symm, ?_, hnd, fun b hb => hbd b hb, hhead⟩
      rw [nextAddr_reverse_of_getLast none hlast]
      exact hch
  | cons v vs ih =>
      intro m h ln locs pvals hch hhead hlast hnd hbd
      have hln_mem : ln ∈ locs := getLast?_mem_self hlast
      have hln_lt : ln < m.size := hbd ln hln_mem
      have hh_mem : h ∈ locs := by
        cases locs with
        | nil => simp at hlast
        | cons c cs =>
            rw [nextAddr_cons] at hhead
            simp only [Option.some.injEq] at hhead
            rw [← hhead]
            exact List.mem_cons_self c cs
      have hh_lt : h < m.size := hbd h hh_mem
      have hstep : CircularDoublyLinkedNode.fromIterable m (some h) (some ln) (v :: vs) =
          CircularDoublyLinkedNode.fromIterable
            (((CircularDoublyLinkedNode.new m v (some h) (some ln)).1.setNext ln
                (some m.size)).setLast h (some m.size))
            (some h) (some m.size) vs := rfl
      have hm2size : (((CircularDoublyLinkedNode.new m v (some h) (some ln)).1.setNext ln
          (some m.size)).setLast h (some m.size)).size = m.size + 1 := rfl
      have hfrA : ∀ b, b < m.size → b ≠ ln →
          ((CircularDoublyLinkedNode.new m v (some h) (some ln)).1.setNext ln
            (some m.size)).read b = m.read b := by
        intro b hb hbn
        rw [Mem.read_setNext, if_neg hbn, CircularDoublyLinkedNode.new,
          Mem.read_alloc, if_neg (Nat.ne_of_lt hb)]
      have hrAln : ((CircularDoublyLinkedNode.new m v (some h) (some ln)).1.setNext ln
          (some m.size)).read ln = { m.read ln with next := some m.size } := by
        rw [Mem.read_setNext, if_pos rfl, CircularDoublyLinkedNode.new,
          Mem.read_alloc, if_neg (Nat.ne_of_lt hln_lt)]
      have hfr2 : ∀ b, b ≠ h →
          (((CircularDoublyLinkedNode.new m v (some h) (some ln)).1.setNext ln
            (some m.size)).setLast h (some m.size)).read b =
          ((CircularDoublyLinkedNode.new m v (some h) (some ln)).1.setNext ln
            (some m.size)).read b := by
        intro b hbn
        rw [Mem.read_setLast, if_neg hbn]
      have hr2h : (((CircularDoublyLinkedNode.new m v (some h) (some ln)).1.setNext ln
          (some m.size)).setLast h (some m.size)).read h =
          { ((CircularDoublyLinkedNode.new m v (some h) (some ln)).1.setNext ln
              (some m.size)).read h with last := some m.size } := by
        rw [Mem.read_setLast, if_pos rfl]
      have hr2n : (((CircularDoublyLinkedNode.new m v (some h) (some ln)).1.setNext ln
          (some m.size)).setLast h (some m.size)).read m.size = ⟨v, some h, some ln⟩ := by
        rw [hfr2 m.size (Ne.symm (Nat.ne_of_lt hh_lt)), Mem.read_setNext,
          if_neg (Ne.symm (Nat.ne_of_lt hln_lt)), CircularDoublyLinkedNode.new,
          Mem.read_alloc, if_pos rfl]
        rfl
      have hchA : isDChain ((CircularDoublyLinkedNode.new m v (some h) (some ln)).1.setNext ln
          (some m.size)) (some ln) (some m.size) locs pvals :=
        isDChain_update_lastlink hch hlast hnd
          (fun b hb hbn => hfrA b (hbd b hb) hbn)
          (by rw [hrAln]) (by rw [hrAln]) (by rw [hrAln])
      have hch2 : isDChain (((CircularDoublyLinkedNode.new m v (some h) (some ln)).1.setNext ln
          (some m.size)).setLast h (some m.size)) (some m.size) (some m.size) locs pvals := by
        cases hlocs : locs with
        | nil => exact absurd (hlocs ▸ hlast) (by simp)
        | cons c cs =>
            have hceq : c = h := by
              rw [hlocs, nextAddr_cons] at hhead
              simpa using hhead
            subst hceq
            rw [hlocs] at hchA
            refine isDChain_update_before hchA (hlocs ▸ hnd) ?_ (by rw [hr2h])
            intro b _ hbn
            exact hfr2 b hbn
      have hB : nextAddr (locs ++ [m.size]).reverse none = some m.size := by
        rw [nextAddr_reverse_of_getLast none (List.getLast?_concat locs)]
      have hch2' : isDChain (((CircularDoublyLinkedNode.new m v (some h) (some ln)).1.setNext ln
          (some m.size)).setLast h (some m.size))
          (some m.size) (some h)
          (locs ++ [m.size]) (pvals ++ [v]) := by
        rw [isDChain_append (isDChain_length hch)]
        refine ⟨hch2, ?_⟩
        rw [nextAddr_reverse_of_getLast (some m.size) hlast]
        exact ⟨by rw [hr2n], by rw [hr2n]; rfl, by rw [hr2n], trivial⟩
      have hnodup2 : (locs ++ [m.size]).Nodup := by
        refine List.Nodup.append hnd (List.nodup_singleton _) ?_
        intro b hb hb'
        have := hbd b hb
        have : b = m.size := by simpa using hb'
        omega
      have hhead2 : nextAddr (locs ++ [m.size]) none = some h := by
        rw [nextAddr_append]
        cases locs with
        | nil => simp at hlast
        | cons c cs =>
            rw [nextAddr_cons] at hhead ⊢
            exact hhead
      have hbd2 : ∀ b ∈ locs ++ [m.size],
          b < (((CircularDoublyLinkedNode.new m v (some h) (some ln)).1.setNext ln
            (some m.size)).setLast h (some m.size)).size := by
        intro b hb
        rw [hm2size]
        rcases List.mem_append.mp hb with hb | hb
        · have := hbd b hb; omega
        · have : b = m.size := by simpa using hb
          omega
      obtain ⟨ihsize, ihret, ihchain, ihnd, ihbd, ihhead⟩ :=
        ih (((CircularDoublyLinkedNode.new m v (some h) (some ln)).1.setNext ln
            (some m.size)).setLast h (some m.size)) h m.size
          (locs ++ [m.size]) (pvals ++ [v]) hch2' hhead2 (List.getLast?_concat locs)
          hnodup2 hbd2
      have hassocL : (locs ++ [m.size]) ++ List.range' (m.size + 1) vs.length
          = locs ++ List.range' m.size (v :: vs).length := by
        rw [List.length_cons, List.range'_succ, List.append_assoc]
        rfl
      have hassocV : (pvals ++ [v]) ++ vs = pvals ++ v :: vs := by
        rw [List.append_assoc]
        rfl
      rw [hstep]
      rw [hm2size] at ihsize ihret ihchain ihnd ihbd ihhead
      rw [hassocL] at ihret ihchain ihnd ihbd ihhead
      rw [hassocV] at ihchain
      refine ⟨?_, ihret, ihchain, ihnd, ihbd, ihhead⟩
      rw [ihsize, List.length_cons]
      omega

/-- Top-level `CircularDoublyLinkedNode.from_iterable` on a nonempty input:
builds a doubly cycle at addresses `0, …, n-1` and returns the tail. -/
theorem CircularDoublyLinkedNode.cdln_fromIterable_rep [Inhabited α] (v : α) (vs : List α) :
    (CircularDoublyLinkedNode.fromIterable (Mem.empty (α := α)) none none (v :: vs)).1.size
        = (v :: vs).length ∧
    (CircularDoublyLinkedNode.fromIterable (Mem.empty (α := α)) none none (v :: vs)).2
        = (List.range' 0 (v :: vs).length).getLast? ∧
    isDChain (CircularDoublyLinkedNode.fromIterable (Mem.empty (α := α)) none none (v :: vs)).1
      (nextAddr (List.range' 0 (v :: vs).length).reverse none) (some 0)
      (List.range' 0 (v :: vs).length) (v :: vs) := by
  have hstep : CircularDoublyLinkedNode.fromIterable (Mem.empty (α := α)) none none (v :: vs) =
      CircularDoublyLinkedNode.fromIterable
        (CircularDoublyLinkedNode.new (Mem.empty (α := α)) v none none).1
        (some 0) (some 0) vs := rfl
  have hm1read : (CircularDoublyLinkedNode.new (Mem.empty (α := α)) v none none).1.read 0
      = ⟨v, some 0, some 0⟩ := rfl
  have hm1size : (CircularDoublyLinkedNode.new (Mem.empty (α := α)) v none none).1.size = 1 := rfl
  obtain ⟨hsize, hret, hchain, hnd, hbd, hhead⟩ :=
    CircularDoublyLinkedNode.cdln_fromIterable_loop_spec vs
      (CircularDoublyLinkedNode.new (Mem.empty (α := α)) v none none).1 0 0 [0] [v]
      ⟨by rw [hm1read], by rw [hm1read]; rfl, by rw [hm1read], trivial⟩
      rfl rfl (List.nodup_singleton 0)
      (by intro b hb; rw [hm1size]; simp at hb; omega)
  rw [hm1size] at hsize hret hchain
  have hlocs : [0] ++ List.range' 1 vs.length = List.range' 0 (v :: vs).length := by
    rw [List.length_cons, List.range'_succ]
    rfl
  rw [hlocs] at hret hchain
  rw [hstep]
  exact ⟨by rw [hsize, List.length_cons]; omega, hret, hchain⟩

theorem CircularDoublyLinkedNode.cdln_fromIterable_nil [Inhabited α] :
    CircularDoublyLinkedNode.fromIterable (Mem.empty (α := α)) none none [] =
      (Mem.empty, none) := rfl

/-! ## `DoublyLinkedList` construction and operations -/

theorem DoublyLinkedList.dll_initLoop_spec :
    ∀ (vs : List α) (m : Mem α) (node : Nat), node < m.size →
      (DoublyLinkedList.initLoop m node vs).1.size = m.size + vs.length ∧
      (∀ b, b < m.size → b ≠ node →
        (DoublyLinkedList.initLoop m node vs).1.read b = m.read b) ∧
      (DoublyLinkedList.initLoop m node vs).1.read node =
        { m.read node with
            next := nextAddr (List.range' m.size vs.length) (m.read node).next } ∧
      isDChain (DoublyLinkedList.initLoop m node vs).1 (some node) none
        (List.range' m.size vs.length) vs ∧
      (node :: List.range' m.size vs.length).getLast? =
        some (DoublyLinkedList.initLoop m node vs).2 := by
  intro vs
  induction vs with
  | nil =>
      intro m node _
      refine ⟨rfl, fun b _ _ => rfl, ?_, trivial, rfl⟩
      simp [DoublyLinkedList.initLoop, nextAddr]
  | cons v vs ih =>
      intro m node hnode
      have main : ∀ (m2 : Mem α) (a : Nat),
          a = m.size →
          m2.size = m.size + 1 →
          m2.read a = ⟨v, none, some node⟩ →
          m2.read node = { m.read node with next := some a } →
          (∀ b, b < m.size → b ≠ node → m2.read b = m.read b) →
          DoublyLinkedList.initLoop m node (v :: vs) = DoublyLinkedList.initLoop m2 a vs →
          (DoublyLinkedList.initLoop m node (v :: vs)).1.size = m.size + (v :: vs).length ∧
          (∀ b, b < m.size → b ≠ node →
            (DoublyLinkedList.initLoop m node (v :: vs)).1.read b = m.read b) ∧
          (DoublyLinkedList.initLoop m node (v :: vs)).1.read node =
            { m.read node with
                next := nextAddr (List.range' m.size (v :: vs).length) (m.read node).next } ∧
          isDChain (DoublyLinkedList.initLoop m node (v :: vs)).1 (some node) none
            (List.range' m.size (v :: vs).length) (v :: vs) ∧
          (node :: List.range' m.size (v :: vs).length).getLast? =
            some (DoublyLinkedList.initLoop m node (v :: vs)).2 := by
        intro m2 a ha hsize hra hrn hfr hloop
        obtain ⟨ihsize, ihframe, ihnode, ihchain, ihlast⟩ := ih m2 a (by omega)
        have hrange : List.range' m.size (v :: vs).length =
            a :: List.range' m2.size vs.length := by
          rw [List.length_cons, List.range'_succ, hsize, ha]
        have hna : node ≠ a := by omega
        refine ⟨?_, ?_, ?_, ?_, ?_⟩
        · rw [hloop, ihsize, hsize, List.length_cons]; omega
        · intro b hb hbn
          rw [hloop, ihframe b (by omega) (by omega), hfr b hb hbn]
        · rw [hloop, hrange, nextAddr_cons, ihframe node (by omega) hna, hrn]
        · rw [hloop, hrange]
          refine ⟨?_, ?_, ?_, ihchain⟩
          · rw [ihnode, hra]
          · rw [ihnode, hra]
          · rw [ihnode, hra]
        · rw [hloop, hrange]
          rw [List.getLast?_cons_cons]
          cases hr : List.range' m2.size vs.length with
          | nil =>
              rw [hr] at ihlast
              simpa using ihlast
          | cons c cs =>
              rw [hr] at ihlast
              rw [List.getLast?_cons_cons] at ihlast ⊢
              exact ihlast
      exact main (((m.alloc ⟨v, none, some node⟩).1).setNext node (some m.size)) m.size rfl rfl
        (by rw [Mem.read_setNext, if_neg (Ne.symm (Nat.ne_of_lt hnode)), Mem.read_alloc,
              if_pos rfl])
        (by rw [Mem.read_setNext, if_pos rfl, Mem.read_alloc_lt m _ hnode])
        (fun b hb hbn => by
          rw [Mem.read_setNext, if_neg hbn, Mem.read_alloc_lt m _ hb])
        rfl

theorem DoublyLinkedList.dll_init_rep [Inhabited α] (S : List α) :
    DLLRep (DoublyLinkedList.init S) (List.range' 0 S.length) S := by
  cases S with
  | nil =>
      refine ⟨⟨?_, ?_⟩, rfl, rfl, trivial⟩
      · simp
      · simp
  | cons v vs =>
      obtain ⟨hsize, hframe, hnode, hchain, hlast⟩ :=
        DoublyLinkedList.dll_initLoop_spec (α := α) vs ((Mem.empty.alloc ⟨v, none, none⟩).1) 0
          (by show (0 : Nat) < 1; omega)
      have hm1size : ((Mem.empty (α := α)).alloc ⟨v, none, none⟩).1.size = 1 := rfl
      have hm1read : ((Mem.empty (α := α)).alloc ⟨v, none, none⟩).1.read 0 = ⟨v, none, none⟩ := rfl
      have hstate : DoublyLinkedList.init (v :: vs) =
          ⟨(DoublyLinkedList.initLoop ((Mem.empty.alloc ⟨v, none, none⟩).1) 0 vs).1, some 0,
            some (DoublyLinkedList.initLoop ((Mem.empty.alloc ⟨v, none, none⟩).1) 0 vs).2⟩ := rfl
      have hrange : List.range' 0 (v :: vs).length = 0 :: List.range' 1 vs.length := by
        rw [List.length_cons, List.range'_succ]
      rw [hstate, hrange]
      rw [hm1size] at hchain hnode hlast
      refine ⟨⟨?_, ?_⟩, rfl, ?_, ?_, ?_, ?_, ?_⟩
      · rw [← hrange]
        exact List.nodup_range' 0 (v :: vs).length
      · intro a ha
        rw [← hrange] at ha
        have := List.mem_range'_1.mp ha
        rw [hsize, hm1size, List.length_cons] at *
        omega
      · rw [nextAddr_reverse]
        exact hlast.symm
      · rw [hnode, hm1read]
      · rw [hnode, hm1read]
      · rw [hnode, hm1read]
      · exact hchain

theorem DLLRep.dllrep_iter_eq {s : DLLState α} {locs : List Nat} {vals : List α}
    (h : DLLRep s locs vals) : s.iter = vals := by
  rw [DLLState.iter, h.head_eq]
  exact linListIter_chain h.chain.toChain h.inv.length_le

theorem DLLRep.dllrep_len_eq {s : DLLState α} {locs : List Nat} {vals : List α}
    (h : DLLRep s locs vals) : s.len = vals.length := by
  rw [DLLState.len, h.head_eq]
  exact linListLen_chain h.chain.toChain h.inv.length_le

theorem nextAddr_of_ne_nil {locs : List Nat} (hne : locs ≠ []) (z z' : Option Nat) :
    nextAddr locs z = nextAddr locs z' := by
  cases locs with
  | nil => exact absurd rfl hne
  | cons c cs => rfl

theorem DoublyLinkedList.dll_appendleft_rep {s : DLLState α} {locs : List Nat} {vals : List α}
    (h : DLLRep s locs vals) (x : α) :
    DLLRep (DoublyLinkedList.appendleft s x) (s.mem.size :: locs) (x :: vals) := by
  have hfresh : s.mem.size ∉ locs := fun hx => absurd (h.inv.bounded _ hx) (by omega)
  cases hlocs : locs with
  | nil =>
      have hhead : s.head = none := by
        rw [h.head_eq, hlocs]; rfl
      have hstate : DoublyLinkedList.appendleft s x =
          ⟨(s.mem.alloc ⟨x, none, none⟩).1, some s.mem.size, some s.mem.size⟩ := by
        rw [DoublyLinkedList.appendleft, hhead]
        exact rfl
      rw [hstate]
      refine ⟨⟨by simp, ?_⟩, rfl, ?_, ?_⟩
      · intro a ha
        rw [Mem.size_alloc]
        have : a = s.mem.size := by simpa using ha
        omega
      · rfl
      · subst hlocs
        match vals, h.chain with
        | [], _ =>
          exact ⟨by rw [Mem.read_alloc, if_pos rfl], by rw [Mem.read_alloc, if_pos rfl]; rfl,
            by rw [Mem.read_alloc, if_pos rfl], trivial⟩
  | cons l ls =>
      have hhead : s.head = some l := by rw [h.head_eq, hlocs]; rfl
      have hstate : DoublyLinkedList.appendleft s x =
          ⟨((s.mem.alloc ⟨x, some l, none⟩).1).setLast l (some s.mem.size),
            some s.mem.size, s.tail⟩ := by
        rw [DoublyLinkedList.appendleft, hhead]
        exact rfl
      have hll : l < s.mem.size := h.inv.bounded l (by rw [hlocs]; exact List.mem_cons_self l ls)
      have hreadnew : (((s.mem.alloc ⟨x, some l, none⟩).1).setLast l (some s.mem.size)).read
          s.mem.size = ⟨x, some l, none⟩ := by
        rw [Mem.read_setLast, if_neg (Ne.symm (Nat.ne_of_lt hll)), Mem.read_alloc, if_pos rfl]
      have hreadl : (((s.mem.alloc ⟨x, some l, none⟩).1).setLast l (some s.mem.size)).read l
          = { s.mem.read l with last := some s.mem.size } := by
        rw [Mem.read_setLast, if_pos rfl, Mem.read_alloc_lt s.mem _ hll]
      have hframe : ∀ b, b < s.mem.size → b ≠ l →
          (((s.mem.alloc ⟨x, some l, none⟩).1).setLast l (some s.mem.size)).read b
            = s.mem.read b := by
        intro b hb hbn
        rw [Mem.read_setLast, if_neg hbn, Mem.read_alloc_lt s.mem _ hb]
      rw [hstate]
      subst hlocs
      refine ⟨⟨List.nodup_cons.mpr ⟨hfresh, h.inv.nodup⟩, ?_⟩, rfl, ?_, ?_⟩
      · intro a ha
        rw [Mem.size_setLast, Mem.size_alloc]
        rcases List.mem_cons.mp ha with h1 | h1
        · omega
        · have := h.inv.bounded a h1
          omega
      · rw [List.reverse_cons, nextAddr_append_singleton,
          nextAddr_of_ne_nil (by simp) (some s.mem.size) none]
        exact h.tail_eq
      · refine ⟨by rw [hreadnew], by rw [hreadnew]; rfl, by rw [hreadnew], ?_⟩
        match vals, h.chain with
        | xv :: xvs, hch =>
          refine ⟨by rw [hreadl]; exact hch.1, by rw [hreadl]; exact hch.2.1,
            by rw [hreadl], ?_⟩
          refine isDChain_congr (fun b hb => ?_) hch.2.2.2
          refine hframe b (h.inv.bounded b (List.mem_cons_of_mem l hb)) ?_
          exact fun hbeq => (List.nodup_cons.mp h.inv.nodup).1 (hbeq ▸ hb)

theorem DoublyLinkedList.dll_append_rep {s : DLLState α} {locs : List Nat} {vals : List α}
    (h : DLLRep s locs vals) (x : α) :
    DLLRep (DoublyLinkedList.append s x) (locs ++ [s.mem.size]) (vals ++ [x]) := by
  have hfresh : s.mem.size ∉ locs := fun hx => absurd (h.inv.bounded _ hx) (by omega)
  cases hlocs : locs with
  | nil =>
      have htail : s.tail = none := by
        rw [h.tail_eq, hlocs]; rfl
      have hstate : DoublyLinkedList.append s x =
          ⟨(s.mem.alloc ⟨x, none, none⟩).1, some s.mem.size, some s.mem.size⟩ := by
        rw [DoublyLinkedList.append, htail]
        exact rfl
      rw [hstate]
      subst hlocs
      refine ⟨⟨by simp, ?_⟩, rfl, rfl, ?_⟩
      · intro a ha
        rw [Mem.size_alloc]
        have : a = s.mem.size := by simpa using ha
        omega
      · match vals, h.chain with
        | [], _ =>
          exact ⟨by rw [Mem.read_alloc, if_pos rfl], by rw [Mem.read_alloc, if_pos rfl]; rfl,
            by rw [Mem.read_alloc, if_pos rfl], trivial⟩
  | cons l ls =>
      obtain ⟨t, ht⟩ : ∃ t, locs.getLast? = some t := by
        rw [hlocs]
        cases hg : (l :: ls).getLast? with
        | none => simp at hg
        | some t => exact ⟨t, rfl⟩
      have htail : s.tail = some t := by
        rw [h.tail_eq, nextAddr_reverse, ht]
      have ht_lt : t < s.mem.size := h.inv.bounded t (getLast?_mem_self ht)
      have hstate : DoublyLinkedList.append s x =
          ⟨((s.mem.alloc ⟨x, none, some t⟩).1).setNext t (some s.mem.size),
            s.head, some s.mem.size⟩ := by
        rw [DoublyLinkedList.append, htail]
        exact rfl
      have hreadnew : (((s.mem.alloc ⟨x, none, some t⟩).1).setNext t (some s.mem.size)).read
          s.mem.size = ⟨x, none, some t⟩ := by
        rw [Mem.read_setNext, if_neg (Ne.symm (Nat.ne_of_lt ht_lt)), Mem.read_alloc, if_pos rfl]
      have hreadt : (((s.mem.alloc ⟨x, none, some t⟩).1).setNext t (some s.mem.size)).read t
          = { s.mem.read t with next := some s.mem.size } := by
        rw [Mem.read_setNext, if_pos rfl, Mem.read_alloc_lt s.mem _ ht_lt]
      have hframe : ∀ b, b < s.mem.size → b ≠ t →
          (((s.mem.alloc ⟨x, none, some t⟩).1).setNext t (some s.mem.size)).read b
            = s.mem.read b := by
        intro b hb hbn
        rw [Mem.read_setNext, if_neg hbn, Mem.read_alloc_lt s.mem _ hb]
      rw [hstate]
      refine ⟨⟨?_, ?_⟩, ?_, ?_, ?_⟩
      · refine List.Nodup.append (hlocs ▸ h.inv.nodup) (List.nodup_singleton _) ?_
        intro b hb hb'
        have h1 := h.inv.bounded b (hlocs ▸ hb)
        have : b = s.mem.size := by simpa using hb'
        omega
      · intro a ha
        rw [Mem.size_setNext, Mem.size_alloc]
        rcases List.mem_append.mp ha with h1 | h1
        · have := h.inv.bounded a (hlocs ▸ h1)
          omega
        · have : a = s.mem.size := by simpa using h1
          omega
      · have hh := h.head_eq
        rw [hlocs, nextAddr_cons] at hh
        rw [nextAddr_append, nextAddr_cons]
        exact hh
      · rw [List.reverse_append]
        rfl
      · rw [isDChain_append (isDChain_length (hlocs ▸ h.chain))]
        constructor
        · rw [nextAddr_cons]
          exact isDChain_update_lastlink (hlocs ▸ h.chain) (hlocs ▸ ht) (hlocs ▸ h.inv.nodup)
            (fun b hb hbn => hframe b (h.inv.bounded b (hlocs ▸ hb)) hbn)
            (by rw [hreadt]) (by rw [hreadt]) (by rw [hreadt])
        · rw [nextAddr_reverse_of_getLast none (hlocs ▸ ht)]
          exact ⟨by rw [hreadnew], by rw [hreadnew]; rfl, by rw [hreadnew], trivial⟩

theorem DoublyLinkedList.dll_popleft_rep {s : DLLState α} {l : Nat} {ls : List Nat}
    {x : α} {vs : List α} (h : DLLRep s (l :: ls) (x :: vs)) :
    (DoublyLinkedList.popleft s).1 = .ok x ∧
      DLLRep (DoublyLinkedList.popleft s).2 ls vs := by
  have hhead : s.head = some l := by
    have := h.head_eq
    rw [nextAddr_cons] at this
    exact this
  have hval : (s.mem.read l).value = x := h.chain.1
  have hnext : (s.mem.read l).next = nextAddr ls none := h.chain.2.1
  cases hls : ls with
  | nil =>
      have hnone : (s.mem.read l).next = none := by rw [hnext, hls]; rfl
      have hstate : DoublyLinkedList.popleft s =
          (.ok (s.mem.read l).value, ⟨s.mem, none, none⟩) := by
        simp only [DoublyLinkedList.popleft, hhead, hnone]
      rw [hstate, hval]
      subst hls
      match vs, h.chain.2.2.2 with
      | [], _ => exact ⟨rfl, ⟨⟨by simp, by simp⟩, rfl, rfl, trivial⟩⟩
  | cons b bs =>
      have hsome : (s.mem.read l).next = some b := by rw [hnext, hls]; rfl
      have hstate : DoublyLinkedList.popleft s =
          (.ok (s.mem.read l).value, ⟨s.mem.setLast b none, some b, s.tail⟩) := by
        simp only [DoublyLinkedList.popleft, hhead, hsome]
      rw [hstate, hval]
      subst hls
      have hbl : b ≠ l := fun hx =>
        (List.nodup_cons.mp h.inv.nodup).1 (hx ▸ List.mem_cons_self b bs)
      have hframe : ∀ c, c ≠ b → (s.mem.setLast b none).read c = s.mem.read c := by
        intro c hc
        rw [Mem.read_setLast, if_neg hc]
      have hreadb : (s.mem.setLast b none).read b = { s.mem.read b with last := none } := by
        rw [Mem.read_setLast, if_pos rfl]
      refine ⟨rfl, ⟨⟨(List.nodup_cons.mp h.inv.nodup).2, ?_⟩, rfl, ?_, ?_⟩⟩
      · intro a ha
        rw [Mem.size_setLast]
        exact h.inv.bounded a (List.mem_cons_of_mem l ha)
      · have := h.tail_eq
        rw [List.reverse_cons, nextAddr_append_singleton,
          nextAddr_of_ne_nil (by simp) (some l) none] at this
        exact this
      · exact isDChain_update_before h.chain.2.2.2
          (List.nodup_cons.mp h.inv.nodup).2
          (fun c _ hc => hframe c hc) (by rw [hreadb])

theorem DoublyLinkedList.dll_popleft_empty {s : DLLState α} (h : s.head = none) :
    DoublyLinkedList.popleft s = (.error .indexError, s) := by
  rw [DoublyLinkedList.popleft, h]

theorem DoublyLinkedList.dll_pop_empty {s : DLLState α} (h : s.head = none) :
    DoublyLinkedList.pop s = (.error .indexError, s) := by
  rw [DoublyLinkedList.pop]
  rw [if_pos (by rw [h]; rfl)]

theorem DoublyLinkedList.dll_pop_rep {s : DLLState α} {init : List Nat} {t : Nat}
    {vinit : List α} {x : α} (hlen : init.length = vinit.length)
    (h : DLLRep s (init ++ [t]) (vinit ++ [x])) :
    (DoublyLinkedList.pop s).1 = .ok x ∧
      DLLRep (DoublyLinkedList.pop s).2 init vinit := by
  have htail : s.tail = some t := by
    rw [h.tail_eq, nextAddr_reverse, List.getLast?_concat]
  obtain ⟨hA, hB⟩ := (isDChain_append hlen).mp h.chain
  have hval : (s.mem.read t).value = x := hB.1
  have hlastt : (s.mem.read t).last = nextAddr init.reverse none := hB.2.2.1
  have hheadsome : s.head.isNone = false := by
    rw [h.head_eq]
    cases init with
    | nil => rfl
    | cons c cs => rfl
  by_cases hne : init = []
  · subst hne
    have hvnil : vinit = [] := by
      cases vinit with
      | nil => rfl
      | cons y ys => simp at hlen
    subst hvnil
    have hlnone : (s.mem.read t).last = none := hlastt
    have hstate : DoublyLinkedList.pop s =
        (.ok (s.mem.read t).value, ⟨s.mem, none, none⟩) := by
      rw [DoublyLinkedList.pop, if_neg (by rw [hheadsome]; exact Bool.false_ne_true)]
      simp only [htail, hlnone]
    rw [hstate, hval]
    exact ⟨rfl, ⟨⟨by simp, by simp⟩, rfl, rfl, trivial⟩⟩
  · obtain ⟨p, hp⟩ : ∃ p, init.getLast? = some p :=
      ⟨init.getLast hne, List.getLast?_eq_getLast init hne⟩
    have hlsome : (s.mem.read t).last = some p := by
      rw [hlastt, nextAddr_reverse, hp]
    have hstate : DoublyLinkedList.pop s =
        (.ok (s.mem.read t).value, ⟨s.mem.setNext p none, s.head, some p⟩) := by
      rw [DoublyLinkedList.pop, if_neg (by rw [hheadsome]; exact Bool.false_ne_true)]
      simp only [htail, hlsome]
    rw [hstate, hval]
    have hndinit : init.Nodup := (List.nodup_append.mp h.inv.nodup).1
    have hframe : ∀ b, b ≠ p → (s.mem.setNext p none).read b = s.mem.read b := by
      intro b hb
      rw [Mem.read_setNext, if_neg hb]
    have hreadp : (s.mem.setNext p none).read p = { s.mem.read p with next := none } := by
      rw [Mem.read_setNext, if_pos rfl]
    refine ⟨rfl, ⟨⟨hndinit, ?_⟩, ?_, ?_, ?_⟩⟩
    · intro a ha
      rw [Mem.size_setNext]
      exact h.inv.bounded a (List.mem_append_left _ ha)
    · have hh := h.head_eq
      rw [nextAddr_append, nextAddr_of_ne_nil hne (nextAddr [t] none) none] at hh
      exact hh
    · rw [nextAddr_reverse, hp]
    · exact isDChain_update_lastlink hA hp hndinit
        (fun b _ hbn => hframe b hbn) (by rw [hreadp]) (by rw [hreadp]) (by rw [hreadp])

/-- Specification of the `DoublyLinkedList.reverse` loop: it swaps the two
links of every chain node in place. -/
theorem DoublyLinkedList.dll_revLoop_spec :
    ∀ {locs : List Nat} {vals : List α} {m : Mem α} {before : Option Nat} {fuel : Nat},
      isDChain m before none locs vals → locs.Nodup → locs.length ≤ fuel →
      (∀ b, b ∉ locs →
        (DoublyLinkedList.revLoop m fuel (nextAddr locs none)).read b = m.read b) ∧
      (DoublyLinkedList.revLoop m fuel (nextAddr locs none)).size = m.size ∧
      isDChain (DoublyLinkedList.revLoop m fuel (nextAddr locs none)) none before
        locs.reverse vals.reverse
  | [], [], m, before, fuel => by
      intro _ _ _
      cases fuel with
      | zero => exact ⟨fun b _ => rfl, rfl, trivial⟩
      | succ f => exact ⟨fun b _ => rfl, rfl, trivial⟩
  | [], _ :: _, _, _, _ => fun h => h.elim
  | _ :: _, [], _, _, _ => fun h => h.elim
  | _ :: _, _ :: _, _, _, 0 => by
      intro _ _ hf
      simp at hf
  | a :: as, v :: vs, m, before, fuel + 1 => by
      intro hch hnd hf
      have hnotin : a ∉ as := (List.nodup_cons.mp hnd).1
      have hastep : DoublyLinkedList.revLoop m (fuel + 1) (nextAddr (a :: as) none) =
          DoublyLinkedList.revLoop
            (m.write a ⟨(m.read a).value, (m.read a).last, (m.read a).next⟩) fuel
            (nextAddr as none) := by
        rw [← hch.2.1]
        exact rfl
      have hch' : isDChain (m.write a ⟨(m.read a).value, (m.read a).last, (m.read a).next⟩)
          (some a) none as vs :=
        isDChain_congr (fun b hb => by
          rw [Mem.read_write, if_neg (fun hba : b = a => hnotin (hba ▸ hb))]) hch.2.2.2
      obtain ⟨ihframe, ihsize, ihchain⟩ :=
        @DoublyLinkedList.dll_revLoop_spec _ as vs _ (some a) fuel hch'
          (List.nodup_cons.mp hnd).2 (Nat.le_of_succ_le_succ (by simpa using hf))
      rw [hastep]
      have hframe : ∀ b, b ∉ a :: as →
          (DoublyLinkedList.revLoop
            (m.write a ⟨(m.read a).value, (m.read a).last, (m.read a).next⟩) fuel
            (nextAddr as none)).read b = m.read b := by
        intro b hb
        rw [ihframe b (fun hx => hb (List.mem_cons_of_mem a hx)), Mem.read_write,
          if_neg (fun hba : b = a => hb (by rw [hba]; exact List.mem_cons_self a as))]
      have hreada : (DoublyLinkedList.revLoop
          (m.write a ⟨(m.read a).value, (m.read a).last, (m.read a).next⟩) fuel
          (nextAddr as none)).read a
            = ⟨(m.read a).value, (m.read a).last, (m.read a).next⟩ := by
        rw [ihframe a hnotin, Mem.read_write, if_pos rfl]
      refine ⟨hframe, by rw [ihsize]; rfl, ?_⟩
      rw [List.reverse_cons, List.reverse_cons]
      rw [isDChain_append (by simpa using isDChain_length hch.2.2.2)]
      refine ⟨by simpa [nextAddr] using ihchain, ?_⟩
      rw [List.reverse_reverse]
      refine ⟨?_, ?_, ?_, trivial⟩
      · rw [hreada]; exact hch.1
      · rw [hreada]
        show (m.read a).last = before
        exact hch.2.2.1
      · rw [hreada]
        show (m.read a).next = nextAddr as none
        exact hch.2.1

theorem DoublyLinkedList.dll_reverse_rep {s : DLLState α} {locs : List Nat} {vals : List α}
    (h : DLLRep s locs vals) :
    DLLRep (DoublyLinkedList.reverse s) locs.reverse vals.reverse := by
  obtain ⟨hframe, hsize, hchain⟩ :=
    @DoublyLinkedList.dll_revLoop_spec _ locs vals s.mem none s.mem.size
      h.chain h.inv.nodup h.inv.length_le
  have hmem : (DoublyLinkedList.reverse s).mem
      = DoublyLinkedList.revLoop s.mem s.mem.size s.head := rfl
  rw [h.head_eq] at hmem
  refine ⟨⟨List.nodup_reverse.mpr h.inv.nodup, ?_⟩, ?_, ?_, ?_⟩
  · intro a ha
    rw [hmem, hsize]
    exact h.inv.bounded a (List.mem_reverse.mp ha)
  · exact h.tail_eq
  · rw [List.reverse_reverse]
    exact h.head_eq
  · rw [hmem]
    exact hchain

/-! ## `CircularLinkedList` construction and operations -/

theorem CircularLinkedList.cll_initLoop_spec :
    ∀ (vs : List α) (m : Mem α) (h node : Nat) (locs : List Nat) (pvals : List α),
      isChain m (some h) locs pvals →
      nextAddr locs none = some h →
      locs.getLast? = some node →
      locs.Nodup →
      (∀ b ∈ locs, b < m.size) →
      (CircularLinkedList.initLoop m h node vs).1.size = m.size + vs.length ∧
      some (CircularLinkedList.initLoop m h node vs).2
          = (locs ++ List.range' m.size vs.length).getLast? ∧
      isChain (CircularLinkedList.initLoop m h node vs).1 (some h)
        (locs ++ List.range' m.size vs.length) (pvals ++ vs) ∧
      (locs ++ List.range' m.size vs.length).Nodup ∧
      (∀ b ∈ locs ++ List.range' m.size vs.length,
        b < (CircularLinkedList.initLoop m h node vs).1.size) ∧
      nextAddr (locs ++ List.range' m.size vs.length) none = some h := by
  intro vs
  induction vs with
  | nil =>
      intro m h node locs pvals hch hhead hlast hnd hbd
      simp only [List.length_nil, List.range', List.append_nil]
      exact ⟨rfl, hlast.symm, hch, hnd, fun b hb => hbd b hb, hhead⟩
  | cons v vs ih =>
      intro m h node locs pvals hch hhead hlast hnd hbd
      have hln_mem : node ∈ locs := getLast?_mem_self hlast
      have hln_lt : node < m.size := hbd node hln_mem
      have hstep : CircularLinkedList.initLoop m h node (v :: vs) =
          CircularLinkedList.initLoop
            ((CircularLinkedNode.new m v (some h)).1.setNext node (some m.size))
            h m.size vs := rfl
      have hm2size : ((CircularLinkedNode.new m v (some h)).1.setNext node (some m.size)).size
          = m.size + 1 := rfl
      have hfr2 : ∀ b ∈ locs, b ≠ node →
          ((CircularLinkedNode.new m v (some h)).1.setNext node (some m.size)).read b
            = m.read b := by
        intro b hb hbn
        rw [Mem.read_setNext, if_neg hbn, CircularLinkedNode.new, Mem.read_alloc,
          if_neg (Nat.ne_of_lt (hbd b hb))]
      have hrln : ((CircularLinkedNode.new m v (some h)).1.setNext node (some m.size)).read node
          = { m.read node with next := some m.size } := by
        rw [Mem.read_setNext, if_pos rfl, CircularLinkedNode.new, Mem.read_alloc,
          if_neg (Nat.ne_of_lt hln_lt)]
      have hrn : ((CircularLinkedNode.new m v (some h)).1.setNext node (some m.size)).read m.size
          = ⟨v, some h, none⟩ := by
        rw [Mem.read_setNext, if_neg (Ne.symm (Nat.ne_of_lt hln_lt)), CircularLinkedNode.new,
          Mem.read_alloc, if_pos rfl]
        rfl
      have hch2 : isChain ((CircularLinkedNode.new m v (some h)).1.setNext node (some m.size))
          (some h) (locs ++ [m.size]) (pvals ++ [v]) := by
        rw [isChain_append (isChain_length hch)]
        refine ⟨?_, ?_⟩
        · rw [nextAddr_cons]
          exact isChain_update_lastlink hch hlast hnd hfr2 (by rw [hrln]) (by rw [hrln])
        · exact ⟨by rw [hrn], by rw [hrn]; rfl, trivial⟩
      have hnodup2 : (locs ++ [m.size]).Nodup := by
        refine List.Nodup.append hnd (List.nodup_singleton _) ?_
        intro b hb hb'
        have := hbd b hb
        have : b = m.size := by simpa using hb'
        omega
      have hhead2 : nextAddr (locs ++ [m.size]) none = some h := by
        rw [nextAddr_append]
        cases locs with
        | nil => simp at hlast
        | cons c cs =>
            rw [nextAddr_cons] at hhead ⊢
            exact hhead
      have hbd2 : ∀ b ∈ locs ++ [m.size],
          b < ((CircularLinkedNode.new m v (some h)).1.setNext node (some m.size)).size := by
        intro b hb
        rw [hm2size]
        rcases List.mem_append.mp hb with hb | hb
        · have := hbd b hb; omega
        · have : b = m.size := by simpa using hb
          omega
      obtain ⟨ihsize, ihret, ihchain, ihnd, ihbd, ihhead⟩ :=
        ih ((CircularLinkedNode.new m v (some h)).1.setNext node (some m.size)) h m.size
          (locs ++ [m.size]) (pvals ++ [v]) hch2 hhead2 (List.getLast?_concat locs)
          hnodup2 hbd2
      have hassocL : (locs ++ [m.size]) ++ List.range' (m.size + 1) vs.length
          = locs ++ List.range' m.size (v :: vs).length := by
        rw [List.length_cons, List.range'_succ, List.append_assoc]
        rfl
      have hassocV : (pvals ++ [v]) ++ vs = pvals ++ v :: vs := by
        rw [List.append_assoc]
        rfl
      rw [hstep]
      rw [hm2size] at ihsize ihret ihchain ihnd ihbd ihhead
      rw [hassocL] at ihret ihchain ihnd ihbd ihhead
      rw [hassocV] at ihchain
      refine ⟨?_, ihret, ihchain, ihnd, ihbd, ihhead⟩
      rw [ihsize, List.length_cons]
      omega

theorem CircularLinkedList.cll_init_rep [Inhabited α] (S : List α) :
    CLLRep (CircularLinkedList.init S) (List.range' 0 S.length) S := by
  cases S with
  | nil =>
      refine ⟨⟨?_, ?_⟩, rfl, trivial⟩
      · simp
      · simp
  | cons v vs =>
      have hstep : CircularLinkedList.init (v :: vs) =
          ⟨(CircularLinkedList.initLoop (CircularLinkedNode.new (Mem.empty (α := α)) v none).1
              0 0 vs).1,
            some (CircularLinkedList.initLoop
              (CircularLinkedNode.new (Mem.empty (α := α)) v none).1 0 0 vs).2⟩ := rfl
      have hm1read : (CircularLinkedNode.new (Mem.empty (α := α)) v none).1.read 0
          = ⟨v, some 0, none⟩ := rfl
      have hm1size : (CircularLinkedNode.new (Mem.empty (α := α)) v none).1.size = 1 := rfl
      obtain ⟨hsize, hret, hchain, hnd, hbd, hhead⟩ :=
        CircularLinkedList.cll_initLoop_spec vs
          (CircularLinkedNode.new (Mem.empty (α := α)) v none).1 0 0 [0] [v]
          ⟨by rw [hm1read], by rw [hm1read]; rfl, trivial⟩ rfl rfl (List.nodup_singleton 0)
          (by intro b hb; rw [hm1size]; simp at hb; omega)
      rw [hm1size] at hsize hret hchain hbd hnd hhead
      have hlocs : [0] ++ List.range' 1 vs.length = List.range' 0 (v :: vs).length := by
        rw [List.length_cons, List.range'_succ]
        rfl
      rw [hlocs] at hret hchain hnd hbd hhead
      rw [hstep]
      refine ⟨⟨hnd, ?_⟩, ?_, ?_⟩
      · intro a ha
        have := hbd a ha
        rw [hsize] at this ⊢
        exact this
      · rw [nextAddr_reverse]
        exact hret
      · rw [show nextAddr (List.range' 0 (v :: vs).length) none = some 0 from by
          rw [List.length_cons, List.range'_succ]; rfl]
        exact hchain

theorem CLLRep.cllrep_iter_eq {s : CircState α} {locs : List Nat} {vals : List α}
    (h : CLLRep s locs vals) : s.iter = vals := by
  cases locs with
  | nil =>
      match vals, h.chain with
      | [], _ =>
        have htail : s.tail = none := by rw [h.tail_eq]; rfl
        rw [CircState.iter, htail]
  | cons l0 ls =>
      exact CircState.iter_cycle h.inv h.tail_eq h.chain

theorem CLLRep.cllrep_len_eq {s : CircState α} {locs : List Nat} {vals : List α}
    (h : CLLRep s locs vals) : s.len = vals.length := by
  cases locs with
  | nil =>
      match vals, h.chain with
      | [], _ =>
        have htail : s.tail = none := by rw [h.tail_eq]; rfl
        rw [CircState.len, htail]
        exact rfl
  | cons l0 ls =>
      exact CircState.len_cycle h.inv h.tail_eq h.chain

theorem CircularLinkedList.cll_appendleft_rep {s : CircState α} {locs : List Nat} {vals : List α}
    (h : CLLRep s locs vals) (x : α) :
    CLLRep (CircularLinkedList.appendleft s x) (s.mem.size :: locs) (x :: vals) := by
  have hfresh : s.mem.size ∉ locs := fun hx => absurd (h.inv.bounded _ hx) (by omega)
  cases hlocs : locs with
  | nil =>
      have htail : s.tail = none := by rw [h.tail_eq, hlocs]; rfl
      have hstate : CircularLinkedList.appendleft s x =
          ⟨(CircularLinkedNode.new s.mem x none).1, some s.mem.size⟩ := by
        rw [CircularLinkedList.appendleft, htail]
        exact rfl
      rw [hstate]
      subst hlocs
      refine ⟨⟨by simp, ?_⟩, rfl, ?_⟩
      · intro a ha
        have : a = s.mem.size := by simpa using ha
        rw [this, CircularLinkedNode.new, Mem.size_alloc]
        omega
      · match vals, h.chain with
        | [], _ =>
          refine ⟨?_, ?_, trivial⟩
          · rw [CircularLinkedNode.new, Mem.read_alloc, if_pos rfl]
          · rw [CircularLinkedNode.new, Mem.read_alloc, if_pos rfl]
            rfl
  | cons l0 ls =>
      subst hlocs
      obtain ⟨t, ht⟩ : ∃ t, (l0 :: ls).getLast? = some t :=
        ⟨(l0 :: ls).getLast (by simp), List.getLast?_eq_getLast _ _⟩
      have htail : s.tail = some t := by rw [h.tail_eq, nextAddr_reverse, ht]
      have ht_lt : t < s.mem.size := h.inv.bounded t (getLast?_mem_self ht)
      have htnext : (s.mem.read t).next = some l0 := by
        have := isChain_getLast_next h.chain t ht
        rw [nextAddr_cons] at this
        exact this
      have hstate : CircularLinkedList.appendleft s x =
          ⟨((CircularLinkedNode.new s.mem x ((s.mem.read t).next)).1).setNext t
              (some s.mem.size), some t⟩ := by
        rw [CircularLinkedList.appendleft, htail]
        exact rfl
      have hreadnew : (((CircularLinkedNode.new s.mem x ((s.mem.read t).next)).1).setNext t
          (some s.mem.size)).read s.mem.size = ⟨x, some l0, none⟩ := by
        rw [Mem.read_setNext, if_neg (Ne.symm (Nat.ne_of_lt ht_lt)),
          CircularLinkedNode.new, Mem.read_alloc, if_pos rfl, htnext]
        rfl
      have hreadt : (((CircularLinkedNode.new s.mem x ((s.mem.read t).next)).1).setNext t
          (some s.mem.size)).read t = { s.mem.read t with next := some s.mem.size } := by
        rw [Mem.read_setNext, if_pos rfl, CircularLinkedNode.new,
          Mem.read_alloc_lt s.mem _ ht_lt]
      have hframe : ∀ b ∈ l0 :: ls, b ≠ t →
          (((CircularLinkedNode.new s.mem x ((s.mem.read t).next)).1).setNext t
            (some s.mem.size)).read b = s.mem.read b := by
        intro b hb hbn
        rw [Mem.read_setNext, if_neg hbn, CircularLinkedNode.new,
          Mem.read_alloc_lt s.mem _ (h.inv.bounded b hb)]
      rw [hstate]
      refine ⟨⟨List.nodup_cons.mpr ⟨hfresh, h.inv.nodup⟩, ?_⟩, ?_, ?_⟩
      · intro a ha
        show a < s.mem.size + 1
        rcases List.mem_cons.mp ha with h1 | h1
        · omega
        · have := h.inv.bounded a h1
          omega
      · rw [List.reverse_cons, nextAddr_append_singleton,
          nextAddr_of_ne_nil (by simp) (some s.mem.size) none]
        show some t = nextAddr (l0 :: ls).reverse none
        rw [nextAddr_reverse]
        exact ht.symm
      · refine ⟨by rw [hreadnew], by rw [hreadnew]; rfl, ?_⟩
        exact isChain_update_lastlink h.chain ht h.inv.nodup hframe
          (by rw [hreadt]) (by rw [hreadt]; rfl)

theorem CircularLinkedList.cll_popleft_empty {s : CircState α} (h : s.tail = none) :
    CircularLinkedList.popleft s = (.error .indexError, s) := by
  rw [CircularLinkedList.popleft, h]

theorem CircularLinkedList.cll_popleft_rep {s : CircState α} {l0 : Nat} {ls : List Nat}
    {x : α} {vs : List α} (h : CLLRep s (l0 :: ls) (x :: vs)) :
    (CircularLinkedList.popleft s).1 = .ok x ∧
      CLLRep (CircularLinkedList.popleft s).2 ls vs := by
  obtain ⟨t, ht⟩ : ∃ t, (l0 :: ls).getLast? = some t :=
    ⟨(l0 :: ls).getLast (by simp), List.getLast?_eq_getLast _ _⟩
  have htail : s.tail = some t := by rw [h.tail_eq, nextAddr_reverse, ht]
  have htnext : (s.mem.read t).next = some l0 := by
    have := isChain_getLast_next h.chain t ht
    rw [nextAddr_cons] at this
    exact this
  have hval : (s.mem.read l0).value = x := h.chain.1
  cases hls : ls with
  | nil =>
      subst hls
      have hteq : l0 = t := by simpa using ht
      subst hteq
      have hstate : CircularLinkedList.popleft s =
          (.ok (s.mem.read l0).value, ⟨s.mem, none⟩) := by
        simp [CircularLinkedList.popleft, htail, htnext, Option.getD_some]
      rw [hstate, hval]
      match vs, h.chain.2.2 with
      | [], _ => exact ⟨rfl, ⟨⟨by simp, by simp⟩, rfl, trivial⟩⟩
  | cons l1 ls' =>
      subst hls
      have htne : t ≠ l0 := by
        intro hx
        have hmem : t ∈ l1 :: ls' := getLast?_mem_self (by simpa using ht)
        exact (List.nodup_cons.mp h.inv.nodup).1 (hx ▸ hmem)
      have hl0next : (s.mem.read l0).next = some l1 := by
        have := h.chain.2.1
        rw [nextAddr_cons] at this
        exact this
      have hstate : CircularLinkedList.popleft s =
          (.ok (s.mem.read l0).value,
            ⟨s.mem.setNext t ((s.mem.read l0).next), some t⟩) := by
        simp only [CircularLinkedList.popleft, htail, htnext, Option.getD_some]
        rw [if_neg htne]
      rw [hstate, hval]
      have hframe : ∀ b ∈ l1 :: ls', b ≠ t →
          (s.mem.setNext t ((s.mem.read l0).next)).read b = s.mem.read b := by
        intro b _ hbn
        rw [Mem.read_setNext, if_neg hbn]
      have hreadt : (s.mem.setNext t ((s.mem.read l0).next)).read t
          = { s.mem.read t with next := (s.mem.read l0).next } := by
        rw [Mem.read_setNext, if_pos rfl]
      refine ⟨rfl, ⟨⟨(List.nodup_cons.mp h.inv.nodup).2, ?_⟩, ?_, ?_⟩⟩
      · intro a ha
        rw [Mem.size_setNext]
        exact h.inv.bounded a (List.mem_cons_of_mem l0 ha)
      · show some t = nextAddr (l1 :: ls').reverse none
        rw [nextAddr_reverse]
        exact (by simpa using ht : (l1 :: ls').getLast? = some t).symm
      · refine isChain_update_lastlink h.chain.2.2 (by simpa using ht)
          (List.nodup_cons.mp h.inv.nodup).2 hframe (by rw [hreadt]) ?_
        rw [hreadt]
        show (s.mem.read l0).next = nextAddr (l1 :: ls') none
        rw [hl0next, nextAddr_cons]

/-- Specification of the `CircularLinkedList.reverse` loop: it reverses the
links of the segment before the tail in place and returns the final
`last_node`. -/
theorem CircularLinkedList.cll_revLoop_spec :
    ∀ {locs : List Nat} {vals : List α} {m : Mem α} {lastNode tailA : Nat} {fuel : Nat},
      isChain m (some tailA) locs vals → tailA ∉ locs → locs.Nodup →
      locs.length ≤ fuel →
      (∀ b, b ∉ locs →
        (CircularLinkedList.revLoop m fuel ((nextAddr locs (some tailA)).getD tailA)
          lastNode tailA).1.read b = m.read b) ∧
      (CircularLinkedList.revLoop m fuel ((nextAddr locs (some tailA)).getD tailA)
        lastNode tailA).1.size = m.size ∧
      isChain (CircularLinkedList.revLoop m fuel ((nextAddr locs (some tailA)).getD tailA)
        lastNode tailA).1 (some lastNode) locs.reverse vals.reverse ∧
      some (CircularLinkedList.revLoop m fuel ((nextAddr locs (some tailA)).getD tailA)
        lastNode tailA).2 = nextAddr locs.reverse (some lastNode)
  | [], [], m, lastNode, tailA, fuel => by
      intro _ _ _ _
      have hloop : CircularLinkedList.revLoop m fuel
          ((nextAddr [] (some tailA)).getD tailA) lastNode tailA = (m, lastNode) := by
        cases fuel with
        | zero => rfl
        | succ f =>
            show (if tailA = tailA then _ else _) = _
            rw [if_pos rfl]
      rw [hloop]
      exact ⟨fun b _ => rfl, rfl, trivial, rfl⟩
  | [], _ :: _, _, _, _, _ => fun h => h.elim
  | _ :: _, [], _, _, _, _ => fun h => h.elim
  | _ :: _, _ :: _, _, _, _, 0 => by
      intro _ _ _ hf
      simp at hf
  | a :: as, v :: vs, m, lastNode, tailA, fuel + 1 => by
      intro hch hnot hnd hf
      have hane : a ≠ tailA := fun hx => hnot (hx ▸ List.mem_cons_self a as)
      have hnotin : a ∉ as := (List.nodup_cons.mp hnd).1
      have hastep : CircularLinkedList.revLoop m (fuel + 1)
          ((nextAddr (a :: as) (some tailA)).getD tailA) lastNode tailA =
          CircularLinkedList.revLoop (m.setNext a (some lastNode)) fuel
            ((nextAddr as (some tailA)).getD tailA) a tailA := by
        simp only [nextAddr_cons, Option.getD_some]
        show (if a = tailA then _ else _) = _
        rw [if_neg hane, hch.2.1]
        cases as <;> rfl
      have hch' : isChain (m.setNext a (some lastNode)) (some tailA) as vs :=
        isChain_congr (fun b hb => by
          rw [Mem.read_setNext, if_neg (fun hba : b = a => hnotin (hba ▸ hb))]) hch.2.2
      obtain ⟨ihframe, ihsize, ihchain, ihlast⟩ :=
        @CircularLinkedList.cll_revLoop_spec _ as vs (m.setNext a (some lastNode))
          a tailA fuel hch'
          (fun hx => hnot (List.mem_cons_of_mem a hx)) (List.nodup_cons.mp hnd).2
          (Nat.le_of_succ_le_succ (by simpa using hf))
      rw [hastep]
      have hframe : ∀ b, b ∉ a :: as →
          (CircularLinkedList.revLoop (m.setNext a (some lastNode)) fuel
            ((nextAddr as (some tailA)).getD tailA) a tailA).1.read b = m.read b := by
        intro b hb
        rw [ihframe b (fun hx => hb (List.mem_cons_of_mem a hx)),
          Mem.read_setNext, if_neg (fun hba : b = a => hb (by rw [hba]; exact List.mem_cons_self a as))]
      have hreada : (CircularLinkedList.revLoop (m.setNext a (some lastNode)) fuel
          ((nextAddr as (some tailA)).getD tailA) a tailA).1.read a
            = { m.read a with next := some lastNode } := by
        rw [ihframe a hnotin, Mem.read_setNext, if_pos rfl]
      refine ⟨hframe, by rw [ihsize]; rfl, ?_, ?_⟩
      · rw [List.reverse_cons, List.reverse_cons]
        rw [isChain_append (by simpa using isChain_length hch.2.2)]
        refine ⟨by simpa [nextAddr] using ihchain, ?_⟩
        exact ⟨by rw [hreada]; exact hch.1, by rw [hreada]; rfl, trivial⟩
      · rw [ihlast, List.reverse_cons, nextAddr_append_singleton]

theorem CircularLinkedList.cll_reverse_rep {s : CircState α} {locs : List Nat} {vals : List α}
    (h : CLLRep s locs vals) :
    CLLRep (CircularLinkedList.reverse s) locs.reverse vals.reverse := by
  cases hlocs : locs with
  | nil =>
      subst hlocs
      match vals, h.chain with
      | [], _ =>
        have htail : s.tail = none := by rw [h.tail_eq]; rfl
        have hstate : CircularLinkedList.reverse s = s := by
          rw [CircularLinkedList.reverse, htail]
        rw [hstate]
        exact h
  | cons l0 ls =>
      subst hlocs
      obtain ⟨t, ht⟩ : ∃ t, (l0 :: ls).getLast? = some t :=
        ⟨(l0 :: ls).getLast (by simp), List.getLast?_eq_getLast _ _⟩
      have htail : s.tail = some t := by rw [h.tail_eq, nextAddr_reverse, ht]
      have htnext : (s.mem.read t).next = some l0 := by
        have := isChain_getLast_next h.chain t ht
        rw [nextAddr_cons] at this
        exact this
      have hne : (l0 :: ls) ≠ [] := by simp
      have hgl : (l0 :: ls).getLast hne = t := by
        have := List.getLast?_eq_getLast (l0 :: ls) hne
        rw [ht] at this
        exact (Option.some.injEq _ _ ▸ this).symm
      have hsplitL : (l0 :: ls).dropLast ++ [t] = l0 :: ls := by
        have := List.dropLast_append_getLast hne
        rwa [hgl] at this
      have hvne : vals ≠ [] := by
        intro hv
        have := isChain_length h.chain
        rw [hv] at this
        simp at this
      have hsplitV : vals.dropLast ++ [vals.getLast hvne] = vals :=
        List.dropLast_append_getLast hvne
      have hlen' : (l0 :: ls).dropLast.length = vals.dropLast.length := by
        have := isChain_length h.chain
        simp [List.length_dropLast, this]
      have hchain' : isChain s.mem (some l0) ((l0 :: ls).dropLast ++ [t])
          (vals.dropLast ++ [vals.getLast hvne]) := by
        rw [hsplitL, hsplitV]
        exact h.chain
      obtain ⟨hA, hB⟩ := (isChain_append hlen').mp hchain'
      rw [nextAddr_cons] at hA
      have htin : t ∉ (l0 :: ls).dropLast := by
        have hnd := h.inv.nodup
        rw [← hsplitL] at hnd
        intro hx
        exact List.disjoint_of_nodup_append hnd hx (by simp)
      have hndinit : (l0 :: ls).dropLast.Nodup := by
        have hnd := h.inv.nodup
        rw [← hsplitL] at hnd
        exact (List.nodup_append.mp hnd).1
      have hfuel : (l0 :: ls).dropLast.length ≤ s.mem.size := by
        have h1 : (l0 :: ls).dropLast.length ≤ (l0 :: ls).length := by
          simp [List.length_dropLast]
        exact le_trans h1 h.inv.length_le
      obtain ⟨hframe, hsize, hchainrev, hret⟩ :=
        @CircularLinkedList.cll_revLoop_spec _ _ _ s.mem t t s.mem.size
          hA htin hndinit hfuel
      have hstart : (nextAddr (l0 :: ls).dropLast (some t)).getD t = l0 := by
        cases hi : (l0 :: ls).dropLast with
        | nil =>
            rw [hi] at hsplitL
            have h2 : t = l0 ∧ ls = [] := by simpa using hsplitL
            rw [nextAddr_nil]
            simp [h2.1]
        | cons c cs =>
            rw [hi] at hsplitL
            have : c = l0 := by
              have := congrArg List.head? hsplitL
              simpa using this
            rw [nextAddr_cons]
            simpa using this
      rw [hstart] at hframe hsize hchainrev hret
      have hreadt : (CircularLinkedList.revLoop s.mem s.mem.size l0 t t).1.read t
          = s.mem.read t := hframe t htin
      have hstate : CircularLinkedList.reverse s =
          ⟨(CircularLinkedList.revLoop s.mem s.mem.size l0 t t).1.setNext t
              (some (CircularLinkedList.revLoop s.mem s.mem.size l0 t t).2),
            some l0⟩ := by
        simp only [CircularLinkedList.reverse, htail, htnext, Option.getD_some, hreadt]
      rw [hstate]
      have hrevlist : (l0 :: ls).reverse = t :: (l0 :: ls).dropLast.reverse := by
        conv_lhs => rw [← hsplitL]
        rw [List.reverse_append]
        rfl
      have hrevvals : vals.reverse = vals.getLast hvne :: vals.dropLast.reverse := by
        conv_lhs => rw [← hsplitV]
        rw [List.reverse_append]
        rfl
      have hreadfin : ∀ b, b ≠ t →
          ((CircularLinkedList.revLoop s.mem s.mem.size l0 t t).1.setNext t
            (some (CircularLinkedList.revLoop s.mem s.mem.size l0 t t).2)).read b
          = (CircularLinkedList.revLoop s.mem s.mem.size l0 t t).1.read b := by
        intro b hb
        rw [Mem.read_setNext, if_neg hb]
      have hreadtfin : ((CircularLinkedList.revLoop s.mem s.mem.size l0 t t).1.setNext t
            (some (CircularLinkedList.revLoop s.mem s.mem.size l0 t t).2)).read t
          = { s.mem.read t with
              next := some (CircularLinkedList.revLoop s.mem s.mem.size l0 t t).2 } := by
        rw [Mem.read_setNext, if_pos rfl, hreadt]
      refine ⟨⟨List.nodup_reverse.mpr h.inv.nodup, ?_⟩, ?_, ?_⟩
      · intro a ha
        rw [Mem.size_setNext, hsize]
        exact h.inv.bounded a (List.mem_reverse.mp ha)
      · show some l0 = nextAddr (l0 :: ls).reverse.reverse none
        rw [List.reverse_reverse, nextAddr_cons]
      · rw [hrevlist, hrevvals]
        refine ⟨?_, ?_, ?_⟩
        · rw [hreadtfin]
          exact hB.1
        · rw [hreadtfin]
          show some (CircularLinkedList.revLoop s.mem s.mem.size l0 t t).2
            = nextAddr ((l0 :: ls).dropLast.reverse) (nextAddr (t :: (l0 :: ls).dropLast.reverse) none)
          rw [nextAddr_cons]
          exact hret
        · refine isChain_congr (fun b hb => hreadfin b ?_) ?_
          · intro hbt
            exact htin (List.mem_reverse.mp (hbt ▸ hb))
          · have : nextAddr (t :: (l0 :: ls).dropLast.reverse) none = some t := nextAddr_cons _ _ _
            rw [this]
            exact hchainrev

/-- A doubly circular representation is in particular a singly circular one
(the shared `BaseCircularLinkedList` iteration code only follows `next`). -/
theorem CDLLRep.toCLLRep {s : CircState α} {locs : List Nat} {vals : List α}
    (h : CDLLRep s locs vals) : CLLRep s locs vals :=
  ⟨h.inv, h.tail_eq, h.chain.toChain⟩

/-- One lap of the infinite iterator over a represented circular list yields
the values and returns the cursor to the head. -/
theorem CLLRep.infTake_lap {s : CircState α} {l0 : Nat} {ls : List Nat} {vals : List α}
    (h : CLLRep s (l0 :: ls) vals) (k : Nat) :
    s.infTake (vals.length + k) = vals ++ streamTake s.mem k l0 := by
  obtain ⟨t, ht⟩ : ∃ t, (l0 :: ls).getLast? = some t :=
    ⟨(l0 :: ls).getLast (by simp), List.getLast?_eq_getLast _ _⟩
  have htail : s.tail = some t := by rw [h.tail_eq, nextAddr_reverse, ht]
  have htnext : (s.mem.read t).next = some l0 := by
    have := isChain_getLast_next h.chain t ht
    rw [nextAddr_cons] at this
    exact this
  have hlen : (l0 :: ls).length = vals.length := isChain_length h.chain
  obtain ⟨htake, hwalk⟩ := streamTake_chain (m := s.mem) (z := l0) h.chain
  rw [nextAddr_cons, Option.getD_some] at htake hwalk
  rw [hlen] at htake hwalk
  have hstate : s.infTake (vals.length + k) = streamTake s.mem (vals.length + k) l0 := by
    simp only [CircState.infTake, htail, htnext, Option.getD_some]
  rw [hstate, streamTake_add, htake, hwalk]

/-- Three laps: `islice(infinite_iterator(), 3 * len(S))` is `S` three times. -/
theorem CLLRep.infTake_three {s : CircState α} {l0 : Nat} {ls : List Nat} {vals : List α}
    (h : CLLRep s (l0 :: ls) vals) :
    s.infTake (3 * vals.length) = vals ++ (vals ++ vals) := by
  obtain ⟨t, ht⟩ : ∃ t, (l0 :: ls).getLast? = some t :=
    ⟨(l0 :: ls).getLast (by simp), List.getLast?_eq_getLast _ _⟩
  have hlen : (l0 :: ls).length = vals.length := isChain_length h.chain
  obtain ⟨htake, hwalk⟩ := streamTake_chain (m := s.mem) (z := l0) h.chain
  rw [nextAddr_cons, Option.getD_some] at htake hwalk
  rw [hlen] at htake hwalk
  have h3 : 3 * vals.length = vals.length + (vals.length + vals.length) := by omega
  rw [h3, CLLRep.infTake_lap h, streamTake_add, htake, hwalk, htake]

/-! ## `CircularDoublyLinkedList` construction and operations -/

theorem CircularDoublyLinkedList.cdll_initLoop_spec :
    ∀ (vs : List α) (m : Mem α) (h node : Nat) (locs : List Nat) (pvals : List α),
      isDChain m (some node) (some h) locs pvals →
      nextAddr locs none = some h →
      locs.getLast? = some node →
      locs.Nodup →
      (∀ b ∈ locs, b < m.size) →
      (CircularDoublyLinkedList.initLoop m h node vs).1.size = m.size + vs.length ∧
      some (CircularDoublyLinkedList.initLoop m h node vs).2
          = (locs ++ List.range' m.size vs.length).getLast? ∧
      isDChain (CircularDoublyLinkedList.initLoop m h node vs).1
        (nextAddr (locs ++ List.range' m.size vs.length).reverse none) (some h)
        (locs ++ List.range' m.size vs.length) (pvals ++ vs) ∧
      (locs ++ List.range' m.size vs.length).Nodup ∧
      (∀ b ∈ locs ++ List.range' m.size vs.length,
        b < (CircularDoublyLinkedList.initLoop m h node vs).1.size) ∧
      nextAddr (locs ++ List.range' m.size vs.length) none = some h := by
  intro vs
  induction vs with
  | nil =>
      intro m h node locs pvals hch hhead hlast hnd hbd
      simp only [List.length_nil, List.range', List.append_nil]
      refine ⟨rfl, hlast.symm, ?_, hnd, fun b hb => hbd b hb, hhead⟩
      rw [nextAddr_reverse_of_getLast none hlast]
      exact hch
  | cons v vs ih =>
      intro m h node locs pvals hch hhead hlast hnd hbd
      have hln_mem : node ∈ locs := getLast?_mem_self hlast
      have hln_lt : node < m.size := hbd node hln_mem
      have hh_mem : h ∈ locs := by
        cases locs with
        | nil => simp at hlast
        | cons c cs =>
            rw [nextAddr_cons] at hhead
            simp only [Option.some.injEq] at hhead
            rw [← hhead]
            exact List.mem_cons_self c cs
      have hh_lt : h < m.size := hbd h hh_mem
      have hstep : CircularDoublyLinkedList.initLoop m h node (v :: vs) =
          CircularDoublyLinkedList.initLoop
            (((CircularDoublyLinkedNode.new m v (some h) (some node)).1.setNext node
                (some m.size)).setLast h (some m.size))
            h m.size vs := rfl
      have hm2size : (((CircularDoublyLinkedNode.new m v (some h) (some node)).1.setNext node
          (some m.size)).setLast h (some m.size)).size = m.size + 1 := rfl
      have hfrA : ∀ b, b < m.size → b ≠ node →
          ((CircularDoublyLinkedNode.new m v (some h) (some node)).1.setNext node
            (some m.size)).read b = m.read b := by
        intro b hb hbn
        rw [Mem.read_setNext, if_neg hbn, CircularDoublyLinkedNode.new,
          Mem.read_alloc, if_neg (Nat.ne_of_lt hb)]
      have hrAln : ((CircularDoublyLinkedNode.new m v (some h) (some node)).1.setNext node
          (some m.size)).read node = { m.read node with next := some m.size } := by
        rw [Mem.read_setNext, if_pos rfl, CircularDoublyLinkedNode.new,
          Mem.read_alloc, if_neg (Nat.ne_of_lt hln_lt)]
      have hfr2 : ∀ b, b ≠ h →
          ((((CircularDoublyLinkedNode.new m v (some h) (some node)).1.setNext node
            (some m.size)).setLast h (some m.size))).read b =
          ((CircularDoublyLinkedNode.new m v (some h) (some node)).1.setNext node
            (some m.size)).read b := by
        intro b hbn
        rw [Mem.read_setLast, if_neg hbn]
      have hr2h : ((((CircularDoublyLinkedNode.new m v (some h) (some node)).1.setNext node
          (some m.size)).setLast h (some m.size))).read h =
          { ((CircularDoublyLinkedNode.new m v (some h) (some node)).1.setNext node
              (some m.size)).read h with last := some m.size } := by
        rw [Mem.read_setLast, if_pos rfl]
      have hr2n : ((((CircularDoublyLinkedNode.new m v (some h) (some node)).1.setNext node
          (some m.size)).setLast h (some m.size))).read m.size = ⟨v, some h, some node⟩ := by
        rw [hfr2 m.size (Ne.symm (Nat.ne_of_lt hh_lt)), Mem.read_setNext,
          if_neg (Ne.symm (Nat.ne_of_lt hln_lt)), CircularDoublyLinkedNode.new,
          Mem.read_alloc, if_pos rfl]
        rfl
      have hchA : isDChain ((CircularDoublyLinkedNode.new m v (some h) (some node)).1.setNext
          node (some m.size)) (some node) (some m.size) locs pvals :=
        isDChain_update_lastlink hch hlast hnd
          (fun b hb hbn => hfrA b (hbd b hb) hbn)
          (by rw [hrAln]) (by rw [hrAln]) (by rw [hrAln])
      have hch2 : isDChain ((((CircularDoublyLinkedNode.new m v (some h) (some node)).1.setNext
          node (some m.size)).setLast h (some m.size))) (some m.size) (some m.size)
          locs pvals := by
        cases hlocs : locs with
        | nil => exact absurd (hlocs ▸ hlast) (by simp)
        | cons c cs =>
            have hceq : c = h := by
              rw [hlocs, nextAddr_cons] at hhead
              simpa using hhead
            subst hceq
            rw [hlocs] at hchA
            refine isDChain_update_before hchA (hlocs ▸ hnd) ?_ (by rw [hr2h])
            intro b _ hbn
            exact hfr2 b hbn
      have hch2' : isDChain ((((CircularDoublyLinkedNode.new m v (some h) (some node)).1.setNext
          node (some m.size)).setLast h (some m.size)))
          (some m.size) (some h) (locs ++ [m.size]) (pvals ++ [v]) := by
        rw [isDChain_append (isDChain_length hch)]
        refine ⟨hch2, ?_⟩
        rw [nextAddr_reverse_of_getLast (some m.size) hlast]
        exact ⟨by rw [hr2n], by rw [hr2n]; rfl, by rw [hr2n], trivial⟩
      have hnodup2 : (locs ++ [m.size]).Nodup := by
        refine List.Nodup.append hnd (List.nodup_singleton _) ?_
        intro b hb hb'
        have := hbd b hb
        have : b = m.size := by simpa using hb'
        omega
      have hhead2 : nextAddr (locs ++ [m.size]) none = some h := by
        rw [nextAddr_append]
        cases locs with
        | nil => simp at hlast
        | cons c cs =>
            rw [nextAddr_cons] at hhead ⊢
            exact hhead
      have hbd2 : ∀ b ∈ locs ++ [m.size],
          b < ((((CircularDoublyLinkedNode.new m v (some h) (some node)).1.setNext node
            (some m.size)).setLast h (some m.size))).size := by
        intro b hb
        rw [hm2size]
        rcases List.mem_append.mp hb with hb | hb
        · have := hbd b hb; omega
        · have : b = m.size := by simpa using hb
          omega
      obtain ⟨ihsize, ihret, ihchain, ihnd, ihbd, ihhead⟩ :=
        ih ((((CircularDoublyLinkedNode.new m v (some h) (some node)).1.setNext node
            (some m.size)).setLast h (some m.size))) h m.size
          (locs ++ [m.size]) (pvals ++ [v]) hch2' hhead2 (List.getLast?_concat locs)
          hnodup2 hbd2
      have hassocL : (locs ++ [m.size]) ++ List.range' (m.size + 1) vs.length
          = locs ++ List.range' m.size (v :: vs).length := by
        rw [List.length_cons, List.range'_succ, List.append_assoc]
        rfl
      have hassocV : (pvals ++ [v]) ++ vs = pvals ++ v :: vs := by
        rw [List.append_assoc]
        rfl
      rw [hstep]
      rw [hm2size] at ihsize ihret ihchain ihnd ihbd ihhead
      rw [hassocL] at ihret ihchain ihnd ihbd ihhead
      rw [hassocV] at ihchain
      refine ⟨?_, ihret, ihchain, ihnd, ihbd, ihhead⟩
      rw [ihsize, List.length_cons]
      omega

theorem CircularDoublyLinkedList.cdll_init_rep [Inhabited α] (S : List α) :
    CDLLRep (CircularDoublyLinkedList.init S) (List.range' 0 S.length) S := by
  cases S with
  | nil =>
      refine ⟨⟨?_, ?_⟩, rfl, trivial⟩
      · simp
      · simp
  | cons v vs =>
      have hstep : CircularDoublyLinkedList.init (v :: vs) =
          ⟨(CircularDoublyLinkedList.initLoop
              (CircularDoublyLinkedNode.new (Mem.empty (α := α)) v none none).1 0 0 vs).1,
            some (CircularDoublyLinkedList.initLoop
              (CircularDoublyLinkedNode.new (Mem.empty (α := α)) v none none).1 0 0 vs).2⟩ := rfl
      have hm1read : (CircularDoublyLinkedNode.new (Mem.empty (α := α)) v none none).1.read 0
          = ⟨v, some 0, some 0⟩ := rfl
      have hm1size : (CircularDoublyLinkedNode.new (Mem.empty (α := α)) v none none).1.size
          = 1 := rfl
      obtain ⟨hsize, hret, hchain, hnd, hbd, hhead⟩ :=
        CircularDoublyLinkedList.cdll_initLoop_spec vs
          (CircularDoublyLinkedNode.new (Mem.empty (α := α)) v none none).1 0 0 [0] [v]
          ⟨by rw [hm1read], by rw [hm1read]; rfl, by rw [hm1read], trivial⟩
          rfl rfl (List.nodup_singleton 0)
          (by intro b hb; rw [hm1size]; simp at hb; omega)
      rw [hm1size] at hsize hret hchain hbd hnd hhead
      have hlocs : [0] ++ List.range' 1 vs.length = List.range' 0 (v :: vs).length := by
        rw [List.length_cons, List.range'_succ]
        rfl
      rw [hlocs] at hret hchain hnd hbd hhead
      rw [hstep]
      refine ⟨⟨hnd, ?_⟩, ?_, ?_⟩
      · intro a ha
        have := hbd a ha
        rw [hsize] at this ⊢
        exact this
      · rw [nextAddr_reverse]
        exact hret
      · rw [show nextAddr (List.range' 0 (v :: vs).length) none = some 0 from by
          rw [List.length_cons, List.range'_succ]; rfl]
        exact hchain

theorem CircularDoublyLinkedList.cdll_appendleft_rep {s : CircState α} {locs : List Nat}
    {vals : List α} (h : CDLLRep s locs vals) (x : α) :
    CDLLRep (CircularDoublyLinkedList.appendleft s x) (s.mem.size :: locs) (x :: vals) := by
  have hfresh : s.mem.size ∉ locs := fun hx => absurd (h.inv.bounded _ hx) (by omega)
  cases hlocs : locs with
  | nil =>
      subst hlocs
      have htail : s.tail = none := by rw [h.tail_eq]; rfl
      have hstate : CircularDoublyLinkedList.appendleft s x =
          ⟨(CircularDoublyLinkedNode.new s.mem x none none).1, some s.mem.size⟩ := by
        rw [CircularDoublyLinkedList.appendleft, htail]
        exact rfl
      rw [hstate]
      refine ⟨⟨by simp, ?_⟩, rfl, ?_⟩
      · intro a ha
        have : a = s.mem.size := by simpa using ha
        rw [this, CircularDoublyLinkedNode.new, Mem.size_alloc]
        omega
      · match vals, h.chain with
        | [], _ =>
          refine ⟨?_, ?_, ?_, trivial⟩
          · rw [CircularDoublyLinkedNode.new, Mem.read_alloc, if_pos rfl]
          · rw [CircularDoublyLinkedNode.new, Mem.read_alloc, if_pos rfl]
            rfl
          · rw [CircularDoublyLinkedNode.new, Mem.read_alloc, if_pos rfl]
            rfl
  | cons l0 ls =>
      subst hlocs
      obtain ⟨t, ht⟩ : ∃ t, (l0 :: ls).getLast? = some t :=
        ⟨(l0 :: ls).getLast (by simp), List.getLast?_eq_getLast _ _⟩
      have htail : s.tail = some t := by rw [h.tail_eq, nextAddr_reverse, ht]
      have ht_lt : t < s.mem.size := h.inv.bounded t (getLast?_mem_self ht)
      have hl0_lt : l0 < s.mem.size := h.inv.bounded l0 (List.mem_cons_self l0 ls)
      have hbefore : nextAddr (l0 :: ls).reverse none = some t := by
        rw [nextAddr_reverse, ht]
      have htnext : (s.mem.read t).next = some l0 := by
        have := isChain_getLast_next h.chain.toChain t ht
        rw [nextAddr_cons] at this
        exact this
      have main : ∀ (n : Nat) (m1 : Mem α), n = s.mem.size →
          m1 = (CircularDoublyLinkedNode.new s.mem x
            (some ((s.mem.read t).next.getD t)) (some t)).1 →
          ∀ (m2 : Mem α), m2 = m1.setNext t (some n) →
          ∀ (hd : Nat), hd = (m2.read t).next.getD t →
          ∀ (m3 : Mem α), m3 = m2.setLast ((m2.read hd).next.getD hd) ((m2.read t).next) →
          CDLLRep (⟨m3, some t⟩ : CircState α) (s.mem.size :: l0 :: ls) (x :: vals) := by
        intro n m1 hn hm1 m2 hm2 hd hhd m3 hm3
        have hm1t : m1.read t = s.mem.read t := by
          rw [hm1, CircularDoublyLinkedNode.new, Mem.read_alloc_lt s.mem _ ht_lt]
        have hm2t : m2.read t = { s.mem.read t with next := some n } := by
          rw [hm2, Mem.read_setNext, if_pos rfl, hm1t]
        have hhd' : hd = n := by
          rw [hhd, hm2t]
          rfl
        have hm2n : m2.read n = ⟨x, some l0, some t⟩ := by
          rw [hm2, Mem.read_setNext, if_neg (by omega : n ≠ t), hm1, hn,
            CircularDoublyLinkedNode.new, Mem.read_alloc, if_pos rfl, htnext]
          rfl
        have hm3' : m3 = m2.setLast l0 (some n) := by
          rw [hm3, hhd', hm2n, hm2t]
          rfl
        have hfrA : ∀ b ∈ l0 :: ls, b ≠ t → m2.read b = s.mem.read b := by
          intro b hb hbn
          rw [hm2, Mem.read_setNext, if_neg hbn, hm1,
            CircularDoublyLinkedNode.new, Mem.read_alloc_lt s.mem _ (h.inv.bounded b hb)]
        have hch0 : isDChain s.mem (some t) (some l0) (l0 :: ls) vals := by
          have := h.chain
          rw [hbefore, nextAddr_cons] at this
          exact this
        have hchA : isDChain m2 (some t) (some n) (l0 :: ls) vals :=
          isDChain_update_lastlink hch0 ht h.inv.nodup hfrA
            (show (m2.read t).value = (s.mem.read t).value by rw [hm2t])
            (show (m2.read t).next = some n by rw [hm2t])
            (show (m2.read t).last = (s.mem.read t).last by rw [hm2t])
        have hch2 : isDChain m3 (some n) (some n) (l0 :: ls) vals := by
          rw [hm3']
          refine isDChain_update_before hchA h.inv.nodup ?_ ?_
          · intro b _ hbn
            rw [Mem.read_setLast, if_neg hbn]
          · rw [Mem.read_setLast, if_pos rfl]
        have hm3n : m3.read n = ⟨x, some l0, some t⟩ := by
          rw [hm3', Mem.read_setLast, if_neg (by omega : n ≠ l0), hm2n]
        have hsize3 : m3.size = s.mem.size + 1 := by
          rw [hm3', Mem.size_setLast, hm2, Mem.size_setNext, hm1,
            CircularDoublyLinkedNode.new, Mem.size_alloc]
        subst hn
        refine ⟨⟨List.nodup_cons.mpr ⟨hfresh, h.inv.nodup⟩, ?_⟩, ?_, ?_⟩
        · intro a ha
          rw [hsize3]
          rcases List.mem_cons.mp ha with h1 | h1
          · omega
          · have := h.inv.bounded a h1
            omega
        · rw [List.reverse_cons, nextAddr_append_singleton,
            nextAddr_of_ne_nil (by simp) (some s.mem.size) none]
          show some t = nextAddr (l0 :: ls).reverse none
          rw [hbefore]
        · rw [List.reverse_cons, nextAddr_append_singleton,
            nextAddr_of_ne_nil (by simp) (some s.mem.size) none, hbefore, nextAddr_cons]
          exact ⟨by rw [hm3n], by rw [hm3n]; rfl, by rw [hm3n], hch2⟩
      have hstate : CircularDoublyLinkedList.appendleft s x =
          (CircularDoublyLinkedList.appendleft ⟨s.mem, some t⟩ x) := by
        rw [show s = (⟨s.mem, s.tail⟩ : CircState α) from rfl, htail]
      rw [hstate]
      exact main _ _ rfl rfl _ rfl _ rfl _ rfl

theorem CircularDoublyLinkedList.cdll_append_rep {s : CircState α} {locs : List Nat}
    {vals : List α} (h : CDLLRep s locs vals) (x : α) :
    CDLLRep (CircularDoublyLinkedList.append s x) (locs ++ [s.mem.size]) (vals ++ [x]) := by
  have hfresh : s.mem.size ∉ locs := fun hx => absurd (h.inv.bounded _ hx) (by omega)
  cases hlocs : locs with
  | nil =>
      subst hlocs
      have htail : s.tail = none := by rw [h.tail_eq]; rfl
      have hstate : CircularDoublyLinkedList.append s x =
          ⟨(CircularDoublyLinkedNode.new s.mem x none none).1, some s.mem.size⟩ := by
        rw [CircularDoublyLinkedList.append, htail]
        exact rfl
      rw [hstate]
      have hvals : vals = [] := by
        have := isDChain_length h.chain
        simpa using (List.length_eq_zero.mp this.symm)
      subst hvals
      refine ⟨⟨by simp, ?_⟩, rfl, ?_⟩
      · intro a ha
        have : a = s.mem.size := by simpa using ha
        rw [this, CircularDoublyLinkedNode.new, Mem.size_alloc]
        omega
      · refine ⟨?_, ?_, ?_, trivial⟩
        · rw [CircularDoublyLinkedNode.new, Mem.read_alloc, if_pos rfl]
        · rw [CircularDoublyLinkedNode.new, Mem.read_alloc, if_pos rfl]
          rfl
        · rw [CircularDoublyLinkedNode.new, Mem.read_alloc, if_pos rfl]
          rfl
  | cons l0 ls =>
      subst hlocs
      obtain ⟨t, ht⟩ : ∃ t, (l0 :: ls).getLast? = some t :=
        ⟨(l0 :: ls).getLast (by simp), List.getLast?_eq_getLast _ _⟩
      have htail : s.tail = some t := by rw [h.tail_eq, nextAddr_reverse, ht]
      have ht_lt : t < s.mem.size := h.inv.bounded t (getLast?_mem_self ht)
      have hl0_lt : l0 < s.mem.size := h.inv.bounded l0 (List.mem_cons_self l0 ls)
      have hbefore : nextAddr (l0 :: ls).reverse none = some t := by
        rw [nextAddr_reverse, ht]
      have htnext : (s.mem.read t).next = some l0 := by
        have := isChain_getLast_next h.chain.toChain t ht
        rw [nextAddr_cons] at this
        exact this
      have main : ∀ (n : Nat) (m1 : Mem α), n = s.mem.size →
          m1 = (CircularDoublyLinkedNode.new s.mem x
            (some ((s.mem.read t).next.getD t)) (some t)).1 →
          ∀ (m2 : Mem α), m2 = m1.setNext ((m1.read n).last.getD n) (some n) →
          ∀ (m3 : Mem α), m3 = m2.setLast ((m2.read n).next.getD n) (some n) →
          CDLLRep (⟨m3, some n⟩ : CircState α) ((l0 :: ls) ++ [s.mem.size]) (vals ++ [x]) := by
        intro n m1 hn hm1 m2 hm2 m3 hm3
        have hm1n : m1.read n = ⟨x, some l0, some t⟩ := by
          rw [hm1, hn, CircularDoublyLinkedNode.new, Mem.read_alloc, if_pos rfl, htnext]
          rfl
        have hm2' : m2 = m1.setNext t (some n) := by
          rw [hm2, hm1n]
          rfl
        have hm2t : m2.read t = { s.mem.read t with next := some n } := by
          rw [hm2', Mem.read_setNext, if_pos rfl, hm1,
            CircularDoublyLinkedNode.new, Mem.read_alloc_lt s.mem _ ht_lt]
        have hm2n : m2.read n = ⟨x, some l0, some t⟩ := by
          rw [hm2', Mem.read_setNext, if_neg (by omega : n ≠ t), hm1n]
        have hm3' : m3 = m2.setLast l0 (some n) := by
          rw [hm3, hm2n]
          rfl
        have hfrA : ∀ b ∈ l0 :: ls, b ≠ t → m2.read b = s.mem.read b := by
          intro b hb hbn
          rw [hm2', Mem.read_setNext, if_neg hbn, hm1,
            CircularDoublyLinkedNode.new, Mem.read_alloc_lt s.mem _ (h.inv.bounded b hb)]
        have hch0 : isDChain s.mem (some t) (some l0) (l0 :: ls) vals := by
          have := h.chain
          rw [hbefore, nextAddr_cons] at this
          exact this
        have hchA : isDChain m2 (some t) (some n) (l0 :: ls) vals :=
          isDChain_update_lastlink hch0 ht h.inv.nodup hfrA
            (show (m2.read t).value = (s.mem.read t).value by rw [hm2t])
            (show (m2.read t).next = some n by rw [hm2t])
            (show (m2.read t).last = (s.mem.read t).last by rw [hm2t])
        have hch2 : isDChain m3 (some n) (some n) (l0 :: ls) vals := by
          rw [hm3']
          refine isDChain_update_before hchA h.inv.nodup ?_ ?_
          · intro b _ hbn
            rw [Mem.read_setLast, if_neg hbn]
          · rw [Mem.read_setLast, if_pos rfl]
        have hm3n : m3.read n = ⟨x, some l0, some t⟩ := by
          rw [hm3', Mem.read_setLast, if_neg (by omega : n ≠ l0), hm2n]
        have hsize3 : m3.size = s.mem.size + 1 := by
          rw [hm3', Mem.size_setLast, hm2', Mem.size_setNext, hm1,
            CircularDoublyLinkedNode.new, Mem.size_alloc]
        subst hn
        refine ⟨⟨?_, ?_⟩, ?_, ?_⟩
        · refine List.Nodup.append h.inv.nodup (by simp) ?_
          intro b hb hb2
          have : b = s.mem.size := by simpa using hb2
          exact hfresh (this ▸ hb)
        · intro a ha
          rw [hsize3]
          rcases List.mem_append.mp ha with h1 | h1
          · have := h.inv.bounded a h1
            omega
          · have : a = s.mem.size := by simpa using h1
            omega
        · rw [nextAddr_reverse, List.getLast?_concat]
        · rw [nextAddr_append_singleton,
            nextAddr_of_ne_nil (by simp : (l0 :: ls) ≠ []) (some s.mem.size) none,
            nextAddr_reverse, List.getLast?_concat, nextAddr_cons]
          refine (isDChain_append (isDChain_length hch0)).mpr ⟨?_, ?_⟩
          · rw [show nextAddr [s.mem.size] (some l0) = some s.mem.size from rfl]
            exact hch2
          · rw [nextAddr_of_ne_nil (by simp : (l0 :: ls).reverse ≠ [])
              (some s.mem.size) none, hbefore]
            exact ⟨by rw [hm3n], by rw [hm3n]; rfl, by rw [hm3n], trivial⟩
      have hstate : CircularDoublyLinkedList.append s x =
          (CircularDoublyLinkedList.append ⟨s.mem, some t⟩ x) := by
        rw [show s = (⟨s.mem, s.tail⟩ : CircState α) from rfl, htail]
      rw [hstate]
      exact main _ _ rfl rfl _ rfl _ rfl

theorem CircularDoublyLinkedList.cdll_popleft_empty {s : CircState α} (h : s.tail = none) :
    CircularDoublyLinkedList.popleft s = (.error .indexError, s) := by
  rw [CircularDoublyLinkedList.popleft, h]

theorem CircularDoublyLinkedList.cdll_pop_empty {s : CircState α} (h : s.tail = none) :
    CircularDoublyLinkedList.pop s = (.error .indexError, s) := by
  rw [CircularDoublyLinkedList.pop, h]

theorem CircularDoublyLinkedList.cdll_popleft_rep {s : CircState α} {l0 : Nat} {ls : List Nat}
    {x : α} {vs : List α} (h : CDLLRep s (l0 :: ls) (x :: vs)) :
    (CircularDoublyLinkedList.popleft s).1 = .ok x ∧
      CDLLRep (CircularDoublyLinkedList.popleft s).2 ls vs := by
  obtain ⟨t, ht⟩ : ∃ t, (l0 :: ls).getLast? = some t :=
    ⟨(l0 :: ls).getLast (by simp), List.getLast?_eq_getLast _ _⟩
  have htail : s.tail = some t := by rw [h.tail_eq, nextAddr_reverse, ht]
  have htnext : (s.mem.read t).next = some l0 := by
    have := isChain_getLast_next h.chain.toChain t ht
    rw [nextAddr_cons] at this
    exact this
  have hch0 : isDChain s.mem (some t) (some l0) (l0 :: ls) (x :: vs) := by
    have := h.chain
    rw [nextAddr_reverse, ht, nextAddr_cons] at this
    exact this
  have hval : (s.mem.read l0).value = x := hch0.1
  cases hls : ls with
  | nil =>
      subst hls
      have hteq : l0 = t := by simpa using ht
      subst hteq
      have hstate : CircularDoublyLinkedList.popleft s =
          (.ok (s.mem.read l0).value, ⟨s.mem, none⟩) := by
        simp [CircularDoublyLinkedList.popleft, htail, htnext, Option.getD_some]
      rw [hstate, hval]
      match vs, hch0.2.2.2 with
      | [], _ => exact ⟨rfl, ⟨⟨by simp, by simp⟩, rfl, trivial⟩⟩
  | cons l1 ls' =>
      subst hls
      have htne : t ≠ l0 := by
        intro hx
        have hmem : t ∈ l1 :: ls' := getLast?_mem_self (by simpa using ht)
        exact (List.nodup_cons.mp h.inv.nodup).1 (hx ▸ hmem)
      have hl0next : (s.mem.read l0).next = some l1 := by
        have := hch0.2.1
        rw [nextAddr_cons] at this
        exact this
      have htmem : t ∈ l1 :: ls' := getLast?_mem_self (by simpa using ht)
      have main : ∀ (m1 : Mem α), m1 = s.mem.setNext t ((s.mem.read l0).next) →
          ∀ (m2 : Mem α), m2 = m1.setLast ((m1.read t).next.getD t) (some t) →
          CDLLRep (⟨m2, some t⟩ : CircState α) (l1 :: ls') vs := by
        intro m1 hm1 m2 hm2
        have hm1t : m1.read t = { s.mem.read t with next := some l1 } := by
          rw [hm1, Mem.read_setNext, if_pos rfl, hl0next]
        have hm2' : m2 = m1.setLast l1 (some t) := by
          rw [hm2, hm1t]
          rfl
        have hfr1 : ∀ b ∈ l1 :: ls', b ≠ t → m1.read b = s.mem.read b := by
          intro b _ hbn
          rw [hm1, Mem.read_setNext, if_neg hbn]
        have hnd' : (l1 :: ls').Nodup := (List.nodup_cons.mp h.inv.nodup).2
        have hch1 : isDChain m1 (some l0) (some l1) (l1 :: ls') vs :=
          isDChain_update_lastlink hch0.2.2.2 (by simpa using ht) hnd' hfr1
            (show (m1.read t).value = (s.mem.read t).value by rw [hm1t])
            (show (m1.read t).next = some l1 by rw [hm1t])
            (show (m1.read t).last = (s.mem.read t).last by rw [hm1t])
        have hch2 : isDChain m2 (some t) (some l1) (l1 :: ls') vs := by
          rw [hm2']
          refine isDChain_update_before hch1 hnd' ?_ ?_
          · intro b _ hbn
            rw [Mem.read_setLast, if_neg hbn]
          · rw [Mem.read_setLast, if_pos rfl]
        have hsize2 : m2.size = s.mem.size := by
          rw [hm2', Mem.size_setLast, hm1, Mem.size_setNext]
        refine ⟨⟨hnd', ?_⟩, ?_, ?_⟩
        · intro a ha
          rw [hsize2]
          exact h.inv.bounded a (List.mem_cons_of_mem l0 ha)
        · show some t = nextAddr (l1 :: ls').reverse none
          rw [nextAddr_reverse]
          exact (by simpa using ht : (l1 :: ls').getLast? = some t).symm
        · rw [nextAddr_reverse, (by simpa using ht : (l1 :: ls').getLast? = some t),
            nextAddr_cons]
          exact hch2
      have hstate : CircularDoublyLinkedList.popleft s =
          (.ok (s.mem.read l0).value,
            ⟨(s.mem.setNext t ((s.mem.read l0).next)).setLast
              (((s.mem.setNext t ((s.mem.read l0).next)).read t).next.getD t) (some t),
              some t⟩) := by
        simp only [CircularDoublyLinkedList.popleft, htail, htnext, Option.getD_some]
        rw [if_neg htne]
      rw [hstate, hval]
      exact ⟨rfl, main _ rfl _ rfl⟩

theorem CircularDoublyLinkedList.cdll_pop_rep {s : CircState α} {init : List Nat} {t : Nat}
    {vinit : List α} {x : α} (hlen : init.length = vinit.length)
    (h : CDLLRep s (init ++ [t]) (vinit ++ [x])) :
    (CircularDoublyLinkedList.pop s).1 = .ok x ∧
      CDLLRep (CircularDoublyLinkedList.pop s).2 init vinit := by
  have htail : s.tail = some t := by
    rw [h.tail_eq, nextAddr_reverse, List.getLast?_concat]
  have hchfull : isDChain s.mem (some t) (nextAddr init (some t)) (init ++ [t])
      (vinit ++ [x]) := by
    have := h.chain
    rw [nextAddr_reverse, List.getLast?_concat, nextAddr_append_singleton] at this
    exact this
  obtain ⟨hA, hB⟩ := (isDChain_append hlen).mp hchfull
  rw [show nextAddr [t] (nextAddr init (some t)) = some t from rfl] at hA
  have hval : (s.mem.read t).value = x := hB.1
  have hnextt : (s.mem.read t).next = nextAddr init (some t) := by
    have := hB.2.1
    rwa [show nextAddr ([] : List Nat) (nextAddr init (some t)) =
      nextAddr init (some t) from rfl] at this
  have hlastt : (s.mem.read t).last = nextAddr init.reverse (some t) := hB.2.2.1
  by_cases hne : init = []
  · subst hne
    have hvnil : vinit = [] := by
      cases vinit with
      | nil => rfl
      | cons y ys => simp at hlen
    subst hvnil
    have hnt : (s.mem.read t).next = some t := hnextt
    have hstate : CircularDoublyLinkedList.pop s = (.ok (s.mem.read t).value,
        ⟨s.mem, none⟩) := by
      simp [CircularDoublyLinkedList.pop, htail, hnt, Option.getD_some]
    rw [hstate, hval]
    exact ⟨rfl, ⟨⟨by simp, by simp⟩, rfl, trivial⟩⟩
  · obtain ⟨pt, hpt⟩ : ∃ p, init.getLast? = some p :=
      ⟨init.getLast hne, List.getLast?_eq_getLast init hne⟩
    obtain ⟨l0, init', hinit⟩ : ∃ c cs, init = c :: cs := by
      cases init with
      | nil => exact absurd rfl hne
      | cons c cs => exact ⟨c, cs, rfl⟩
    have hndinit : init.Nodup := (List.nodup_append.mp h.inv.nodup).1
    have htnotin : t ∉ init := by
      intro hmem
      exact (List.nodup_append.mp h.inv.nodup).2.2 hmem (by simp)
    have hptmem : pt ∈ init := getLast?_mem_self hpt
    have hl0mem : l0 ∈ init := by rw [hinit]; exact List.mem_cons_self _ _
    have hnt : (s.mem.read t).next = some l0 := by
      rw [hnextt, hinit, nextAddr_cons]
    have hlt : (s.mem.read t).last = some pt := by
      rw [hlastt, nextAddr_of_ne_nil (by simpa using hne) (some t) none,
        nextAddr_reverse, hpt]
    have htnel0 : t ≠ l0 := fun hx => htnotin (hx ▸ hl0mem)
    have htnept : t ≠ pt := fun hx => htnotin (hx ▸ hptmem)
    have main : ∀ (m1 : Mem α), m1 = s.mem.setNext pt (some l0) →
        ∀ (m2 : Mem α), m2 = m1.setLast ((m1.read t).next.getD t) (some pt) →
        CDLLRep (⟨m2, some pt⟩ : CircState α) init vinit := by
      intro m1 hm1 m2 hm2
      have hm1t : m1.read t = s.mem.read t := by
        rw [hm1, Mem.read_setNext, if_neg htnept]
      have hm2' : m2 = m1.setLast l0 (some pt) := by
        rw [hm2, hm1t, hnt]
        rfl
      have hfr1 : ∀ b ∈ init, b ≠ pt → m1.read b = s.mem.read b := by
        intro b _ hbn
        rw [hm1, Mem.read_setNext, if_neg hbn]
      have hm1pt : m1.read pt = { s.mem.read pt with next := some l0 } := by
        rw [hm1, Mem.read_setNext, if_pos rfl]
      have hch1 : isDChain m1 (some t) (some l0) init vinit :=
        isDChain_update_lastlink hA hpt hndinit hfr1
          (show (m1.read pt).value = (s.mem.read pt).value by rw [hm1pt])
          (show (m1.read pt).next = some l0 by rw [hm1pt])
          (show (m1.read pt).last = (s.mem.read pt).last by rw [hm1pt])
      have hch2 : isDChain m2 (some pt) (some l0) init vinit := by
        rw [hm2', hinit]
        rw [hinit] at hch1 hndinit
        refine isDChain_update_before hch1 hndinit ?_ ?_
        · intro b _ hbn
          rw [Mem.read_setLast, if_neg hbn]
        · rw [Mem.read_setLast, if_pos rfl]
      have hsize2 : m2.size = s.mem.size := by
        rw [hm2', Mem.size_setLast, hm1, Mem.size_setNext]
      refine ⟨⟨hndinit, ?_⟩, ?_, ?_⟩
      · intro a ha
        rw [hsize2]
        exact h.inv.bounded a (List.mem_append_left _ ha)
      · show some pt = nextAddr init.reverse none
        rw [nextAddr_reverse, hpt]
      · rw [nextAddr_reverse, hpt]
        rw [show nextAddr init none = some l0 from by rw [hinit, nextAddr_cons]]
        exact hch2
    have hstate : CircularDoublyLinkedList.pop s = (.ok (s.mem.read t).value,
        ⟨(s.mem.setNext pt (some l0)).setLast
          (((s.mem.setNext pt (some l0)).read t).next.getD t) (some pt), some pt⟩) := by
      simp only [CircularDoublyLinkedList.pop, htail, hnt, hlt, Option.getD_some]
      rw [if_neg htnel0]
    rw [hstate, hval]
    exact ⟨rfl, main _ rfl _ rfl⟩

/-- Specification of the `CircularDoublyLinkedList.reverse` loop: it swaps the
two links of every node strictly before the tail, in place. -/
theorem CircularDoublyLinkedList.cdll_revLoop_spec :
    ∀ {locs : List Nat} {vals : List α} {m : Mem α} {before : Option Nat} {tailA : Nat}
      {fuel : Nat},
      isDChain m before (some tailA) locs vals → tailA ∉ locs → locs.Nodup →
      locs.length ≤ fuel →
      (∀ b, b ∉ locs →
        (CircularDoublyLinkedList.revLoop m fuel ((nextAddr locs (some tailA)).getD tailA)
          tailA).read b = m.read b) ∧
      (CircularDoublyLinkedList.revLoop m fuel ((nextAddr locs (some tailA)).getD tailA)
        tailA).size = m.size ∧
      isDChain (CircularDoublyLinkedList.revLoop m fuel
        ((nextAddr locs (some tailA)).getD tailA) tailA) (some tailA) before
        locs.reverse vals.reverse
  | [], [], m, before, tailA, fuel => by
      intro _ _ _ _
      have hloop : CircularDoublyLinkedList.revLoop m fuel
          ((nextAddr [] (some tailA)).getD tailA) tailA = m := by
        cases fuel with
        | zero => rfl
        | succ f =>
            show (if tailA = tailA then m else _) = m
            rw [if_pos rfl]
      rw [hloop]
      exact ⟨fun b _ => rfl, rfl, trivial⟩
  | [], _ :: _, _, _, _, _ => fun h => h.elim
  | _ :: _, [], _, _, _, _ => fun h => h.elim
  | _ :: _, _ :: _, _, _, _, 0 => by
      intro _ _ _ hf
      simp at hf
  | a :: as, v :: vs, m, before, tailA, fuel + 1 => by
      intro hch hta hnd hf
      have hnotin : a ∉ as := (List.nodup_cons.mp hnd).1
      have hane : a ≠ tailA := fun hx => hta (hx ▸ List.mem_cons_self a as)
      have htas : tailA ∉ as := fun hx => hta (List.mem_cons_of_mem a hx)
      have hgetd : (nextAddr as (some tailA)).getD a = (nextAddr as (some tailA)).getD tailA := by
        cases as <;> rfl
      have hstep1 : CircularDoublyLinkedList.revLoop m (fuel + 1)
            ((nextAddr (a :: as) (some tailA)).getD tailA) tailA =
          CircularDoublyLinkedList.revLoop
            (m.write a ⟨(m.read a).value, (m.read a).last, (m.read a).next⟩) fuel
            ((m.read a).next.getD a) tailA := by
        show (if a = tailA then m else _) = _
        rw [if_neg hane]
        exact rfl
      have hstep2 : (m.read a).next.getD a = (nextAddr as (some tailA)).getD tailA := by
        rw [hch.2.1, hgetd]
      have hastep : CircularDoublyLinkedList.revLoop m (fuel + 1)
            ((nextAddr (a :: as) (some tailA)).getD tailA) tailA =
          CircularDoublyLinkedList.revLoop
            (m.write a ⟨(m.read a).value, (m.read a).last, (m.read a).next⟩) fuel
            ((nextAddr as (some tailA)).getD tailA) tailA := by
        rw [hstep1, hstep2]
      have hch' : isDChain (m.write a ⟨(m.read a).value, (m.read a).last, (m.read a).next⟩)
          (some a) (some tailA) as vs :=
        isDChain_congr (fun b hb => by
          rw [Mem.read_write, if_neg (fun hba : b = a => hnotin (hba ▸ hb))]) hch.2.2.2
      obtain ⟨ihframe, ihsize, ihchain⟩ :=
        @CircularDoublyLinkedList.cdll_revLoop_spec _ as vs _ (some a) tailA fuel hch'
          htas (List.nodup_cons.mp hnd).2 (Nat.le_of_succ_le_succ (by simpa using hf))
      rw [hastep]
      have hframe : ∀ b, b ∉ a :: as →
          (CircularDoublyLinkedList.revLoop
            (m.write a ⟨(m.read a).value, (m.read a).last, (m.read a).next⟩) fuel
            ((nextAddr as (some tailA)).getD tailA) tailA).read b = m.read b := by
        intro b hb
        rw [ihframe b (fun hx => hb (List.mem_cons_of_mem a hx)), Mem.read_write,
          if_neg (fun hba : b = a => hb (by rw [hba]; exact List.mem_cons_self a as))]
      have hreada : (CircularDoublyLinkedList.revLoop
          (m.write a ⟨(m.read a).value, (m.read a).last, (m.read a).next⟩) fuel
          ((nextAddr as (some tailA)).getD tailA) tailA).read a
            = ⟨(m.read a).value, (m.read a).last, (m.read a).next⟩ := by
        rw [ihframe a hnotin, Mem.read_write, if_pos rfl]
      refine ⟨hframe, by rw [ihsize]; rfl, ?_⟩
      rw [List.reverse_cons, List.reverse_cons]
      rw [isDChain_append (by simpa using isDChain_length hch.2.2.2)]
      refine ⟨by simpa [nextAddr] using ihchain, ?_⟩
      rw [List.reverse_reverse]
      refine ⟨?_, ?_, ?_, trivial⟩
      · rw [hreada]; exact hch.1
      · rw [hreada]
        show (m.read a).last = before
        exact hch.2.2.1
      · rw [hreada]
        show (m.read a).next = nextAddr as (some tailA)
        exact hch.2.1

theorem CircularDoublyLinkedList.cdll_reverse_rep {s : CircState α} {locs : List Nat}
    {vals : List α} (h : CDLLRep s locs vals) :
    CDLLRep (CircularDoublyLinkedList.reverse s) locs.reverse vals.reverse := by
  cases hlocs : locs with
  | nil =>
      subst hlocs
      match vals, h.chain with
      | [], _ =>
        have htail : s.tail = none := by rw [h.tail_eq]; rfl
        have hstate : CircularDoublyLinkedList.reverse s = s := by
          rw [CircularDoublyLinkedList.reverse, htail]
        rw [hstate]
        exact h
  | cons l0 ls =>
      subst hlocs
      obtain ⟨t, ht⟩ : ∃ t, (l0 :: ls).getLast? = some t :=
        ⟨(l0 :: ls).getLast (by simp), List.getLast?_eq_getLast _ _⟩
      have htail : s.tail = some t := by rw [h.tail_eq, nextAddr_reverse, ht]
      have htnext : (s.mem.read t).next = some l0 := by
        have := isChain_getLast_next h.chain.toChain t ht
        rw [nextAddr_cons] at this
        exact this
      have hne : (l0 :: ls) ≠ [] := by simp
      have hgl : (l0 :: ls).getLast hne = t := by
        have := List.getLast?_eq_getLast (l0 :: ls) hne
        rw [ht] at this
        exact (Option.some.injEq _ _ ▸ this).symm
      have hsplitL : (l0 :: ls).dropLast ++ [t] = l0 :: ls := by
        have := List.dropLast_append_getLast hne
        rwa [hgl] at this
      have hvne : vals ≠ [] := by
        intro hv
        have := isDChain_length h.chain
        rw [hv] at this
        simp at this
      have hsplitV : vals.dropLast ++ [vals.getLast hvne] = vals :=
        List.dropLast_append_getLast hvne
      have hlen' : (l0 :: ls).dropLast.length = vals.dropLast.length := by
        have := isDChain_length h.chain
        simp [List.length_dropLast, this]
      have hchain' : isDChain s.mem (some t) (some l0) ((l0 :: ls).dropLast ++ [t])
          (vals.dropLast ++ [vals.getLast hvne]) := by
        rw [hsplitL, hsplitV]
        have := h.chain
        rw [nextAddr_reverse, ht, nextAddr_cons] at this
        exact this
      obtain ⟨hA, hB⟩ := (isDChain_append hlen').mp hchain'
      rw [show nextAddr [t] (some l0) = some t from rfl] at hA
      have htin : t ∉ (l0 :: ls).dropLast := by
        have hnd := h.inv.nodup
        rw [← hsplitL] at hnd
        intro hx
        exact List.disjoint_of_nodup_append hnd hx (by simp)
      have hndinit : (l0 :: ls).dropLast.Nodup := by
        have hnd := h.inv.nodup
        rw [← hsplitL] at hnd
        exact (List.nodup_append.mp hnd).1
      have hfuel : (l0 :: ls).dropLast.length ≤ s.mem.size := by
        have h1 : (l0 :: ls).dropLast.length ≤ (l0 :: ls).length := by
          simp [List.length_dropLast]
        exact le_trans h1 h.inv.length_le
      obtain ⟨hframe, hsize, hchainrev⟩ :=
        @CircularDoublyLinkedList.cdll_revLoop_spec _ _ _ s.mem (some t) t s.mem.size
          hA htin hndinit hfuel
      have hstart : (nextAddr (l0 :: ls).dropLast (some t)).getD t = l0 := by
        cases hi : (l0 :: ls).dropLast with
        | nil =>
            rw [hi] at hsplitL
            have h2 : t = l0 ∧ ls = [] := by simpa using hsplitL
            rw [nextAddr_nil]
            simp [h2.1]
        | cons c cs =>
            rw [hi] at hsplitL
            have : c = l0 := by
              have := congrArg List.head? hsplitL
              simpa using this
            rw [nextAddr_cons]
            simpa using this
      rw [hstart] at hframe hsize hchainrev
      have hreadt : (CircularDoublyLinkedList.revLoop s.mem s.mem.size l0 t).read t
          = s.mem.read t := hframe t htin
      have hstate : CircularDoublyLinkedList.reverse s =
          ⟨(CircularDoublyLinkedList.revLoop s.mem s.mem.size l0 t).write t
              ⟨(s.mem.read t).value, (s.mem.read t).last, some l0⟩, some l0⟩ := by
        simp only [CircularDoublyLinkedList.reverse, htail, htnext, Option.getD_some, hreadt]
      rw [hstate]
      have hrevlist : (l0 :: ls).reverse = t :: (l0 :: ls).dropLast.reverse := by
        conv_lhs => rw [← hsplitL]
        rw [List.reverse_append]
        rfl
      have hrevvals : vals.reverse = vals.getLast hvne :: vals.dropLast.reverse := by
        conv_lhs => rw [← hsplitV]
        rw [List.reverse_append]
        rfl
      have hreadfin : ∀ b, b ≠ t →
          ((CircularDoublyLinkedList.revLoop s.mem s.mem.size l0 t).write t
            ⟨(s.mem.read t).value, (s.mem.read t).last, some l0⟩).read b
          = (CircularDoublyLinkedList.revLoop s.mem s.mem.size l0 t).read b := by
        intro b hb
        rw [Mem.read_write, if_neg hb]
      have hreadtfin : ((CircularDoublyLinkedList.revLoop s.mem s.mem.size l0 t).write t
            ⟨(s.mem.read t).value, (s.mem.read t).last, some l0⟩).read t
          = ⟨(s.mem.read t).value, (s.mem.read t).last, some l0⟩ := by
        rw [Mem.read_write, if_pos rfl]
      have hbefore' : nextAddr ((l0 :: ls).dropLast ++ [t]) none = some l0 := by
        rw [hsplitL, nextAddr_cons]
      refine ⟨⟨List.nodup_reverse.mpr h.inv.nodup, ?_⟩, ?_, ?_⟩
      · intro a ha
        rw [Mem.size_write, hsize]
        exact h.inv.bounded a (List.mem_reverse.mp ha)
      · show some l0 = nextAddr (l0 :: ls).reverse.reverse none
        rw [List.reverse_reverse, nextAddr_cons]
      · rw [hrevlist, hrevvals]
        rw [show nextAddr (t :: (l0 :: ls).dropLast.reverse) none = some t from
          nextAddr_cons _ _ _]
        rw [show (t :: (l0 :: ls).dropLast.reverse).reverse = (l0 :: ls).dropLast ++ [t] from by
          rw [List.reverse_cons, List.reverse_reverse]]
        rw [hbefore']
        refine ⟨?_, ?_, ?_, ?_⟩
        · rw [hreadtfin]
          exact hB.1
        · rw [hreadtfin]
          show (s.mem.read t).last = nextAddr ((l0 :: ls).dropLast.reverse) (some t)
          exact hB.2.2.1
        · rw [hreadtfin]
        · refine isDChain_congr (fun b hb => hreadfin b ?_) hchainrev
          intro hbt
          exact htin (List.mem_reverse.mp (hbt ▸ hb))

/-! ## Generic chain facts used by the claim theorems -/

/-- A singly chain only constrains the `value` and `next` fields, so it
survives any memory change that preserves those two fields on its nodes. -/
theorem isChain_congr_fields {m m' : Mem α} {stop : Option Nat} :
    ∀ {locs : List Nat} {vals : List α},
      (∀ a ∈ locs, (m'.read a).value = (m.read a).value ∧
        (m'.read a).next = (m.read a).next) →
      isChain m stop locs vals → isChain m' stop locs vals
  | [], [], _, _ => trivial
  | [], _ :: _, _, h => h.elim
  | _ :: _, [], _, h => h.elim
  | a :: locs, v :: vals, hf, h => by
      refine ⟨?_, ?_, isChain_congr_fields (fun b hb => hf b (List.mem_cons_of_mem a hb)) h.2.2⟩
      · rw [(hf a (List.mem_cons_self a locs)).1]; exact h.1
      · rw [(hf a (List.mem_cons_self a locs)).2]; exact h.2.1

/-- The last chain node carries the last value. -/
theorem isChain_getLast_value {m : Mem α} {stop : Option Nat} :
    ∀ {locs : List Nat} {vals : List α}, isChain m stop locs vals →
      ∀ {t : Nat} {w : α}, locs.getLast? = some t → vals.getLast? = some w →
      (m.read t).value = w
  | [], _, _, _, _, ht, _ => by simp at ht
  | [a], vals, hch, t, w, ht, hw => by
      match vals, hch with
      | [v], hch =>
          have h1 : a = t := by simpa using ht
          have h2 : v = w := by simpa using hw
          subst h1; subst h2
          exact hch.1
  | a :: b :: rest, vals, hch, t, w, ht, hw => by
      match vals, hch with
      | v :: vs, hch =>
          have hvs : vs ≠ [] := by
            have := isChain_length hch.2.2
            intro hx
            rw [hx] at this
            simp at this
          refine isChain_getLast_value hch.2.2 (by simpa using ht) ?_
          cases vs with
          | nil => exact absurd rfl hvs
          | cons y ys => simpa using hw

/-- On a chain whose `stop` is a present address every node's `next` is
present (the cyclic-chain form of "circular nodes never have an absent
`next`"). -/
theorem isChain_next_isSome {m : Mem α} {q : Nat} :
    ∀ {locs : List Nat} {vals : List α}, isChain m (some q) locs vals →
      ∀ a ∈ locs, ((m.read a).next).isSome = true
  | [], _, _, a, ha => by simp at ha
  | l :: locs, vals, hch, a, ha => by
      match vals, hch with
      | v :: vs, hch =>
          rcases List.mem_cons.mp ha with h1 | h1
          · subst h1
            rw [hch.2.1]
            cases locs <;> rfl
          · exact isChain_next_isSome hch.2.2 a h1

/-- Forward back-pointer law of a doubly chain: whenever a chain node's `next`
is present it points to a node whose `last` points back, provided the `stop`
node (if any) closes the cycle backwards. -/
theorem isDChain_next_last {m : Mem α} :
    ∀ {locs : List Nat} {vals : List α} {before stop : Option Nat},
      isDChain m before stop locs vals →
      (∀ q, stop = some q → (m.read q).last = nextAddr locs.reverse before) →
      ∀ a ∈ locs, ∀ b, (m.read a).next = some b → (m.read b).last = some a
  | [], _, _, _, _, _, a, ha, _ => by simp at ha
  | a0 :: rest, vals, before, stop, hch, hstop, a, ha, b => by
      match vals, hch with
      | v :: vs, hch =>
          intro hab
          rcases List.mem_cons.mp ha with h1 | h1
          · subst h1
            cases hr : rest with
            | nil =>
                subst hr
                have h2 : (m.read a).next = stop := hch.2.1
                have hstop' : stop = some b := by rw [← h2, hab]
                have := hstop b hstop'
                rw [this]
                rfl
            | cons c cs =>
                subst hr
                have hb : b = c := by
                  have := hch.2.1
                  rw [hab, nextAddr_cons] at this
                  simpa using this
                subst hb
                match vs, hch.2.2.2 with
                | w :: ws, hch' => exact hch'.2.2.1
          · refine isDChain_next_last hch.2.2.2 ?_ a h1 b hab
            intro q hq
            have := hstop q hq
            rw [this, List.reverse_cons, nextAddr_append_singleton]

/-- Backward back-pointer law of a doubly chain: whenever a chain node's
`last` is present it points to a node whose `next` points back, provided the
`before` node (if any) closes the cycle forwards. -/
theorem isDChain_last_next {m : Mem α} :
    ∀ {locs : List Nat} {vals : List α} {before stop : Option Nat},
      isDChain m before stop locs vals →
      (∀ p, before = some p → (m.read p).next = nextAddr locs stop) →
      ∀ a ∈ locs, ∀ b, (m.read a).last = some b → (m.read b).next = some a
  | [], _, _, _, _, _, a, ha, _ => by simp at ha
  | a0 :: rest, vals, before, stop, hch, hbefore, a, ha, b => by
      match vals, hch with
      | v :: vs, hch =>
          intro hab
          rcases List.mem_cons.mp ha with h1 | h1
          · subst h1
            have hb : before = some b := by rw [← hch.2.2.1, hab]
            have := hbefore b hb
            rw [this, nextAddr_cons]
          · refine isDChain_last_next hch.2.2.2 ?_ a h1 b hab
            intro p hp
            have hpa : a0 = p := by simpa using hp
            subst hpa
            exact hch.2.1

theorem LinkedList.ll_drainLeft_spec : ∀ {vals : List α} {locs : List Nat} {s : LLState α},
    LLRep s locs vals →
    (LinkedList.drainLeft vals.length s).1 = vals ∧
    (LinkedList.drainLeft vals.length s).2.head = none := by
  intro vals
  induction vals with
  | nil =>
      intro locs s h
      match locs, h.chain with
      | [], _ => exact ⟨rfl, by show s.head = none; rw [h.head_eq]; rfl⟩
  | cons v vs ih =>
      intro locs s h
      match locs, h.chain with
      | l0 :: ls, _ =>
        have hhead : s.head = some l0 := by rw [h.head_eq, nextAddr_cons]
        have htb : s.toBool = true := by rw [LLState.toBool, hhead]; rfl
        obtain ⟨h1, h2⟩ := LinkedList.ll_popleft_rep h
        obtain ⟨ih1, ih2⟩ := ih h2
        simp only [List.length_cons, LinkedList.drainLeft, htb, if_true, h1]
        exact ⟨by rw [ih1], ih2⟩

theorem DoublyLinkedList.dll_drainLeft_spec : ∀ {vals : List α} {locs : List Nat} {s : DLLState α},
    DLLRep s locs vals →
    (DoublyLinkedList.drainLeft vals.length s).1 = vals ∧
    (DoublyLinkedList.drainLeft vals.length s).2.head = none ∧
    (DoublyLinkedList.drainLeft vals.length s).2.tail = none := by
  intro vals
  induction vals with
  | nil =>
      intro locs s h
      match locs, h.chain with
      | [], _ =>
        exact ⟨rfl, by show s.head = none; rw [h.head_eq]; rfl,
          by show s.tail = none; rw [h.tail_eq]; rfl⟩
  | cons v vs ih =>
      intro locs s h
      match locs, h.chain with
      | l0 :: ls, _ =>
        have hhead : s.head = some l0 := by rw [h.head_eq, nextAddr_cons]
        have htb : s.toBool = true := by rw [DLLState.toBool, hhead]; rfl
        obtain ⟨h1, h2⟩ := DoublyLinkedList.dll_popleft_rep h
        rcases hps : DoublyLinkedList.popleft s with ⟨r, s2⟩
        rw [hps] at h1 h2
        have h1' : r = .ok v := h1
        have h2' : DLLRep s2 ls vs := h2
        subst h1'
        obtain ⟨ih1, ih2, ih3⟩ := ih h2'
        simp only [List.length_cons, DoublyLinkedList.drainLeft, htb, if_true, hps]
        exact ⟨by rw [ih1], ih2, ih3⟩

theorem DoublyLinkedList.dll_drainRight_spec : ∀ (n : Nat) {vals : List α} {locs : List Nat}
    {s : DLLState α}, vals.length = n → DLLRep s locs vals →
    (DoublyLinkedList.drainRight n s).1 = vals.reverse ∧
    (DoublyLinkedList.drainRight n s).2.head = none ∧
    (DoublyLinkedList.drainRight n s).2.tail = none := by
  intro n
  induction n with
  | zero =>
      intro vals locs s hn h
      have hv : vals = [] := List.length_eq_zero.mp hn
      subst hv
      match locs, h.chain with
      | [], _ =>
        exact ⟨rfl, by show s.head = none; rw [h.head_eq]; rfl,
          by show s.tail = none; rw [h.tail_eq]; rfl⟩
  | succ n ihn =>
      intro vals locs s hn h
      have hvne : vals ≠ [] := by
        intro hx
        rw [hx] at hn
        simp at hn
      have hlne : locs ≠ [] := by
        intro hx
        have := isDChain_length h.chain
        rw [hx] at this
        exact hvne (List.length_eq_zero.mp (this.symm.trans (by simp)))
      have hsplitV : vals.dropLast ++ [vals.getLast hvne] = vals :=
        List.dropLast_append_getLast hvne
      have hsplitL : locs.dropLast ++ [locs.getLast hlne] = locs :=
        List.dropLast_append_getLast hlne
      have hlen : locs.dropLast.length = vals.dropLast.length := by
        have := isDChain_length h.chain
        simp [List.length_dropLast, this]
      have h' : DLLRep s (locs.dropLast ++ [locs.getLast hlne])
          (vals.dropLast ++ [vals.getLast hvne]) := by
        rw [hsplitV, hsplitL]
        exact h
      obtain ⟨h1, h2⟩ := DoublyLinkedList.dll_pop_rep hlen h'
      have htb : s.toBool = true := by
        match locs, h.head_eq with
        | c :: cs, hh =>
          rw [DLLState.toBool, show s.head = some c from by rw [hh, nextAddr_cons]]
          rfl
      rcases hps : DoublyLinkedList.pop s with ⟨r, s2⟩
      rw [hps] at h1 h2
      have h1' : r = .ok (vals.getLast hvne) := h1
      have h2' : DLLRep s2 locs.dropLast vals.dropLast := h2
      subst h1'
      have hdn : vals.dropLast.length = n := by
        have := congrArg List.length hsplitV
        simp only [List.length_append, List.length_cons, List.length_nil] at this
        omega
      obtain ⟨ih1, ih2, ih3⟩ := ihn hdn h2'
      simp only [DoublyLinkedList.drainRight, htb, if_true, hps]
      refine ⟨?_, ih2, ih3⟩
      rw [ih1]
      conv_rhs => rw [← hsplitV]
      simp

theorem CircularLinkedList.cll_drainLeft_spec : ∀ {vals : List α} {locs : List Nat}
    {s : CircState α}, CLLRep s locs vals →
    (CircularLinkedList.drainLeft vals.length s).1 = vals ∧
    (CircularLinkedList.drainLeft vals.length s).2.tail = none := by
  intro vals
  induction vals with
  | nil =>
      intro locs s h
      match locs, h.chain with
      | [], _ => exact ⟨rfl, by show s.tail = none; rw [h.tail_eq]; rfl⟩
  | cons v vs ih =>
      intro locs s h
      match locs, h.chain with
      | l0 :: ls, _ =>
        obtain ⟨t, ht⟩ : ∃ t, (l0 :: ls).getLast? = some t :=
          ⟨(l0 :: ls).getLast (by simp), List.getLast?_eq_getLast _ _⟩
        have htail : s.tail = some t := by rw [h.tail_eq, nextAddr_reverse, ht]
        have htb : s.toBool = true := by rw [CircState.toBool, htail]; rfl
        obtain ⟨h1, h2⟩ := CircularLinkedList.cll_popleft_rep h
        rcases hps : CircularLinkedList.popleft s with ⟨r, s2⟩
        rw [hps] at h1 h2
        have h1' : r = .ok v := h1
        have h2' : CLLRep s2 ls vs := h2
        subst h1'
        obtain ⟨ih1, ih2⟩ := ih h2'
        simp only [List.length_cons, CircularLinkedList.drainLeft, htb, if_true, hps]
        exact ⟨by rw [ih1], ih2⟩

theorem CircularDoublyLinkedList.cdll_drainLeft_spec : ∀ {vals : List α} {locs : List Nat}
    {s : CircState α}, CDLLRep s locs vals →
    (CircularDoublyLinkedList.drainLeft vals.length s).1 = vals ∧
    (CircularDoublyLinkedList.drainLeft vals.length s).2.tail = none := by
  intro vals
  induction vals with
  | nil =>
      intro locs s h
      match locs, h.chain with
      | [], _ => exact ⟨rfl, by show s.tail = none; rw [h.tail_eq]; rfl⟩
  | cons v vs ih =>
      intro locs s h
      match locs, h.chain with
      | l0 :: ls, _ =>
        obtain ⟨t, ht⟩ : ∃ t, (l0 :: ls).getLast? = some t :=
          ⟨(l0 :: ls).getLast (by simp), List.getLast?_eq_getLast _ _⟩
        have htail : s.tail = some t := by rw [h.tail_eq, nextAddr_reverse, ht]
        have htb : s.toBool = true := by rw [CircState.toBool, htail]; rfl
        obtain ⟨h1, h2⟩ := CircularDoublyLinkedList.cdll_popleft_rep h
        rcases hps : CircularDoublyLinkedList.popleft s with ⟨r, s2⟩
        rw [hps] at h1 h2
        have h1' : r = .ok v := h1
        have h2' : CDLLRep s2 ls vs := h2
        subst h1'
        obtain ⟨ih1, ih2⟩ := ih h2'
        simp only [List.length_cons, CircularDoublyLinkedList.drainLeft, htb, if_true, hps]
        exact ⟨by rw [ih1], ih2⟩

theorem CircularDoublyLinkedList.cdll_drainRight_spec : ∀ (n : Nat) {vals : List α}
    {locs : List Nat} {s : CircState α}, vals.length = n → CDLLRep s locs vals →
    (CircularDoublyLinkedList.drainRight n s).1 = vals.reverse ∧
    (CircularDoublyLinkedList.drainRight n s).2.tail = none := by
  intro n
  induction n with
  | zero =>
      intro vals locs s hn h
      have hv : vals = [] := List.length_eq_zero.mp hn
      subst hv
      match locs, h.chain with
      | [], _ => exact ⟨rfl, by show s.tail = none; rw [h.tail_eq]; rfl⟩
  | succ n ihn =>
      intro vals locs s hn h
      have hvne : vals ≠ [] := by
        intro hx
        rw [hx] at hn
        simp at hn
      have hlne : locs ≠ [] := by
        intro hx
        have := isDChain_length h.chain
        rw [hx] at this
        exact hvne (List.length_eq_zero.mp (this.symm.trans (by simp)))
      have hsplitV : vals.dropLast ++ [vals.getLast hvne] = vals :=
        List.dropLast_append_getLast hvne
      have hsplitL : locs.dropLast ++ [locs.getLast hlne] = locs :=
        List.dropLast_append_getLast hlne
      have hlen : locs.dropLast.length = vals.dropLast.length := by
        have := isDChain_length h.chain
        simp [List.length_dropLast, this]
      have h' : CDLLRep s (locs.dropLast ++ [locs.getLast hlne])
          (vals.dropLast ++ [vals.getLast hvne]) := by
        rw [hsplitV, hsplitL]
        exact h
      obtain ⟨h1, h2⟩ := CircularDoublyLinkedList.cdll_pop_rep hlen h'
      have htb : s.toBool = true := by
        rw [CircState.toBool, show s.tail = some (locs.getLast hlne) from by
          rw [h.tail_eq, nextAddr_reverse, List.getLast?_eq_getLast locs hlne]]
        rfl
      rcases hps : CircularDoublyLinkedList.pop s with ⟨r, s2⟩
      rw [hps] at h1 h2
      have h1' : r = .ok (vals.getLast hvne) := h1
      have h2' : CDLLRep s2 locs.dropLast vals.dropLast := h2
      subst h1'
      have hdn : vals.dropLast.length = n := by
        have := congrArg List.length hsplitV
        simp only [List.length_append, List.length_cons, List.length_nil] at this
        omega
      obtain ⟨ih1, ih2⟩ := ihn hdn h2'
      simp only [CircularDoublyLinkedList.drainRight, htb, if_true, hps]
      refine ⟨?_, ih2⟩
      rw [ih1]
      conv_rhs => rw [← hsplitV]
      simp

/-! ## Node-level `appendleft` -/

/-- `LinkedNode.appendleft` allocates a fresh head in front of `self` and
returns it. -/
theorem LinkedNode.ln_appendleft_spec {m : Mem α} {self : Nat} {ls : List Nat}
    {vals : List α} {x : α} (hch : isChain m none (self :: ls) vals)
    (hbd : ∀ b ∈ self :: ls, b < m.size) :
    (LinkedNode.appendleft m self x).2 = m.size ∧
    isChain (LinkedNode.appendleft m self x).1 none
      (m.size :: self :: ls) (x :: vals) := by
  refine ⟨rfl, ?_, ?_, ?_⟩
  · show ((m.alloc ⟨x, some self, none⟩).1.read m.size).value = x
    rw [Mem.read_alloc, if_pos rfl]
  · show ((m.alloc ⟨x, some self, none⟩).1.read m.size).next = nextAddr (self :: ls) none
    rw [Mem.read_alloc, if_pos rfl, nextAddr_cons]
  · exact isChain_congr
      (fun b hb => Mem.read_alloc_lt m _ (hbd b hb)) hch

/-- `DoublyLinkedNode.appendleft` allocates a fresh head, links `self.last`
back to it, and returns it. -/
theorem DoublyLinkedNode.dln_appendleft_spec {m : Mem α} {self : Nat} {ls : List Nat}
    {vals : List α} {x : α} (hch : isChain m none (self :: ls) vals)
    (hbd : ∀ b ∈ self :: ls, b < m.size) :
    (DoublyLinkedNode.appendleft m self x).2 = m.size ∧
    isChain (DoublyLinkedNode.appendleft m self x).1 none
      (m.size :: self :: ls) (x :: vals) := by
  have hself : self < m.size := hbd self (List.mem_cons_self _ _)
  have hreadn : (DoublyLinkedNode.appendleft m self x).1.read m.size
      = ⟨x, some self, none⟩ := by
    show (((m.alloc ⟨x, some self, none⟩).1.setLast self (some m.size)).read m.size)
      = ⟨x, some self, none⟩
    rw [Mem.read_setLast, if_neg (by omega : m.size ≠ self), Mem.read_alloc, if_pos rfl]
  refine ⟨rfl, ?_, ?_, ?_⟩
  · rw [hreadn]
  · rw [hreadn, nextAddr_cons]
  · refine isChain_congr_fields (fun b hb => ?_) hch
    show ((((m.alloc ⟨x, some self, none⟩).1.setLast self (some m.size)).read b).value
        = (m.read b).value) ∧
      (((m.alloc ⟨x, some self, none⟩).1.setLast self (some m.size)).read b).next
        = (m.read b).next
    by_cases hbs : b = self
    · subst hbs
      rw [Mem.read_setLast, if_pos rfl, Mem.read_alloc_lt m _ hself]
      exact ⟨rfl, rfl⟩
    · rw [Mem.read_setLast, if_neg hbs, Mem.read_alloc_lt m _ (hbd b hb)]
      exact ⟨rfl, rfl⟩

/-- `CircularLinkedNode.appendleft` splices a fresh node right after `self`
(the new node becomes the cycle head when `self` is the tail) and returns
`self`, not the new node; iterating from the returned node then yields the new
value first. -/
theorem CircularLinkedNode.cln_appendleft_spec {m : Mem α} {l0 t : Nat} {ls : List Nat}
    {vals : List α} {x : α} (hch : isChain m (some l0) (l0 :: ls) vals)
    (hnd : (l0 :: ls).Nodup) (ht : (l0 :: ls).getLast? = some t)
    (hbd : ∀ b ∈ l0 :: ls, b < m.size) :
    (CircularLinkedNode.appendleft m t x).2 = t ∧
    isChain (CircularLinkedNode.appendleft m t x).1 (some m.size)
      (m.size :: l0 :: ls) (x :: vals) ∧
    (∀ fuel, (l0 :: ls).length + 2 ≤ fuel →
      circNodeIter (CircularLinkedNode.appendleft m t x).1 fuel t none = x :: vals) := by
  have htmem : t ∈ l0 :: ls := getLast?_mem_self ht
  have ht_lt : t < m.size := hbd t htmem
  have htnext : (m.read t).next = some l0 := isChain_getLast_next hch t ht
  have hfresh : m.size ∉ l0 :: ls := fun hx => absurd (hbd _ hx) (by omega)
  have hreadn : (CircularLinkedNode.appendleft m t x).1.read m.size
      = ⟨x, some l0, none⟩ := by
    show (((CircularLinkedNode.new m x ((m.read t).next)).1.setNext t
        (some m.size)).read m.size) = _
    rw [Mem.read_setNext, if_neg (by omega : m.size ≠ t), CircularLinkedNode.new,
      Mem.read_alloc, if_pos rfl, htnext]
    rfl
  have hreadt : (CircularLinkedNode.appendleft m t x).1.read t
      = { m.read t with next := some m.size } := by
    show (((CircularLinkedNode.new m x ((m.read t).next)).1.setNext t
        (some m.size)).read t) = _
    rw [Mem.read_setNext, if_pos rfl, CircularLinkedNode.new, Mem.read_alloc_lt m _ ht_lt]
  have hframe : ∀ b ∈ l0 :: ls, b ≠ t →
      (CircularLinkedNode.appendleft m t x).1.read b = m.read b := by
    intro b hb hbn
    show (((CircularLinkedNode.new m x ((m.read t).next)).1.setNext t
        (some m.size)).read b) = _
    rw [Mem.read_setNext, if_neg hbn, CircularLinkedNode.new,
      Mem.read_alloc_lt m _ (hbd b hb)]
  have hch2 : isChain (CircularLinkedNode.appendleft m t x).1 (some m.size)
      (m.size :: l0 :: ls) (x :: vals) := by
    refine ⟨by rw [hreadn], by rw [hreadn, nextAddr_cons], ?_⟩
    exact isChain_update_lastlink hch ht hnd hframe (by rw [hreadt]) (by rw [hreadt])
  refine ⟨rfl, hch2, ?_⟩
  intro fuel hf
  exact circNodeIter_cycle hch2 (List.nodup_cons.mpr ⟨hfresh, hnd⟩)
    (by rw [List.getLast?_cons_cons]; exact ht) (by simpa using hf)

/-- `CircularDoublyLinkedNode.appendleft`: as the singly circular version, and
additionally the old head's `last` is rewired; the method returns `self`. -/
theorem CircularDoublyLinkedNode.cdln_appendleft_spec {m : Mem α} {l0 t : Nat} {ls : List Nat}
    {vals : List α} {x : α} (hch : isChain m (some l0) (l0 :: ls) vals)
    (hnd : (l0 :: ls).Nodup) (ht : (l0 :: ls).getLast? = some t)
    (hbd : ∀ b ∈ l0 :: ls, b < m.size) :
    (CircularDoublyLinkedNode.appendleft m t x).2 = t ∧
    isChain (CircularDoublyLinkedNode.appendleft m t x).1 (some m.size)
      (m.size :: l0 :: ls) (x :: vals) ∧
    (∀ fuel, (l0 :: ls).length + 2 ≤ fuel →
      circNodeIter (CircularDoublyLinkedNode.appendleft m t x).1 fuel t none
        = x :: vals) := by
  have htmem : t ∈ l0 :: ls := getLast?_mem_self ht
  have ht_lt : t < m.size := hbd t htmem
  have hl0_lt : l0 < m.size := hbd l0 (List.mem_cons_self _ _)
  have htnext : (m.read t).next = some l0 := isChain_getLast_next hch t ht
  have hfresh : m.size ∉ l0 :: ls := fun hx => absurd (hbd _ hx) (by omega)
  have main : ∀ (m1 : Mem α),
      m1 = (CircularDoublyLinkedNode.new m x ((m.read t).next) (some t)).1 →
      ∀ (m2 : Mem α), m2 = m1.setNext t (some m.size) →
      ∀ (m3 : Mem α), m3 = m2.setLast ((m2.read m.size).next.getD m.size) (some m.size) →
      isChain m3 (some m.size) (m.size :: l0 :: ls) (x :: vals) := by
    intro m1 hm1 m2 hm2 m3 hm3
    have hm1n : m1.read m.size = ⟨x, some l0, some t⟩ := by
      rw [hm1, CircularDoublyLinkedNode.new, Mem.read_alloc, if_pos rfl, htnext]
      rfl
    have hm2n : m2.read m.size = ⟨x, some l0, some t⟩ := by
      rw [hm2, Mem.read_setNext, if_neg (by omega : m.size ≠ t), hm1n]
    have hm3' : m3 = m2.setLast l0 (some m.size) := by
      rw [hm3, hm2n]
      rfl
    have hm2t : m2.read t = { m.read t with next := some m.size } := by
      rw [hm2, Mem.read_setNext, if_pos rfl, hm1, CircularDoublyLinkedNode.new,
        Mem.read_alloc_lt m _ ht_lt]
    have hfr2 : ∀ b ∈ l0 :: ls, b ≠ t → m2.read b = m.read b := by
      intro b hb hbn
      rw [hm2, Mem.read_setNext, if_neg hbn, hm1, CircularDoublyLinkedNode.new,
        Mem.read_alloc_lt m _ (hbd b hb)]
    have hch2 : isChain m2 (some m.size) (m.size :: l0 :: ls) (x :: vals) := by
      refine ⟨by rw [hm2n], by rw [hm2n, nextAddr_cons], ?_⟩
      exact isChain_update_lastlink hch ht hnd hfr2 (by rw [hm2t]) (by rw [hm2t])
    refine isChain_congr_fields (fun b _ => ?_) hch2
    rw [hm3', Mem.read_setLast]
    by_cases hbl : b = l0
    · subst hbl
      rw [if_pos rfl]
      exact ⟨rfl, rfl⟩
    · rw [if_neg hbl]
      exact ⟨rfl, rfl⟩
  have hch3 : isChain (CircularDoublyLinkedNode.appendleft m t x).1 (some m.size)
      (m.size :: l0 :: ls) (x :: vals) := main _ rfl _ rfl _ rfl
  refine ⟨rfl, hch3, ?_⟩
  intro fuel hf
  exact circNodeIter_cycle hch3 (List.nodup_cons.mpr ⟨hfresh, hnd⟩)
    (by rw [List.getLast?_cons_cons]; exact ht) (by simpa using hf)

theorem DLLState.step_rep {s : DLLState α} {locs : List Nat} {vals : List α}
    (h : DLLRep s locs vals) (op : DOp α) :
    ∃ locs' vals', DLLRep (s.step op) locs' vals' := by
  cases op with
  | append x => exact ⟨_, _, DoublyLinkedList.dll_append_rep h x⟩
  | appendleft x => exact ⟨_, _, DoublyLinkedList.dll_appendleft_rep h x⟩
  | reverse => exact ⟨_, _, DoublyLinkedList.dll_reverse_rep h⟩
  | popleft =>
      cases hl : locs with
      | nil =>
          subst hl
          have hh : s.head = none := by rw [h.head_eq]; rfl
          refine ⟨[], vals, ?_⟩
          show DLLRep (DoublyLinkedList.popleft s).2 [] vals
          rw [DoublyLinkedList.dll_popleft_empty hh]
          exact h
      | cons l0 ls =>
          subst hl
          match vals, h.chain with
          | v :: vs, _ => exact ⟨ls, vs, (DoublyLinkedList.dll_popleft_rep h).2⟩
  | pop =>
      cases hl : locs with
      | nil =>
          subst hl
          have hh : s.head = none := by rw [h.head_eq]; rfl
          refine ⟨[], vals, ?_⟩
          show DLLRep (DoublyLinkedList.pop s).2 [] vals
          rw [DoublyLinkedList.dll_pop_empty hh]
          exact h
      | cons l0 ls =>
          subst hl
          have hlne : (l0 :: ls) ≠ [] := by simp
          have hvne : vals ≠ [] := by
            intro hx
            have := isDChain_length h.chain
            rw [hx] at this
            simp at this
          have hsplitV : vals.dropLast ++ [vals.getLast hvne] = vals :=
            List.dropLast_append_getLast hvne
          have hsplitL : (l0 :: ls).dropLast ++ [(l0 :: ls).getLast hlne] = l0 :: ls :=
            List.dropLast_append_getLast hlne
          have hlen : (l0 :: ls).dropLast.length = vals.dropLast.length := by
            have := isDChain_length h.chain
            simp [List.length_dropLast, this]
          have h' : DLLRep s ((l0 :: ls).dropLast ++ [(l0 :: ls).getLast hlne])
              (vals.dropLast ++ [vals.getLast hvne]) := by
            rw [hsplitV, hsplitL]
            exact h
          exact ⟨_, _, (DoublyLinkedList.dll_pop_rep hlen h').2⟩

theorem DLLState.run_rep : ∀ (ops : List (DOp α)) {s : DLLState α} {locs : List Nat}
    {vals : List α}, DLLRep s locs vals →
    ∃ locs' vals', DLLRep (s.run ops) locs' vals'
  | [], _, locs, vals, h => ⟨locs, vals, h⟩
  | op :: ops, s, _, _, h => by
      obtain ⟨locs', vals', h'⟩ := DLLState.step_rep h op
      exact DLLState.run_rep ops h'

theorem CircState.stepCDLL_rep {s : CircState α} {locs : List Nat} {vals : List α}
    (h : CDLLRep s locs vals) (op : DOp α) :
    ∃ locs' vals', CDLLRep (s.stepCDLL op) locs' vals' := by
  cases op with
  | append x => exact ⟨_, _, CircularDoublyLinkedList.cdll_append_rep h x⟩
  | appendleft x => exact ⟨_, _, CircularDoublyLinkedList.cdll_appendleft_rep h x⟩
  | reverse => exact ⟨_, _, CircularDoublyLinkedList.cdll_reverse_rep h⟩
  | popleft =>
      cases hl : locs with
      | nil =>
          subst hl
          have hh : s.tail = none := by rw [h.tail_eq]; rfl
          refine ⟨[], vals, ?_⟩
          show CDLLRep (CircularDoublyLinkedList.popleft s).2 [] vals
          rw [CircularDoublyLinkedList.cdll_popleft_empty hh]
          exact h
      | cons l0 ls =>
          subst hl
          match vals, h.chain with
          | v :: vs, _ => exact ⟨ls, vs, (CircularDoublyLinkedList.cdll_popleft_rep h).2⟩
  | pop =>
      cases hl : locs with
      | nil =>
          subst hl
          have hh : s.tail = none := by rw [h.tail_eq]; rfl
          refine ⟨[], vals, ?_⟩
          show CDLLRep (CircularDoublyLinkedList.pop s).2 [] vals
          rw [CircularDoublyLinkedList.cdll_pop_empty hh]
          exact h
      | cons l0 ls =>
          subst hl
          have hlne : (l0 :: ls) ≠ [] := by simp
          have hvne : vals ≠ [] := by
            intro hx
            have := isDChain_length h.chain
            rw [hx] at this
            simp at this
          have hsplitV : vals.dropLast ++ [vals.getLast hvne] = vals :=
            List.dropLast_append_getLast hvne
          have hsplitL : (l0 :: ls).dropLast ++ [(l0 :: ls).getLast hlne] = l0 :: ls :=
            List.dropLast_append_getLast hlne
          have hlen : (l0 :: ls).dropLast.length = vals.dropLast.length := by
            have := isDChain_length h.chain
            simp [List.length_dropLast, this]
          have h' : CDLLRep s ((l0 :: ls).dropLast ++ [(l0 :: ls).getLast hlne])
              (vals.dropLast ++ [vals.getLast hvne]) := by
            rw [hsplitV, hsplitL]
            exact h
          exact ⟨_, _, (CircularDoublyLinkedList.cdll_pop_rep hlen h').2⟩

theorem CircState.runCDLL_rep : ∀ (ops : List (DOp α)) {s : CircState α} {locs : List Nat}
    {vals : List α}, CDLLRep s locs vals →
    ∃ locs' vals', CDLLRep (s.runCDLL ops) locs' vals'
  | [], _, locs, vals, h => ⟨locs, vals, h⟩
  | op :: ops, s, _, _, h => by
      obtain ⟨locs', vals', h'⟩ := CircState.stepCDLL_rep h op
      exact CircState.runCDLL_rep ops h'

/-- Back-pointer law of a represented `DoublyLinkedList` state. -/
theorem DLLRep.dllrep_backptr {s : DLLState α} {locs : List Nat} {vals : List α}
    (h : DLLRep s locs vals) :
    ∀ a ∈ locs, ∀ b, ((s.mem.read a).next = some b → (s.mem.read b).last = some a) ∧
      ((s.mem.read a).last = some b → (s.mem.read b).next = some a) := by
  intro a ha b
  constructor
  · exact fun hab =>
      isDChain_next_last h.chain (fun q hq => by simp at hq) a ha b hab
  · exact fun hab =>
      isDChain_last_next h.chain (fun p hp => by simp at hp) a ha b hab

/-- Back-pointer law of a represented `CircularDoublyLinkedList` state. -/
theorem CDLLRep.cdllrep_backptr {s : CircState α} {locs : List Nat} {vals : List α}
    (h : CDLLRep s locs vals) :
    ∀ a ∈ locs, ∀ b, ((s.mem.read a).next = some b → (s.mem.read b).last = some a) ∧
      ((s.mem.read a).last = some b → (s.mem.read b).next = some a) := by
  cases hl : locs with
  | nil =>
      subst hl
      intro a ha
      simp at ha
  | cons l0 ls =>
      subst hl
      obtain ⟨t, ht⟩ : ∃ t, (l0 :: ls).getLast? = some t :=
        ⟨(l0 :: ls).getLast (by simp), List.getLast?_eq_getLast _ _⟩
      have hbe : nextAddr (l0 :: ls).reverse none = some t := by
        rw [nextAddr_reverse, ht]
      have hch0 : isDChain s.mem (some t) (some l0) (l0 :: ls) vals := by
        have := h.chain
        rw [hbe, nextAddr_cons] at this
        exact this
      have hheadlast : (s.mem.read l0).last = some t := by
        match vals, hch0 with
        | v :: vs, hch0 => exact hch0.2.2.1
      have htailnext : (s.mem.read t).next = some l0 :=
        isChain_getLast_next hch0.toChain t ht
      intro a ha b
      constructor
      · refine fun hab => isDChain_next_last hch0 (fun q hq => ?_) a ha b hab
        have hq' : l0 = q := by simpa using hq
        rw [← hq', hheadlast, nextAddr_of_ne_nil (by simp : (l0 :: ls).reverse ≠ [])
          (some t) none, hbe]
      · refine fun hab => isDChain_last_next hch0 (fun p hp => ?_) a ha b hab
        have hp' : t = p := by simpa using hp
        rw [← hp', htailnext, nextAddr_cons]

theorem CircularLinkedList.cll_popLefts_rep :
    ∀ {xs : List Nat} {vs : List α} {ys : List Nat} {ws : List α} {s : CircState α},
      xs.length = vs.length → CLLRep s (xs ++ ys) (vs ++ ws) →
      CLLRep (CircularLinkedList.popLefts xs.length s) ys ws
  | [], [], ys, ws, s, _, h => h
  | [], _ :: _, _, _, _, hlen, _ => by simp at hlen
  | _ :: _, [], _, _, _, hlen, _ => by simp at hlen
  | x :: xs, v :: vs, ys, ws, s, hlen, h => by
      have h2 := (@CircularLinkedList.cll_popleft_rep _ s x (xs ++ ys) v (vs ++ ws) h).2
      exact @CircularLinkedList.cll_popLefts_rep _ xs vs ys ws _
        (by simpa using hlen) h2

theorem CircularDoublyLinkedList.cdll_popLefts_rep :
    ∀ {xs : List Nat} {vs : List α} {ys : List Nat} {ws : List α} {s : CircState α},
      xs.length = vs.length → CDLLRep s (xs ++ ys) (vs ++ ws) →
      CDLLRep (CircularDoublyLinkedList.popLefts xs.length s) ys ws
  | [], [], ys, ws, s, _, h => h
  | [], _ :: _, _, _, _, hlen, _ => by simp at hlen
  | _ :: _, [], _, _, _, hlen, _ => by simp at hlen
  | x :: xs, v :: vs, ys, ws, s, hlen, h => by
      have h2 := (@CircularDoublyLinkedList.cdll_popleft_rep _ s x (xs ++ ys) v (vs ++ ws) h).2
      exact @CircularDoublyLinkedList.cdll_popLefts_rep _ xs vs ys ws _
        (by simpa using hlen) h2

/-- A represented singleton circular list is self-linked. -/
theorem CLLRep.cllrep_single_self_linked {s : CircState α} {a : Nat} {v : α}
    (h : CLLRep s [a] [v]) :
    s.tail = some a ∧ (s.mem.read a).next = some a :=
  ⟨h.tail_eq, h.chain.2.1⟩

/-- A represented singleton circular doubly list is self-linked in both
directions. -/
theorem CDLLRep.cdllrep_single_self_linked {s : CircState α} {a : Nat} {v : α}
    (h : CDLLRep s [a] [v]) :
    s.tail = some a ∧ (s.mem.read a).next = some a ∧ (s.mem.read a).last = some a :=
  ⟨h.tail_eq, h.chain.2.1, h.chain.2.2.1⟩

/-! ## Claim theorems -/

/-- Splitting the address range of a construction into its head and the rest. -/
theorem range'_zero_succ (n : Nat) : List.range' 0 (n + 1) = 0 :: List.range' 1 n := by
  rw [List.range'_succ]

/-- Splitting the address range of a construction into its front and its last
address. -/
theorem range'_zero_concat (n : Nat) :
    List.range' 0 (n + 1) = List.range' 0 n ++ [n] := by
  rw [List.range'_concat]
  simp

theorem range'_zero_getLast? (n : Nat) :
    (List.range' 0 (n + 1)).getLast? = some n := by
  rw [range'_zero_concat, List.getLast?_concat]

/-- C1: every construction — the four list classes and the node-level
`from_iterable`s — represents its input sequence exactly: iteration yields the
sequence in order (one lap from the constructed node for the circular
variants) and the length is the sequence's length. -/
theorem claim_C1 (S : List Nat) (v : Nat) (vs : List Nat) :
    (LinkedList.init S).iter = S ∧ (LinkedList.init S).len = S.length ∧
    (DoublyLinkedList.init S).iter = S ∧ (DoublyLinkedList.init S).len = S.length ∧
    (CircularLinkedList.init S).iter = S ∧ (CircularLinkedList.init S).len = S.length ∧
    (CircularDoublyLinkedList.init S).iter = S ∧
    (CircularDoublyLinkedList.init S).len = S.length ∧
    linNodeIter (LinkedNode.fromIterable Mem.empty (v :: vs)).1 (vs.length + 1) 0
      = v :: vs ∧
    linNodeLen (LinkedNode.fromIterable Mem.empty (v :: vs)).1 (vs.length + 1) 0
      = (v :: vs).length ∧
    linNodeIter (DoublyLinkedNode.fromIterable Mem.empty none (v :: vs)).1
      (vs.length + 1) 0 = v :: vs ∧
    linNodeLen (DoublyLinkedNode.fromIterable Mem.empty none (v :: vs)).1
      (vs.length + 1) 0 = (v :: vs).length ∧
    circNodeIter (CircularLinkedNode.fromIterable Mem.empty none none (v :: vs)).1
      (vs.length + 2)
      ((CircularLinkedNode.fromIterable Mem.empty none none (v :: vs)).2.getD 0) none
      = v :: vs ∧
    circNodeLen (CircularLinkedNode.fromIterable Mem.empty none none (v :: vs)).1
      (vs.length + 2)
      ((CircularLinkedNode.fromIterable Mem.empty none none (v :: vs)).2.getD 0) none
      = (v :: vs).length ∧
    circNodeIter (CircularDoublyLinkedNode.fromIterable Mem.empty none none (v :: vs)).1
      (vs.length + 2)
      ((CircularDoublyLinkedNode.fromIterable Mem.empty none none (v :: vs)).2.getD 0) none
      = v :: vs ∧
    circNodeLen (CircularDoublyLinkedNode.fromIterable Mem.empty none none (v :: vs)).1
      (vs.length + 2)
      ((CircularDoublyLinkedNode.fromIterable Mem.empty none none (v :: vs)).2.getD 0) none
      = (v :: vs).length := by
  obtain ⟨_, _, lnret, lnch⟩ := LinkedNode.ln_fromIterable_spec (v :: vs) (Mem.empty : Mem Nat)
  obtain ⟨_, _, dnret, dnch⟩ :=
    DoublyLinkedNode.dln_fromIterable_spec (v :: vs) (Mem.empty : Mem Nat) none
  have hrs : List.range' 0 (v :: vs).length = 0 :: List.range' 1 vs.length := by
    rw [List.length_cons, range'_zero_succ]
  have hlast : (List.range' 0 (v :: vs).length).getLast? = some vs.length := by
    rw [List.length_cons, range'_zero_getLast?]
  have hnodup : (List.range' 0 (v :: vs).length).Nodup :=
    List.nodup_range' 0 (v :: vs).length 1 (by omega)
  obtain ⟨clnsize, clnret, clnch⟩ :=
    CircularLinkedNode.cln_fromIterable_rep (α := Nat) v vs
  obtain ⟨cdnsize, cdnret, cdnch⟩ :=
    CircularDoublyLinkedNode.cdln_fromIterable_rep (α := Nat) v vs
  have clnret' : (CircularLinkedNode.fromIterable Mem.empty none none (v :: vs)).2
      = some vs.length := by rw [clnret, hlast]
  have cdnret' : (CircularDoublyLinkedNode.fromIterable Mem.empty none none (v :: vs)).2
      = some vs.length := by rw [cdnret, hlast]
  have clnch' : isChain (CircularLinkedNode.fromIterable Mem.empty none none (v :: vs)).1
      (some 0) (0 :: List.range' 1 vs.length) (v :: vs) := by
    rw [← hrs]; exact clnch
  have cdnch' : isChain
      (CircularDoublyLinkedNode.fromIterable Mem.empty none none (v :: vs)).1
      (some 0) (0 :: List.range' 1 vs.length) (v :: vs) := by
    rw [← hrs]
    exact cdnch.toChain
  have hnodup' : (0 :: List.range' 1 vs.length).Nodup := by rw [← hrs]; exact hnodup
  have hlast' : (0 :: List.range' 1 vs.length).getLast? = some vs.length := by
    rw [← hrs]; exact hlast
  have hflen : (0 :: List.range' 1 vs.length).length + 1 ≤ vs.length + 2 := by
    simp
  refine ⟨(LinkedList.ll_init_rep S).llrep_iter_eq, (LinkedList.ll_init_rep S).llrep_len_eq,
    (DoublyLinkedList.dll_init_rep S).dllrep_iter_eq, (DoublyLinkedList.dll_init_rep S).dllrep_len_eq,
    (CircularLinkedList.cll_init_rep S).cllrep_iter_eq, (CircularLinkedList.cll_init_rep S).cllrep_len_eq,
    (CircularDoublyLinkedList.cdll_init_rep S).toCLLRep.cllrep_iter_eq,
    (CircularDoublyLinkedList.cdll_init_rep S).toCLLRep.cllrep_len_eq, ?_, ?_, ?_, ?_, ?_, ?_, ?_, ?_⟩
  · refine @linNodeIter_chain _ _ (List.range' 1 vs.length) _ _ _ ?_ (by simp)
    rw [← hrs]
    exact lnch
  · refine @linNodeLen_chain _ _ (List.range' 1 vs.length) _ _ _ ?_ (by simp)
    rw [← hrs]
    exact lnch
  · refine @linNodeIter_chain _ _ (List.range' 1 vs.length) _ _ _ ?_ (by simp)
    rw [← hrs]
    exact dnch.toChain
  · refine @linNodeLen_chain _ _ (List.range' 1 vs.length) _ _ _ ?_ (by simp)
    rw [← hrs]
    exact dnch.toChain
  · rw [clnret']
    exact circNodeIter_cycle clnch' hnodup' hlast' hflen
  · rw [clnret']
    exact circNodeLen_cycle clnch' hnodup' hlast' hflen
  · rw [cdnret']
    exact circNodeIter_cycle cdnch' hnodup' hlast' hflen
  · rw [cdnret']
    exact circNodeLen_cycle cdnch' hnodup' hlast' hflen

/-- C2: draining a freshly constructed list with `popleft` yields the input
sequence in order and leaves the structure Empty (entry references absent,
boolean coercion false); draining a doubly variant with `pop` yields the
reversed sequence and likewise leaves it Empty. -/
theorem claim_C2 (S : List Nat) :
    (LinkedList.drainLeft S.length (LinkedList.init S)).1 = S ∧
    (LinkedList.drainLeft S.length (LinkedList.init S)).2.head = none ∧
    (LinkedList.drainLeft S.length (LinkedList.init S)).2.toBool = false ∧
    (DoublyLinkedList.drainLeft S.length (DoublyLinkedList.init S)).1 = S ∧
    (DoublyLinkedList.drainLeft S.length (DoublyLinkedList.init S)).2.head = none ∧
    (DoublyLinkedList.drainLeft S.length (DoublyLinkedList.init S)).2.tail = none ∧
    (DoublyLinkedList.drainLeft S.length (DoublyLinkedList.init S)).2.toBool = false ∧
    (DoublyLinkedList.drainRight S.length (DoublyLinkedList.init S)).1 = S.reverse ∧
    (DoublyLinkedList.drainRight S.length (DoublyLinkedList.init S)).2.head = none ∧
    (DoublyLinkedList.drainRight S.length (DoublyLinkedList.init S)).2.tail = none ∧
    (DoublyLinkedList.drainRight S.length (DoublyLinkedList.init S)).2.toBool = false ∧
    (CircularLinkedList.drainLeft S.length (CircularLinkedList.init S)).1 = S ∧
    (CircularLinkedList.drainLeft S.length (CircularLinkedList.init S)).2.tail = none ∧
    (CircularLinkedList.drainLeft S.length (CircularLinkedList.init S)).2.toBool = false ∧
    (CircularDoublyLinkedList.drainLeft S.length
      (CircularDoublyLinkedList.init S)).1 = S ∧
    (CircularDoublyLinkedList.drainLeft S.length
      (CircularDoublyLinkedList.init S)).2.tail = none ∧
    (CircularDoublyLinkedList.drainLeft S.length
      (CircularDoublyLinkedList.init S)).2.toBool = false ∧
    (CircularDoublyLinkedList.drainRight S.length
      (CircularDoublyLinkedList.init S)).1 = S.reverse ∧
    (CircularDoublyLinkedList.drainRight S.length
      (CircularDoublyLinkedList.init S)).2.tail = none ∧
    (CircularDoublyLinkedList.drainRight S.length
      (CircularDoublyLinkedList.init S)).2.toBool = false := by
  obtain ⟨ll1, ll2⟩ := LinkedList.ll_drainLeft_spec (LinkedList.ll_init_rep S)
  obtain ⟨dl1, dl2, dl3⟩ := DoublyLinkedList.dll_drainLeft_spec (DoublyLinkedList.dll_init_rep S)
  obtain ⟨dr1, dr2, dr3⟩ :=
    DoublyLinkedList.dll_drainRight_spec S.length rfl (DoublyLinkedList.dll_init_rep S)
  obtain ⟨cl1, cl2⟩ := CircularLinkedList.cll_drainLeft_spec (CircularLinkedList.cll_init_rep S)
  obtain ⟨cdl1, cdl2⟩ :=
    CircularDoublyLinkedList.cdll_drainLeft_spec (CircularDoublyLinkedList.cdll_init_rep S)
  obtain ⟨cdr1, cdr2⟩ :=
    CircularDoublyLinkedList.cdll_drainRight_spec S.length rfl
      (CircularDoublyLinkedList.cdll_init_rep S)
  exact ⟨ll1, ll2, by rw [LLState.toBool, ll2]; rfl,
    dl1, dl2, dl3, by rw [DLLState.toBool, dl2]; rfl,
    dr1, dr2, dr3, by rw [DLLState.toBool, dr2]; rfl,
    cl1, cl2, by rw [CircState.toBool, cl2]; rfl,
    cdl1, cdl2, by rw [CircState.toBool, cdl2]; rfl,
    cdr1, cdr2, by rw [CircState.toBool, cdr2]; rfl⟩

/-- C3: `reverse` of a constructed list iterates to the reversed sequence, and
reversing twice restores the original iteration, for every topology and every
sequence including the empty and singleton ones. -/
theorem claim_C3 (S : List Nat) :
    (LinkedList.reverse (LinkedList.reverse (LinkedList.init S))).iter = S ∧
    (LinkedList.reverse (LinkedList.init S)).iter = S.reverse ∧
    (DoublyLinkedList.reverse (DoublyLinkedList.reverse
      (DoublyLinkedList.init S))).iter = S ∧
    (DoublyLinkedList.reverse (DoublyLinkedList.init S)).iter = S.reverse ∧
    (CircularLinkedList.reverse (CircularLinkedList.reverse
      (CircularLinkedList.init S))).iter = S ∧
    (CircularLinkedList.reverse (CircularLinkedList.init S)).iter = S.reverse ∧
    (CircularDoublyLinkedList.reverse (CircularDoublyLinkedList.reverse
      (CircularDoublyLinkedList.init S))).iter = S ∧
    (CircularDoublyLinkedList.reverse (CircularDoublyLinkedList.init S)).iter
      = S.reverse := by
  have h1 := LinkedList.ll_reverse_rep (LinkedList.ll_reverse_rep (LinkedList.ll_init_rep S))
  have h2 := DoublyLinkedList.dll_reverse_rep
    (DoublyLinkedList.dll_reverse_rep (DoublyLinkedList.dll_init_rep S))
  have h3 := CircularLinkedList.cll_reverse_rep
    (CircularLinkedList.cll_reverse_rep (CircularLinkedList.cll_init_rep S))
  have h4 := CircularDoublyLinkedList.cdll_reverse_rep
    (CircularDoublyLinkedList.cdll_reverse_rep (CircularDoublyLinkedList.cdll_init_rep S))
  simp only [List.reverse_reverse] at h1 h2 h3 h4
  exact ⟨h1.llrep_iter_eq, (LinkedList.ll_reverse_rep (LinkedList.ll_init_rep S)).llrep_iter_eq,
    h2.dllrep_iter_eq, (DoublyLinkedList.dll_reverse_rep (DoublyLinkedList.dll_init_rep S)).dllrep_iter_eq,
    h3.cllrep_iter_eq,
    (CircularLinkedList.cll_reverse_rep (CircularLinkedList.cll_init_rep S)).cllrep_iter_eq,
    h4.toCLLRep.cllrep_iter_eq,
    (CircularDoublyLinkedList.cdll_reverse_rep
      (CircularDoublyLinkedList.cdll_init_rep S)).toCLLRep.cllrep_iter_eq⟩

/-- C4: on an Empty list every pop-style operation fails with the single
error kind (the `IndexError` raise, the spec's EmptyStructureError) and
returns the state completely unchanged. -/
theorem claim_C4 (m : Mem Nat) :
    LinkedList.popleft (⟨m, none⟩ : LLState Nat) = (.error .indexError, ⟨m, none⟩) ∧
    DoublyLinkedList.popleft (⟨m, none, none⟩ : DLLState Nat)
      = (.error .indexError, ⟨m, none, none⟩) ∧
    DoublyLinkedList.pop (⟨m, none, none⟩ : DLLState Nat)
      = (.error .indexError, ⟨m, none, none⟩) ∧
    CircularLinkedList.popleft (⟨m, none⟩ : CircState Nat)
      = (.error .indexError, ⟨m, none⟩) ∧
    CircularDoublyLinkedList.popleft (⟨m, none⟩ : CircState Nat)
      = (.error .indexError, ⟨m, none⟩) ∧
    CircularDoublyLinkedList.pop (⟨m, none⟩ : CircState Nat)
      = (.error .indexError, ⟨m, none⟩) :=
  ⟨LinkedList.ll_popleft_empty rfl, DoublyLinkedList.dll_popleft_empty rfl,
    DoublyLinkedList.dll_pop_empty rfl, CircularLinkedList.cll_popleft_empty rfl,
    CircularDoublyLinkedList.cdll_popleft_empty rfl, CircularDoublyLinkedList.cdll_pop_empty rfl⟩

/-- C5: node-level `appendleft` prepends the new value to the represented
sequence — iteration from the returned node yields `x :: S` — and the return
value follows the topology table: the linear node classes return the freshly
allocated head (a new node, not the receiver), while both circular node
classes return the receiver itself; the list-level `appendleft` also makes
iteration yield `x :: S`. -/
theorem claim_C5 (S : List Nat) (x v : Nat) (vs : List Nat) :
    (LinkedNode.appendleft (LinkedNode.fromIterable Mem.empty (v :: vs)).1 0 x).2
      = (LinkedNode.fromIterable Mem.empty (v :: vs)).1.size ∧
    (LinkedNode.appendleft (LinkedNode.fromIterable Mem.empty (v :: vs)).1 0 x).2 ≠ 0 ∧
    linNodeIter
      (LinkedNode.appendleft (LinkedNode.fromIterable Mem.empty (v :: vs)).1 0 x).1
      (vs.length + 2)
      (LinkedNode.appendleft (LinkedNode.fromIterable Mem.empty (v :: vs)).1 0 x).2
      = x :: v :: vs ∧
    (DoublyLinkedNode.appendleft
      (DoublyLinkedNode.fromIterable Mem.empty none (v :: vs)).1 0 x).2
      = (DoublyLinkedNode.fromIterable Mem.empty none (v :: vs)).1.size ∧
    (DoublyLinkedNode.appendleft
      (DoublyLinkedNode.fromIterable Mem.empty none (v :: vs)).1 0 x).2 ≠ 0 ∧
    linNodeIter
      (DoublyLinkedNode.appendleft
        (DoublyLinkedNode.fromIterable Mem.empty none (v :: vs)).1 0 x).1
      (vs.length + 2)
      (DoublyLinkedNode.appendleft
        (DoublyLinkedNode.fromIterable Mem.empty none (v :: vs)).1 0 x).2
      = x :: v :: vs ∧
    (CircularLinkedNode.appendleft
      (CircularLinkedNode.fromIterable Mem.empty none none (v :: vs)).1 vs.length x).2
      = vs.length ∧
    circNodeIter
      (CircularLinkedNode.appendleft
        (CircularLinkedNode.fromIterable Mem.empty none none (v :: vs)).1 vs.length x).1
      (vs.length + 3) vs.length none = x :: v :: vs ∧
    (CircularDoublyLinkedNode.appendleft
      (CircularDoublyLinkedNode.fromIterable Mem.empty none none (v :: vs)).1
      vs.length x).2 = vs.length ∧
    circNodeIter
      (CircularDoublyLinkedNode.appendleft
        (CircularDoublyLinkedNode.fromIterable Mem.empty none none (v :: vs)).1
        vs.length x).1
      (vs.length + 3) vs.length none = x :: v :: vs ∧
    (LinkedList.appendleft (LinkedList.init S) x).iter = x :: S ∧
    (DoublyLinkedList.appendleft (DoublyLinkedList.init S) x).iter = x :: S ∧
    (CircularLinkedList.appendleft (CircularLinkedList.init S) x).iter = x :: S ∧
    (CircularDoublyLinkedList.appendleft (CircularDoublyLinkedList.init S) x).iter
      = x :: S := by
  have hrs : List.range' 0 (v :: vs).length = 0 :: List.range' 1 vs.length := by
    rw [List.length_cons, range'_zero_succ]
  have hlast : (List.range' 0 (v :: vs).length).getLast? = some vs.length := by
    rw [List.length_cons, range'_zero_getLast?]
  have hnodup : (List.range' 0 (v :: vs).length).Nodup :=
    List.nodup_range' 0 (v :: vs).length 1 (by omega)
  -- linear singly node
  obtain ⟨lnsize, _, _, lnch⟩ :=
    LinkedNode.ln_fromIterable_spec (v :: vs) (Mem.empty : Mem Nat)
  have lnch' : isChain (LinkedNode.fromIterable Mem.empty (v :: vs)).1 none
      (0 :: List.range' 1 vs.length) (v :: vs) := by
    rw [← hrs]
    exact lnch
  have lnbd : ∀ b ∈ 0 :: List.range' 1 vs.length,
      b < (LinkedNode.fromIterable Mem.empty (v :: vs)).1.size := by
    intro b hb
    rw [lnsize]
    rw [← hrs] at hb
    have := List.mem_range'_1.mp hb
    show b < 0 + (v :: vs).length
    omega
  obtain ⟨lnret, lnch2⟩ := LinkedNode.ln_appendleft_spec lnch' lnbd (x := x)
  -- linear doubly node
  obtain ⟨dnsize, _, _, dnchD⟩ :=
    DoublyLinkedNode.dln_fromIterable_spec (v :: vs) (Mem.empty : Mem Nat) none
  have dnch' : isChain (DoublyLinkedNode.fromIterable Mem.empty none (v :: vs)).1 none
      (0 :: List.range' 1 vs.length) (v :: vs) := by
    rw [← hrs]
    exact dnchD.toChain
  have dnbd : ∀ b ∈ 0 :: List.range' 1 vs.length,
      b < (DoublyLinkedNode.fromIterable Mem.empty none (v :: vs)).1.size := by
    intro b hb
    rw [dnsize]
    rw [← hrs] at hb
    have := List.mem_range'_1.mp hb
    show b < 0 + (v :: vs).length
    omega
  obtain ⟨dnret, dnch2⟩ := DoublyLinkedNode.dln_appendleft_spec dnch' dnbd (x := x)
  -- circular singly node
  obtain ⟨clnsize, clnret, clnch⟩ := CircularLinkedNode.cln_fromIterable_rep (α := Nat) v vs
  have clnch' : isChain (CircularLinkedNode.fromIterable Mem.empty none none (v :: vs)).1
      (some 0) (0 :: List.range' 1 vs.length) (v :: vs) := by
    rw [← hrs]
    exact clnch
  have hnodup' : (0 :: List.range' 1 vs.length).Nodup := by rw [← hrs]; exact hnodup
  have hlast' : (0 :: List.range' 1 vs.length).getLast? = some vs.length := by
    rw [← hrs]; exact hlast
  have clnbd : ∀ b ∈ 0 :: List.range' 1 vs.length,
      b < (CircularLinkedNode.fromIterable Mem.empty none none (v :: vs)).1.size := by
    intro b hb
    rw [clnsize]
    rw [← hrs] at hb
    have := List.mem_range'_1.mp hb
    omega
  obtain ⟨clnret2, _, clniter⟩ :=
    CircularLinkedNode.cln_appendleft_spec clnch' hnodup' hlast' clnbd (x := x)
  -- circular doubly node
  obtain ⟨cdnsize, cdnret, cdnchD⟩ :=
    CircularDoublyLinkedNode.cdln_fromIterable_rep (α := Nat) v vs
  have cdnch' : isChain
      (CircularDoublyLinkedNode.fromIterable Mem.empty none none (v :: vs)).1
      (some 0) (0 :: List.range' 1 vs.length) (v :: vs) := by
    rw [← hrs]
    exact cdnchD.toChain
  have cdnbd : ∀ b ∈ 0 :: List.range' 1 vs.length,
      b < (CircularDoublyLinkedNode.fromIterable Mem.empty none none (v :: vs)).1.size := by
    intro b hb
    rw [cdnsize]
    rw [← hrs] at hb
    have := List.mem_range'_1.mp hb
    omega
  obtain ⟨cdnret2, _, cdniter⟩ :=
    CircularDoublyLinkedNode.cdln_appendleft_spec cdnch' hnodup' hlast' cdnbd (x := x)
  refine ⟨lnret, by rw [lnret, lnsize]; show 0 + (v :: vs).length ≠ 0; simp, ?_,
    dnret, by rw [dnret, dnsize]; show 0 + (v :: vs).length ≠ 0; simp, ?_,
    clnret2, ?_, cdnret2, ?_, ?_, ?_, ?_, ?_⟩
  · rw [lnret]
    exact linNodeIter_chain lnch2 (by simp)
  · rw [dnret]
    exact linNodeIter_chain dnch2 (by simp)
  · exact clniter (vs.length + 3) (by simp)
  · exact cdniter (vs.length + 3) (by simp)
  · exact (LinkedList.ll_appendleft_rep (LinkedList.ll_init_rep S) x).llrep_iter_eq
  · exact (DoublyLinkedList.dll_appendleft_rep (DoublyLinkedList.dll_init_rep S) x).dllrep_iter_eq
  · exact (CircularLinkedList.cll_appendleft_rep (CircularLinkedList.cll_init_rep S) x).cllrep_iter_eq
  · exact (CircularDoublyLinkedList.cdll_appendleft_rep
      (CircularDoublyLinkedList.cdll_init_rep S) x).toCLLRep.cllrep_iter_eq

/-- C6: every state of a doubly list (linear or circular) reachable from a
construction by `append`/`appendleft`/`pop`/`popleft`/`reverse` is a
represented state, and on its nodes the back-pointer invariant holds: a
present `next` is answered by `last` and a present `last` by `next`. -/
theorem claim_C6 (S : List Nat) (ops : List (DOp Nat)) :
    (∃ locs vals, DLLRep (DLLState.run (DoublyLinkedList.init S) ops) locs vals ∧
      ∀ a ∈ locs, ∀ b,
        (((DLLState.run (DoublyLinkedList.init S) ops).mem.read a).next = some b →
          ((DLLState.run (DoublyLinkedList.init S) ops).mem.read b).last = some a) ∧
        (((DLLState.run (DoublyLinkedList.init S) ops).mem.read a).last = some b →
          ((DLLState.run (DoublyLinkedList.init S) ops).mem.read b).next = some a)) ∧
    (∃ locs vals,
      CDLLRep (CircState.runCDLL (CircularDoublyLinkedList.init S) ops) locs vals ∧
      ∀ a ∈ locs, ∀ b,
        (((CircState.runCDLL (CircularDoublyLinkedList.init S) ops).mem.read a).next
            = some b →
          ((CircState.runCDLL (CircularDoublyLinkedList.init S) ops).mem.read b).last
            = some a) ∧
        (((CircState.runCDLL (CircularDoublyLinkedList.init S) ops).mem.read a).last
            = some b →
          ((CircState.runCDLL (CircularDoublyLinkedList.init S) ops).mem.read b).next
            = some a)) := by
  constructor
  · obtain ⟨locs, vals, h⟩ := DLLState.run_rep ops (DoublyLinkedList.dll_init_rep S)
    exact ⟨locs, vals, h, h.dllrep_backptr⟩
  · obtain ⟨locs, vals, h⟩ :=
      CircState.runCDLL_rep ops (CircularDoublyLinkedList.cdll_init_rep S)
    exact ⟨locs, vals, h, h.cdllrep_backptr⟩

/-- C7: on a circular list built from a nonempty sequence the infinite
iterator truncated to three laps yields the sequence three times; on an empty
circular list it yields nothing for any truncation. -/
theorem claim_C7 (v : Nat) (vs : List Nat) (k : Nat) :
    (CircularLinkedList.init (v :: vs)).infTake (3 * (v :: vs).length)
      = (v :: vs) ++ ((v :: vs) ++ (v :: vs)) ∧
    (CircularDoublyLinkedList.init (v :: vs)).infTake (3 * (v :: vs).length)
      = (v :: vs) ++ ((v :: vs) ++ (v :: vs)) ∧
    (CircularLinkedList.init ([] : List Nat)).infTake k = [] ∧
    (CircularDoublyLinkedList.init ([] : List Nat)).infTake k = [] := by
  have hrs : List.range' 0 (v :: vs).length = 0 :: List.range' 1 vs.length := by
    rw [List.length_cons, range'_zero_succ]
  have h1 := CircularLinkedList.cll_init_rep (v :: vs)
  have h2 := (CircularDoublyLinkedList.cdll_init_rep (v :: vs)).toCLLRep
  rw [hrs] at h1 h2
  have hlenv : (v :: vs).length = ((v :: vs) : List Nat).length := rfl
  have e1 := CLLRep.infTake_three h1
  have e2 := CLLRep.infTake_three h2
  have htail1 : (CircularLinkedList.init ([] : List Nat)).tail = none := by
    rw [(CircularLinkedList.cll_init_rep ([] : List Nat)).tail_eq]
    rfl
  have htail2 : (CircularDoublyLinkedList.init ([] : List Nat)).tail = none := by
    rw [(CircularDoublyLinkedList.cdll_init_rep ([] : List Nat)).tail_eq]
    rfl
  refine ⟨e1, e2, ?_, ?_⟩
  · rw [CircState.infTake, htail1]
  · rw [CircState.infTake, htail2]

/-- C8 (amended): for both circular list classes the `head` property is
derived as `tail.next` whenever `tail` is present; when `tail` is absent the
property does not yield an absent head but raises `AttributeError`
(`None.next`). -/
theorem claim_C8 (m : Mem Nat) (t : Nat) :
    CircularLinkedList.headProp (⟨m, some t⟩ : CircState Nat) = .ok ((m.read t).next) ∧
    CircularDoublyLinkedList.headProp (⟨m, some t⟩ : CircState Nat)
      = .ok ((m.read t).next) ∧
    CircularLinkedList.headProp (⟨m, none⟩ : CircState Nat) = .error .attributeError ∧
    CircularDoublyLinkedList.headProp (⟨m, none⟩ : CircState Nat)
      = .error .attributeError :=
  ⟨rfl, rfl, rfl, rfl⟩

/-- C8 counterexample: on the empty circular list the `head` access raises
`AttributeError` — it is not "considered absent" as the claim states. -/
theorem claim_C8_counterexample :
    CircularLinkedList.headProp (CircularLinkedList.init ([] : List Nat))
      = .error .attributeError := rfl

/-- C9: circular nodes are constructed with a present `next` (self-referencing
when alone, for the doubly variant in both directions), every node of a
constructed circular list has a present `next`, and the single node left after
draining a circular list down to one element is self-linked. -/
theorem claim_C9 (m : Mem Nat) (x v : Nat) (vs : List Nat) :
    ((CircularLinkedNode.new m x none).1.read (CircularLinkedNode.new m x none).2).next
      = some (CircularLinkedNode.new m x none).2 ∧
    ((CircularDoublyLinkedNode.new m x none none).1.read
        (CircularDoublyLinkedNode.new m x none none).2).next
      = some (CircularDoublyLinkedNode.new m x none none).2 ∧
    ((CircularDoublyLinkedNode.new m x none none).1.read
        (CircularDoublyLinkedNode.new m x none none).2).last
      = some (CircularDoublyLinkedNode.new m x none none).2 ∧
    (∀ next?, (((CircularLinkedNode.new m x next?).1.read
        (CircularLinkedNode.new m x next?).2).next).isSome = true) ∧
    (∀ a ∈ List.range' 0 (v :: vs).length,
      (((CircularLinkedList.init (v :: vs)).mem.read a).next).isSome = true) ∧
    (∀ a ∈ List.range' 0 (v :: vs).length,
      (((CircularDoublyLinkedList.init (v :: vs)).mem.read a).next).isSome = true) ∧
    (CircularLinkedList.popLefts vs.length (CircularLinkedList.init (v :: vs))).tail
      = some vs.length ∧
    (((CircularLinkedList.popLefts vs.length
        (CircularLinkedList.init (v :: vs))).mem.read vs.length).next)
      = some vs.length ∧
    (CircularDoublyLinkedList.popLefts vs.length
      (CircularDoublyLinkedList.init (v :: vs))).tail = some vs.length ∧
    (((CircularDoublyLinkedList.popLefts vs.length
        (CircularDoublyLinkedList.init (v :: vs))).mem.read vs.length).next)
      = some vs.length ∧
    (((CircularDoublyLinkedList.popLefts vs.length
        (CircularDoublyLinkedList.init (v :: vs))).mem.read vs.length).last)
      = some vs.length := by
  have hrs : List.range' 0 (v :: vs).length = 0 :: List.range' 1 vs.length := by
    rw [List.length_cons, range'_zero_succ]
  have h1 := CircularLinkedList.cll_init_rep (v :: vs)
  have h2 := CircularDoublyLinkedList.cdll_init_rep (v :: vs)
  -- the splits used by the drained-to-one parts
  have hsplitL : List.range' 0 (v :: vs).length
      = List.range' 0 vs.length ++ [vs.length] := by
    rw [List.length_cons, range'_zero_concat]
  have hvne : (v :: vs : List Nat) ≠ [] := by simp
  have hsplitV : (v :: vs : List Nat).dropLast ++ [(v :: vs).getLast hvne] = v :: vs :=
    List.dropLast_append_getLast hvne
  have hlens : (List.range' 0 vs.length).length = ((v :: vs : List Nat).dropLast).length := by
    simp
  have h1' : CLLRep (CircularLinkedList.init (v :: vs))
      (List.range' 0 vs.length ++ [vs.length])
      ((v :: vs : List Nat).dropLast ++ [(v :: vs).getLast hvne]) := by
    rw [hsplitV, ← hsplitL]
    exact h1
  have h2' : CDLLRep (CircularDoublyLinkedList.init (v :: vs))
      (List.range' 0 vs.length ++ [vs.length])
      ((v :: vs : List Nat).dropLast ++ [(v :: vs).getLast hvne]) := by
    rw [hsplitV, ← hsplitL]
    exact h2
  have hd1 := CircularLinkedList.cll_popLefts_rep hlens h1'
  have hd2 := CircularDoublyLinkedList.cdll_popLefts_rep hlens h2'
  rw [List.length_range'] at hd1 hd2
  obtain ⟨ht1, hn1⟩ := hd1.cllrep_single_self_linked
  obtain ⟨ht2, hn2, hl2⟩ := hd2.cdllrep_single_self_linked
  refine ⟨?_, ?_, ?_, ?_, ?_, ?_, ht1, hn1, ht2, hn2, hl2⟩
  · show ((m.alloc ⟨x, some m.size, none⟩).1.read m.size).next = some m.size
    rw [Mem.read_alloc, if_pos rfl]
  · show ((m.alloc ⟨x, some m.size, some m.size⟩).1.read m.size).next = some m.size
    rw [Mem.read_alloc, if_pos rfl]
  · show ((m.alloc ⟨x, some m.size, some m.size⟩).1.read m.size).last = some m.size
    rw [Mem.read_alloc, if_pos rfl]
  · intro next?
    show ((m.alloc ⟨x, some (next?.getD m.size), none⟩).1.read m.size).next.isSome = true
    rw [Mem.read_alloc, if_pos rfl]
    rfl
  · intro a ha
    have hch : isChain (CircularLinkedList.init (v :: vs)).mem (some 0)
        (0 :: List.range' 1 vs.length) (v :: vs) := by
      rw [← hrs]
      exact h1.chain
    rw [hrs] at ha
    exact isChain_next_isSome hch a ha
  · intro a ha
    have hch : isChain (CircularDoublyLinkedList.init (v :: vs)).mem (some 0)
        (0 :: List.range' 1 vs.length) (v :: vs) := by
      rw [← hrs]
      exact h2.chain.toChain
    rw [hrs] at ha
    exact isChain_next_isSome hch a ha

/-- C10: the node-level circular `from_iterable`s return the tail node — the
address allocated for the last element, whose stored value is the sequence's
last — not the head, and return absence on an empty input; since circular
iteration starts at `next`, iterating the returned tail still yields the
sequence in order. -/
theorem claim_C10 (v : Nat) (vs : List Nat) :
    (CircularLinkedNode.fromIterable Mem.empty none none (v :: vs)).2
      = some vs.length ∧
    ((CircularLinkedNode.fromIterable Mem.empty none none (v :: vs)).1.read
        vs.length).value = (v :: vs).getLast (List.cons_ne_nil v vs) ∧
    circNodeIter (CircularLinkedNode.fromIterable Mem.empty none none (v :: vs)).1
      (vs.length + 2) vs.length none = v :: vs ∧
    CircularLinkedNode.fromIterable (Mem.empty : Mem Nat) none none []
      = (Mem.empty, none) ∧
    (CircularDoublyLinkedNode.fromIterable Mem.empty none none (v :: vs)).2
      = some vs.length ∧
    ((CircularDoublyLinkedNode.fromIterable Mem.empty none none (v :: vs)).1.read
        vs.length).value = (v :: vs).getLast (List.cons_ne_nil v vs) ∧
    circNodeIter (CircularDoublyLinkedNode.fromIterable Mem.empty none none (v :: vs)).1
      (vs.length + 2) vs.length none = v :: vs ∧
    CircularDoublyLinkedNode.fromIterable (Mem.empty : Mem Nat) none none []
      = (Mem.empty, none) := by
  have hrs : List.range' 0 (v :: vs).length = 0 :: List.range' 1 vs.length := by
    rw [List.length_cons, range'_zero_succ]
  have hlast : (List.range' 0 (v :: vs).length).getLast? = some vs.length := by
    rw [List.length_cons, range'_zero_getLast?]
  have hnodup : (List.range' 0 (v :: vs).length).Nodup :=
    List.nodup_range' 0 (v :: vs).length 1 (by omega)
  have hvlast : (v :: vs : List Nat).getLast? = some ((v :: vs).getLast
      (List.cons_ne_nil v vs)) := List.getLast?_eq_getLast _ _
  obtain ⟨clnsize, clnret, clnch⟩ := CircularLinkedNode.cln_fromIterable_rep (α := Nat) v vs
  obtain ⟨cdnsize, cdnret, cdnchD⟩ :=
    CircularDoublyLinkedNode.cdln_fromIterable_rep (α := Nat) v vs
  have clnret' : (CircularLinkedNode.fromIterable Mem.empty none none (v :: vs)).2
      = some vs.length := by rw [clnret, hlast]
  have cdnret' : (CircularDoublyLinkedNode.fromIterable Mem.empty none none (v :: vs)).2
      = some vs.length := by rw [cdnret, hlast]
  have clnch' : isChain (CircularLinkedNode.fromIterable Mem.empty none none (v :: vs)).1
      (some 0) (0 :: List.range' 1 vs.length) (v :: vs) := by
    rw [← hrs]
    exact clnch
  have cdnch' : isChain
      (CircularDoublyLinkedNode.fromIterable Mem.empty none none (v :: vs)).1
      (some 0) (0 :: List.range' 1 vs.length) (v :: vs) := by
    rw [← hrs]
    exact cdnchD.toChain
  have hnodup' : (0 :: List.range' 1 vs.length).Nodup := by rw [← hrs]; exact hnodup
  have hlast' : (0 :: List.range' 1 vs.length).getLast? = some vs.length := by
    rw [← hrs]; exact hlast
  refine ⟨clnret', ?_, ?_, rfl, cdnret', ?_, ?_, rfl⟩
  · exact isChain_getLast_value clnch' hlast' hvlast
  · exact circNodeIter_cycle clnch' hnodup' hlast' (by simp)
  · exact isChain_getLast_value cdnch' hlast' hvlast
  · exact circNodeIter_cycle cdnch' hnodup' hlast' (by simp)
